import Mathlib

/-! Ownership handles of the repository: `shared.h`, `weak.h`, `unique.h`, `intrusive.h`

A shallow embedding of the control block, `SharedPtr`, `WeakPtr` and
`EnableSharedFromThis` of the repository.  Control blocks live in a heap
indexed by natural numbers; a handle is a pair of a nullable block index and a
raw address (address `0` is `nullptr`).  The `size_t` counters are natural
numbers reduced modulo `2 ^ 64` at every `++` and `--`.

Three fields of the model are bookkeeping that the C++ code does not have:
`destroyed` counts the calls of `DeleterPointer()` on a block, `freed` counts
the executions of `delete block_` on it, and `Heap.faults` counts the accesses
made through a `block_` pointer whose block had already been deleted.  After
such an access the model simply goes on with the values last stored in the
block.
-/

namespace SmartPtrs

/-- Number of values of a `size_t` counter. -/
def SIZE_MOD : Nat := 18446744073709551616

/-- The `++n` of a `size_t`. -/
def incr (n : Nat) : Nat := (n + 1) % SIZE_MOD

/-- The `--n` of a `size_t`: below zero it wraps to `SIZE_MOD - 1`. -/
def decr (n : Nat) : Nat := (n + (SIZE_MOD - 1)) % SIZE_MOD

/-- A `SharedPtr<T>`: the members `block_` and `pointer_`. -/
structure SharedPtr where
  block_ : Option Nat
  pointer_ : Nat
deriving DecidableEq

/-- A `WeakPtr<T>`: the members `block_` and `pointer_`, and the compile-time
fact `std::is_convertible_v<T*, EnableSharedFromThisBase*>` of its `T`. -/
structure WeakPtr where
  block_ : Option Nat
  pointer_ : Nat
  esft : Bool
deriving DecidableEq

/-- A `ControlBlock` together with a description of the object it manages.
`emplace` tells `ControlBlockEmplace` from `ControlBlockPtr`; `pointer_` is
`ControlBlockPtr::pointer_`, respectively the address of
`ControlBlockEmplace::storage`.  `weak_this_` is the member of the
`EnableSharedFromThis` base of the managed object (`none` when its type has no
such base) and `fields` are the other `WeakPtr` members of the managed object,
in the order in which its destructor destroys them. -/
structure ControlBlock where
  strong_count : Nat
  weak_count : Nat
  alive : Bool
  emplace : Bool
  pointer_ : Nat
  weak_this_ : Option WeakPtr
  fields : List WeakPtr
  destroyed : Nat
  freed : Nat
deriving DecidableEq

/-- The store of control blocks: `next` is the index the next `new` returns. -/
structure Heap where
  blocks : Nat → ControlBlock
  next : Nat
  faults : Nat

/-- Storage that no `new` has returned yet. -/
def ControlBlock.unused : ControlBlock :=
  { strong_count := 0, weak_count := 0, alive := true, emplace := false, pointer_ := 0,
    weak_this_ := none, fields := [], destroyed := 0, freed := 0 }

/-- The heap before any allocation. -/
def Heap.empty : Heap :=
  { blocks := fun _ => ControlBlock.unused, next := 0, faults := 0 }

/-- Overwrite block `b`. -/
def Heap.upd (s : Heap) (b : Nat) (B : ControlBlock) : Heap :=
  { s with blocks := fun i => if i = b then B else s.blocks i }

/-- The first of a run of accesses through `block_`: recorded in `faults` when
the block was never allocated or has been deleted. -/
def Heap.touch (s : Heap) (b : Nat) : Heap :=
  if b < s.next ∧ (s.blocks b).freed = 0 then s else { s with faults := s.faults + 1 }

/-- The statement `delete block_;` (both `~ControlBlockPtr` and
`~ControlBlockEmplace` have empty bodies, so only the storage goes). -/
def Heap.free (s : Heap) (b : Nat) : Heap :=
  s.upd b { s.blocks b with freed := (s.blocks b).freed + 1 }

/-- A `new ControlBlockPtr<T>(ptr)` or `new ControlBlockEmplace<T>(args...)`:
`strong_count = 1`, `weak_count = 0`, `alive = true`.  An object whose type
derives from `EnableSharedFromThis` starts with a default-constructed
`weak_this_`. -/
def Heap.alloc (s : Heap) (emplace : Bool) (ptr : Nat) (esft : Bool) : Heap × Nat :=
  ({ blocks := fun i => if i = s.next then
        { strong_count := 1, weak_count := 0, alive := true, emplace := emplace, pointer_ := ptr,
          weak_this_ := if esft then some ⟨none, 0, true⟩ else none, fields := [],
          destroyed := 0, freed := 0 }
      else s.blocks i,
     next := s.next + 1, faults := s.faults }, s.next)

/-! ## `WeakPtr` (`weak.h`) -/

/-- The default constructor `WeakPtr()`. -/
def WeakPtr.null (esft : Bool) : WeakPtr := ⟨none, 0, esft⟩

/-- `WeakPtr::AddWeak`. -/
def WeakPtr.AddWeak (s : Heap) (w : WeakPtr) : Heap :=
  match w.block_ with
  | none => s
  | some b =>
    let s1 := s.touch b
    s1.upd b { s1.blocks b with weak_count := incr (s1.blocks b).weak_count }

/-- `WeakPtr::DeleteWeak`, the body of `~WeakPtr`. -/
def WeakPtr.DeleteWeak (s : Heap) (w : WeakPtr) : Heap × WeakPtr :=
  match w.block_ with
  | none => (s, w)
  | some b =>
    let s1 := s.touch b
    let s2 := s1.upd b { s1.blocks b with weak_count := decr (s1.blocks b).weak_count }
    if (s2.blocks b).weak_count = 0 ∧ (s2.blocks b).strong_count = 0 then
      if (s2.blocks b).alive then
        if w.esft then (s2, w)
        else (s2.free b, { w with pointer_ := 0, block_ := none })
      else (s2.free b, { w with pointer_ := 0, block_ := none })
    else (s2, w)

/-- `WeakPtr::DeleteWeakFromThis`. -/
def WeakPtr.DeleteWeakFromThis (s : Heap) (w : WeakPtr) : Heap × WeakPtr :=
  match w.block_ with
  | none => (s, w)
  | some b =>
    let s1 := s.touch b
    let s2 := s1.upd b { s1.blocks b with weak_count := decr (s1.blocks b).weak_count }
    if (s2.blocks b).weak_count = 0 ∧ (s2.blocks b).strong_count = 0 then
      (s2.free b, { w with pointer_ := 0, block_ := none })
    else (s2, w)

/-- `WeakPtr(const WeakPtr& other)`. -/
def WeakPtr.copy (s : Heap) (other : WeakPtr) : Heap × WeakPtr :=
  let w : WeakPtr := ⟨other.block_, other.pointer_, other.esft⟩
  (WeakPtr.AddWeak s w, w)

/-- `WeakPtr(WeakPtr&& other)`: the new observer and what is left in `other`. -/
def WeakPtr.move (other : WeakPtr) : WeakPtr × WeakPtr :=
  (⟨other.block_, other.pointer_, other.esft⟩, { other with block_ := none, pointer_ := 0 })

/-- `WeakPtr(const SharedPtr<T>& other)`; `esft` is the compile-time fact of `T`. -/
def WeakPtr.fromShared (s : Heap) (other : SharedPtr) (esft : Bool) : Heap × WeakPtr :=
  let w : WeakPtr := ⟨other.block_, other.pointer_, esft⟩
  (WeakPtr.AddWeak s w, w)

/-- `WeakPtr::operator=(const WeakPtr& other)`; `same` is `this == &other`. -/
def WeakPtr.copyAssign (s : Heap) (this other : WeakPtr) (same : Bool) : Heap × WeakPtr :=
  if same then (s, this)
  else
    let r := WeakPtr.DeleteWeakFromThis s this
    let w : WeakPtr := { r.2 with block_ := other.block_, pointer_ := other.pointer_ }
    (WeakPtr.AddWeak r.1 w, w)

/-- `WeakPtr::operator=(WeakPtr&& other)`; `same` is `this == &other`.  Returns
the heap, `*this` and `other`. -/
def WeakPtr.moveAssign (s : Heap) (this other : WeakPtr) (same : Bool) :
    Heap × WeakPtr × WeakPtr :=
  if same then (s, this, other)
  else
    let r := WeakPtr.DeleteWeakFromThis s this
    (r.1, { r.2 with block_ := other.block_, pointer_ := other.pointer_ },
      { other with block_ := none, pointer_ := 0 })

/-- `WeakPtr::Reset`. -/
def WeakPtr.Reset (s : Heap) (this : WeakPtr) : Heap × WeakPtr :=
  let r := WeakPtr.DeleteWeakFromThis s this
  (r.1, { r.2 with pointer_ := 0, block_ := none })

/-- `WeakPtr::Swap`. -/
def WeakPtr.Swap (this other : WeakPtr) : WeakPtr × WeakPtr :=
  ({ this with block_ := other.block_, pointer_ := other.pointer_ },
   { other with block_ := this.block_, pointer_ := this.pointer_ })

/-- `WeakPtr::UseCount`. -/
def WeakPtr.UseCount (s : Heap) (w : WeakPtr) : Nat :=
  match w.block_ with
  | some b => (s.blocks b).strong_count
  | none => 0

/-- `WeakPtr::Expired`. -/
def WeakPtr.Expired (s : Heap) (w : WeakPtr) : Bool :=
  match w.block_ with
  | none => true
  | some b => if (s.blocks b).strong_count = 0 then true else false

/-! ## `SharedPtr` (`shared.h`) -/

/-- The constructors `SharedPtr()` and `SharedPtr(std::nullptr_t)`. -/
def SharedPtr.null : SharedPtr := ⟨none, 0⟩

/-- `SharedPtr(ControlBlock* block, T* pointer)`. -/
def SharedPtr.ofBlock (s : Heap) (block : Option Nat) (pointer : Nat) : Heap × SharedPtr :=
  match block with
  | none => (s, ⟨none, pointer⟩)
  | some b =>
    let s1 := s.touch b
    if (s1.blocks b).alive then (s1, ⟨some b, pointer⟩)
    else (s1.upd b { s1.blocks b with strong_count := incr (s1.blocks b).strong_count },
          ⟨some b, pointer⟩)

/-- The destructor of the managed object, as far as the heap sees it: the
`WeakPtr` members are destroyed one after the other by `~WeakPtr`. -/
def destroyMembers (s : Heap) : List WeakPtr → Heap × List WeakPtr
  | [] => (s, [])
  | m :: ms =>
    let r := WeakPtr.DeleteWeak s m
    let rs := destroyMembers r.1 ms
    (rs.1, r.2 :: rs.2)

/-- `~T()` on the object of block `b`: the members of the derived part first,
the `EnableSharedFromThis` base (its `weak_this_`) last. -/
def destroyObject (s : Heap) (b : Nat) : Heap :=
  let r := destroyMembers s (s.blocks b).fields
  match (s.blocks b).weak_this_ with
  | none => r.1.upd b { r.1.blocks b with fields := r.2 }
  | some wt =>
    let q := WeakPtr.DeleteWeak r.1 wt
    q.1.upd b { q.1.blocks b with fields := r.2, weak_this_ := some q.2 }

/-- `ControlBlockPtr::DeleterPointer` (`delete pointer_; alive = false;`) and
`ControlBlockEmplace::DeleterPointer` (`std::destroy_at`, nothing else). -/
def ControlBlock.DeleterPointer (s : Heap) (b : Nat) : Heap :=
  let s1 := s.upd b { s.blocks b with destroyed := (s.blocks b).destroyed + 1 }
  let s2 := destroyObject s1 b
  if (s.blocks b).emplace then s2
  else
    let s3 := s2.touch b
    s3.upd b { s3.blocks b with alive := false }

/-- `SharedPtr::DeleteBlock`, the body of `~SharedPtr`. -/
def SharedPtr.DeleteBlock (s : Heap) (h : SharedPtr) : Heap :=
  match h.block_ with
  | none => s
  | some b =>
    let s1 := s.touch b
    let s2 := s1.upd b { s1.blocks b with strong_count := decr (s1.blocks b).strong_count }
    if (s2.blocks b).strong_count = 0 then
      let s3 := if (s2.blocks b).alive then ControlBlock.DeleterPointer s2 b else s2
      let s4 := s3.touch b
      if (s4.blocks b).weak_count = 0 then s4.free b else s4
    else s2

/-- `SharedPtr::InitWeakThis(e)`, that is `e->weak_this_ = *this;`: a temporary
`WeakPtr` is built from `*this`, move-assigned to the member and destroyed.
`e` is the block whose object is `*e`. -/
def SharedPtr.InitWeakThis (s : Heap) (this : SharedPtr) (e : Nat) : Heap :=
  match (s.blocks e).weak_this_ with
  | none => s
  | some wt =>
    let t := WeakPtr.fromShared s this true
    let a := WeakPtr.moveAssign t.1 wt t.2 false
    let s2 := a.1.upd e { a.1.blocks e with weak_this_ := some a.2.1 }
    (WeakPtr.DeleteWeak s2 a.2.2).1

/-- `SharedPtr(T* ptr)`; `esft` is `std::is_convertible_v<T*, EnableSharedFromThisBase*>`. -/
def SharedPtr.fromRaw (s : Heap) (ptr : Nat) (esft : Bool) : Heap × SharedPtr :=
  let a := s.alloc false ptr esft
  let h : SharedPtr := ⟨some a.2, ptr⟩
  (if esft then SharedPtr.InitWeakThis a.1 h a.2 else a.1, h)

/-- `SharedPtr(ControlBlockEmplace<T>* block)`. -/
def SharedPtr.ofEmplace (s : Heap) (block : Nat) (esft : Bool) : Heap × SharedPtr :=
  let h : SharedPtr := ⟨some block, (s.blocks block).pointer_⟩
  (if esft then SharedPtr.InitWeakThis s h block else s, h)

/-- `MakeShared<T>(args...)`; `addr` is the address of the storage inside the
block that `new` returns. -/
def MakeShared (s : Heap) (addr : Nat) (esft : Bool) : Heap × SharedPtr :=
  let a := s.alloc true addr esft
  SharedPtr.ofEmplace a.1 a.2 esft

/-- `SharedPtr(const SharedPtr& other)`. -/
def SharedPtr.copy (s : Heap) (other : SharedPtr) : Heap × SharedPtr :=
  match other.block_ with
  | none => (s, ⟨none, other.pointer_⟩)
  | some b =>
    let s1 := s.touch b
    (s1.upd b { s1.blocks b with strong_count := incr (s1.blocks b).strong_count },
      ⟨some b, other.pointer_⟩)

/-- `SharedPtr(SharedPtr&& other)`: the new handle and what is left in `other`. -/
def SharedPtr.move (other : SharedPtr) : SharedPtr × SharedPtr :=
  (⟨other.block_, other.pointer_⟩, ⟨none, 0⟩)

/-- The aliasing constructor `SharedPtr(const SharedPtr<Y>& other, T* ptr)`.
When `other.block_` is null neither member is initialised: `uninit` stands for
the indeterminate values. -/
def SharedPtr.alias (s : Heap) (other : SharedPtr) (ptr : Nat) (uninit : SharedPtr) :
    Heap × SharedPtr :=
  match other.block_ with
  | none => (s, uninit)
  | some b =>
    let s1 := s.touch b
    (s1.upd b { s1.blocks b with strong_count := incr (s1.blocks b).strong_count },
      ⟨some b, ptr⟩)

/-- The exception `BadWeakPtr`. -/
inductive BadWeakPtr where
  | thrown
deriving DecidableEq

/-- The promoting constructor `SharedPtr(const WeakPtr<T>& other)`. -/
def SharedPtr.fromWeak (s : Heap) (other : WeakPtr) : Except BadWeakPtr (Heap × SharedPtr) :=
  match other.block_ with
  | none => .ok (s, ⟨none, other.pointer_⟩)
  | some b =>
    let s1 := s.touch b
    if (s1.blocks b).strong_count = 0 then .error .thrown
    else
      .ok (s1.upd b { s1.blocks b with strong_count := incr (s1.blocks b).strong_count },
        ⟨some b, other.pointer_⟩)

/-- `SharedPtr::operator=(const SharedPtr& other)`; `same` is `this == &other`. -/
def SharedPtr.copyAssign (s : Heap) (this other : SharedPtr) (same : Bool) : Heap × SharedPtr :=
  if same then (s, this)
  else
    let s1 := SharedPtr.DeleteBlock s this
    match other.block_ with
    | none => (s1, ⟨none, other.pointer_⟩)
    | some b =>
      let s2 := s1.touch b
      (s2.upd b { s2.blocks b with strong_count := incr (s2.blocks b).strong_count },
        ⟨some b, other.pointer_⟩)

/-- `SharedPtr::operator=(SharedPtr&& other)`; `same` is `this == &other`.
Returns the heap, `*this` and `other`. -/
def SharedPtr.moveAssign (s : Heap) (this other : SharedPtr) (same : Bool) :
    Heap × SharedPtr × SharedPtr :=
  if same then (s, this, other)
  else (SharedPtr.DeleteBlock s this, ⟨other.block_, other.pointer_⟩, ⟨none, 0⟩)

/-- `SharedPtr::Reset()`. -/
def SharedPtr.Reset (s : Heap) (this : SharedPtr) : Heap × SharedPtr :=
  (SharedPtr.DeleteBlock s this, ⟨none, 0⟩)

/-- `SharedPtr::Reset(T* ptr)`: a new `ControlBlockPtr`, and no `InitWeakThis`. -/
def SharedPtr.ResetPtr (s : Heap) (this : SharedPtr) (ptr : Nat) (esft : Bool) :
    Heap × SharedPtr :=
  let a := (SharedPtr.DeleteBlock s this).alloc false ptr esft
  (a.1, ⟨some a.2, ptr⟩)

/-- `SharedPtr::Swap`. -/
def SharedPtr.Swap (this other : SharedPtr) : SharedPtr × SharedPtr :=
  (⟨other.block_, other.pointer_⟩, ⟨this.block_, this.pointer_⟩)

/-- `SharedPtr::Get`. -/
def SharedPtr.Get (h : SharedPtr) : Nat := h.pointer_

/-- `SharedPtr::UseCount`. -/
def SharedPtr.UseCount (s : Heap) (h : SharedPtr) : Nat :=
  match h.block_ with
  | some b => (s.blocks b).strong_count
  | none => 0

/-- `SharedPtr::operator bool`. -/
def SharedPtr.toBool (h : SharedPtr) : Bool := decide (h.pointer_ ≠ 0)

/-- `operator==` on two `SharedPtr`. -/
def SharedPtr.eq (left right : SharedPtr) : Bool := decide (left.Get = right.Get)

/-- `WeakPtr::Lock`. -/
def WeakPtr.Lock (s : Heap) (w : WeakPtr) : Heap × SharedPtr :=
  if WeakPtr.Expired s w then SharedPtr.ofBlock s w.block_ 0
  else
    let r := SharedPtr.ofBlock s w.block_ w.pointer_
    match w.block_ with
    | none => r
    | some b =>
      let s1 := r.1.touch b
      (s1.upd b { s1.blocks b with strong_count := incr (s1.blocks b).strong_count }, r.2)

/-- `EnableSharedFromThis::SharedFromThis` on the object of block `e`
(`none`: the type of that object has no such member function). -/
def SharedFromThis (s : Heap) (e : Nat) : Option (Except BadWeakPtr (Heap × SharedPtr)) :=
  match (s.blocks e).weak_this_ with
  | none => none
  | some wt => some (SharedPtr.fromWeak s wt)

/-- `EnableSharedFromThis::WeakFromThis` on the object of block `e`. -/
def WeakFromThis (s : Heap) (e : Nat) : Option (Heap × WeakPtr) :=
  match (s.blocks e).weak_this_ with
  | none => none
  | some wt => some (WeakPtr.copy s wt)

/-! ## Client programs

A client program holds its handles in numbered variables.  `shared` and `weak`
list them in the order of their construction; a destroyed handle leaves `none`
behind.  An `Op` is one statement of the program.  Statements that C++ gives no
meaning (a use of a destroyed or missing variable, the aliasing constructor on
an empty handle, `SharedFromThis` through a handle that does not point at the
managed object or on a type without it) are not program steps: `step` skips
them.  Every owner variable of a `Machine` is a variable of the program, and no
statement assigns a managed object; managed objects that hold owners are
programs on a `Nest`, and `assignObject` is the assignment of a managed
object. -/

/-- The heap and the handle variables of a client program. -/
structure Machine where
  heap : Heap
  shared : List (Option SharedPtr)
  weak : List (Option WeakPtr)

/-- The program state before the first statement. -/
def Machine.init : Machine := { heap := Heap.empty, shared := [], weak := [] }

/-- One statement.  Indices name handle variables: `i`, `j` owners and `w`, `v`
observers. -/
inductive Op where
  | null
  | fromRaw (ptr : Nat) (esft : Bool)
  | makeShared (addr : Nat) (esft : Bool)
  | copy (i : Nat)
  | move (i : Nat)
  | aliasing (i : Nat) (ptr : Nat)
  | fromWeak (w : Nat)
  | copyAssign (i j : Nat)
  | moveAssign (i j : Nat)
  | reset (i : Nat)
  | resetPtr (i : Nat) (ptr : Nat) (esft : Bool)
  | swap (i j : Nat)
  | destroy (i : Nat)
  | sharedFromThis (i : Nat)
  | lock (w : Nat)
  | weakNull (esft : Bool)
  | weakFromShared (i : Nat) (esft : Bool)
  | weakCopy (w : Nat)
  | weakMove (w : Nat)
  | weakCopyAssign (w v : Nat)
  | weakMoveAssign (w v : Nat)
  | weakReset (w : Nat)
  | weakSwap (w v : Nat)
  | weakDestroy (w : Nat)
  | weakFromThis (i : Nat)
deriving DecidableEq

/-- The live owner in variable `i`. -/
def Machine.sh (M : Machine) (i : Nat) : Option SharedPtr := M.shared.getD i none

/-- The live observer in variable `w`. -/
def Machine.wk (M : Machine) (w : Nat) : Option WeakPtr := M.weak.getD w none

/-- A new owner variable. -/
def Machine.pushShared (M : Machine) (s : Heap) (h : SharedPtr) : Machine :=
  { heap := s, shared := M.shared ++ [some h], weak := M.weak }

/-- A new observer variable. -/
def Machine.pushWeak (M : Machine) (s : Heap) (w : WeakPtr) : Machine :=
  { heap := s, shared := M.shared, weak := M.weak ++ [some w] }

/-- The outcome of a promoting constructor: a new owner variable, or nothing
when `BadWeakPtr` was thrown. -/
def Machine.pushResult (M : Machine) : Except BadWeakPtr (Heap × SharedPtr) → Machine
  | .ok r => M.pushShared r.1 r.2
  | .error _ => M

/-- Execute one statement. -/
def step (M : Machine) : Op → Machine
  | .null => M.pushShared M.heap SharedPtr.null
  | .fromRaw ptr esft =>
    let r := SharedPtr.fromRaw M.heap ptr esft
    M.pushShared r.1 r.2
  | .makeShared addr esft =>
    let r := MakeShared M.heap addr esft
    M.pushShared r.1 r.2
  | .copy i =>
    match M.sh i with
    | none => M
    | some h =>
      let r := SharedPtr.copy M.heap h
      M.pushShared r.1 r.2
  | .move i =>
    match M.sh i with
    | none => M
    | some h =>
      let r := SharedPtr.move h
      { heap := M.heap, shared := M.shared.set i (some r.2) ++ [some r.1], weak := M.weak }
  | .aliasing i ptr =>
    match M.sh i with
    | none => M
    | some h =>
      if h.block_.isSome then
        let r := SharedPtr.alias M.heap h ptr SharedPtr.null
        M.pushShared r.1 r.2
      else M
  | .fromWeak w =>
    match M.wk w with
    | none => M
    | some x => M.pushResult (SharedPtr.fromWeak M.heap x)
  | .copyAssign i j =>
    match M.sh i, M.sh j with
    | some a, some b =>
      let r := SharedPtr.copyAssign M.heap a b (decide (i = j))
      { heap := r.1, shared := M.shared.set i (some r.2), weak := M.weak }
    | _, _ => M
  | .moveAssign i j =>
    match M.sh i, M.sh j with
    | some a, some b =>
      let r := SharedPtr.moveAssign M.heap a b (decide (i = j))
      { heap := r.1, shared := (M.shared.set j (some r.2.2)).set i (some r.2.1), weak := M.weak }
    | _, _ => M
  | .reset i =>
    match M.sh i with
    | none => M
    | some h =>
      let r := SharedPtr.Reset M.heap h
      { heap := r.1, shared := M.shared.set i (some r.2), weak := M.weak }
  | .resetPtr i ptr esft =>
    match M.sh i with
    | none => M
    | some h =>
      let r := SharedPtr.ResetPtr M.heap h ptr esft
      { heap := r.1, shared := M.shared.set i (some r.2), weak := M.weak }
  | .swap i j =>
    match M.sh i, M.sh j with
    | some a, some b =>
      let r := SharedPtr.Swap a b
      { heap := M.heap, shared := (M.shared.set j (some r.2)).set i (some r.1), weak := M.weak }
    | _, _ => M
  | .destroy i =>
    match M.sh i with
    | none => M
    | some h =>
      { heap := SharedPtr.DeleteBlock M.heap h, shared := M.shared.set i none, weak := M.weak }
  | .sharedFromThis i =>
    match M.sh i with
    | none => M
    | some h =>
      match h.block_ with
      | none => M
      | some e =>
        if h.pointer_ = (M.heap.blocks e).pointer_ then
          match SharedFromThis M.heap e with
          | some r => M.pushResult r
          | none => M
        else M
  | .lock w =>
    match M.wk w with
    | none => M
    | some x =>
      let r := WeakPtr.Lock M.heap x
      M.pushShared r.1 r.2
  | .weakNull esft => M.pushWeak M.heap (WeakPtr.null esft)
  | .weakFromShared i esft =>
    match M.sh i with
    | none => M
    | some h =>
      let r := WeakPtr.fromShared M.heap h esft
      M.pushWeak r.1 r.2
  | .weakCopy w =>
    match M.wk w with
    | none => M
    | some x =>
      let r := WeakPtr.copy M.heap x
      M.pushWeak r.1 r.2
  | .weakMove w =>
    match M.wk w with
    | none => M
    | some x =>
      let r := WeakPtr.move x
      { heap := M.heap, shared := M.shared, weak := M.weak.set w (some r.2) ++ [some r.1] }
  | .weakCopyAssign w v =>
    match M.wk w, M.wk v with
    | some a, some b =>
      let r := WeakPtr.copyAssign M.heap a b (decide (w = v))
      { heap := r.1, shared := M.shared, weak := M.weak.set w (some r.2) }
    | _, _ => M
  | .weakMoveAssign w v =>
    match M.wk w, M.wk v with
    | some a, some b =>
      let r := WeakPtr.moveAssign M.heap a b (decide (w = v))
      { heap := r.1, shared := M.shared, weak := (M.weak.set v (some r.2.2)).set w (some r.2.1) }
    | _, _ => M
  | .weakReset w =>
    match M.wk w with
    | none => M
    | some x =>
      let r := WeakPtr.Reset M.heap x
      { heap := r.1, shared := M.shared, weak := M.weak.set w (some r.2) }
  | .weakSwap w v =>
    match M.wk w, M.wk v with
    | some a, some b =>
      let r := WeakPtr.Swap a b
      { heap := M.heap, shared := M.shared, weak := (M.weak.set v (some r.2)).set w (some r.1) }
    | _, _ => M
  | .weakDestroy w =>
    match M.wk w with
    | none => M
    | some x =>
      { heap := (WeakPtr.DeleteWeak M.heap x).1, shared := M.shared, weak := M.weak.set w none }
  | .weakFromThis i =>
    match M.sh i with
    | none => M
    | some h =>
      match h.block_ with
      | none => M
      | some e =>
        if h.pointer_ = (M.heap.blocks e).pointer_ then
          match WeakFromThis M.heap e with
          | some r => M.pushWeak r.1 r.2
          | none => M
        else M

/-- Execute a program from state `M`. -/
def run (M : Machine) (ops : List Op) : Machine := ops.foldl step M

/-- The statement `obj->fields[k] = h;` on the object of block `e`, for a
`WeakPtr` member of that object and an owner `h`: a temporary `WeakPtr` is built
from `h`, move-assigned to the member and destroyed.  `esft` is the
compile-time fact of the member's `T`. -/
def assignField (s : Heap) (e : Nat) (k : Nat) (h : SharedPtr) (esft : Bool) : Heap :=
  let t := WeakPtr.fromShared s h esft
  let a := WeakPtr.moveAssign t.1 ((t.1.blocks e).fields.getD k (WeakPtr.null esft)) t.2 false
  let s2 := a.1.upd e { a.1.blocks e with
    fields := if k < (a.1.blocks e).fields.length then (a.1.blocks e).fields.set k a.2.1
              else (a.1.blocks e).fields ++ [a.2.1] }
  (WeakPtr.DeleteWeak s2 a.2.2).1

/-! ## Invariants of client programs -/

/-- The part of a block that the `WeakPtr` functions never write: everything
but `weak_count` and the `freed` bookkeeping. -/
def Heap.core (s : Heap) (b : Nat) : ControlBlock :=
  { s.blocks b with weak_count := 0, freed := 0 }

/-- Does the variable hold a live owner attached to block `b`? -/
def pointsTo (b : Nat) : Option SharedPtr → Bool
  | some h => decide (h.block_ = some b)
  | none => false

/-- The number of live `SharedPtr` variables attached to block `b`. -/
def owners (l : List (Option SharedPtr)) (b : Nat) : Nat := l.countP (pointsTo b)

/-- The number of live `SharedPtr` handles of the program attached to `b`. -/
def Machine.owners (M : Machine) (b : Nat) : Nat := SmartPtrs.owners M.shared b

/-- The statements that build an owner out of an observer. -/
def Op.promotes : Op → Bool
  | .fromWeak _ => true
  | .sharedFromThis _ => true
  | .lock _ => true
  | _ => false

/-- Every block index held by an owner variable has been allocated. -/
def RangeS (l : List (Option SharedPtr)) (n : Nat) : Prop :=
  ∀ o ∈ l, ∀ h b, o = some h → h.block_ = some b → b < n

/-- Every block index held by an observer variable has been allocated. -/
def RangeW (l : List (Option WeakPtr)) (n : Nat) : Prop :=
  ∀ o ∈ l, ∀ w b, o = some w → w.block_ = some b → b < n

/-- What holds in every state of every client program, as long as the managed
object of a block has not been destroyed: the block counts exactly the live
owners attached to it, of which there is at least one. -/
structure Inv (M : Machine) : Prop where
  rangeS : RangeS M.shared M.heap.next
  rangeW : RangeW M.weak M.heap.next
  selfW : ∀ e wt b, (M.heap.core e).weak_this_ = some wt → wt.block_ = some b →
    b = e ∧ e < M.heap.next
  counted : ∀ b, b < M.heap.next → (M.heap.core b).destroyed = 0 →
    (M.heap.core b).strong_count = M.owners b ∧ (M.heap.core b).alive = true ∧ 1 ≤ M.owners b
  latent : ∀ e, e < M.heap.next → (M.heap.core e).emplace = true →
    (M.heap.core e).destroyed = 0 → ∀ wt, (M.heap.core e).weak_this_ = some wt →
    wt = ⟨some e, (M.heap.core e).pointer_, true⟩

/-- One statement takes `M` to `M'`: no block is given back to the allocator,
and an object that exists in `M` either still exists in `M'`, or it has been
destroyed once and no live owner is attached to its block any more. -/
def Trans (M M' : Machine) : Prop :=
  M.heap.next ≤ M'.heap.next ∧
  ∀ b, b < M.heap.next → (M.heap.core b).destroyed = 0 →
    (M'.heap.core b).destroyed = 0 ∨ ((M'.heap.core b).destroyed = 1 ∧ M'.owners b = 0)

/-- Nothing is destroyed between `M` and `M'`, and no block without owners
gets one. -/
def Quiet (M M' : Machine) : Prop :=
  M.heap.next ≤ M'.heap.next ∧
  ∀ b, b < M.heap.next → (M'.heap.core b).destroyed = (M.heap.core b).destroyed ∧
    (M.owners b = 0 → M'.owners b = 0)

/-- In programs that never build an owner out of an observer, a block with a
live owner still has its object. -/
def Intact (M : Machine) : Prop :=
  ∀ b, 1 ≤ M.owners b → (M.heap.core b).destroyed = 0

/-- What a destructor does to a `WeakPtr` member: nothing, or it nulls it. -/
def Faded (old new : Option WeakPtr) : Prop :=
  ∀ n, new = some n → ∃ o, old = some o ∧ (n = o ∨ n = ⟨none, 0, o.esft⟩)

/-- The core of a heap after `++strong_count` on block `b`. -/
def bump (c : Nat → ControlBlock) (b : Nat) : Nat → ControlBlock :=
  fun i => if i = b then { c b with strong_count := incr (c b).strong_count } else c i

/-- The core of the block that `SharedPtr(T*)` and `MakeShared` create at index
`n`, once `InitWeakThis` has run. -/
def freshCore (n : Nat) (emplace : Bool) (ptr : Nat) (esft : Bool) : ControlBlock :=
  { strong_count := 1, weak_count := 0, alive := true, emplace := emplace, pointer_ := ptr,
    weak_this_ := if esft then some ⟨some n, ptr, true⟩ else none, fields := [],
    destroyed := 0, freed := 0 }

/-! ## Scenarios used below -/

/-- `auto sp = MakeShared<T>(...); WeakPtr<T> w(sp); auto s = w.Lock();` on the
heap `s0`: the heap afterwards, `sp` and `s`.  `esft` is the compile-time fact
of `T` seen by `MakeShared`, `wesft` the one seen by the `WeakPtr`. -/
def lockedOnce (s0 : Heap) (addr : Nat) (esft wesft : Bool) : Heap × SharedPtr × SharedPtr :=
  let sp := MakeShared s0 addr esft
  let w := WeakPtr.fromShared sp.1 sp.2 wesft
  let l := WeakPtr.Lock w.1 w.2
  (l.1, sp.2, l.2)

/-- The state after the statement `SharedPtr<U> B(A, ptr);` that follows the
program `ops`, `A` being its owner variable `i`. -/
def aliased (ops : List Op) (i ptr : Nat) : Machine :=
  step (run Machine.init ops) (.aliasing i ptr)

/-- The observer `w` of the program `SharedPtr<T> sp(p); WeakPtr<T> w(sp);`. -/
def observerOf (ptr : Nat) (esft : Bool) : WeakPtr := ⟨some 0, ptr, esft⟩

/-- `SharedPtr<T> sp(new T); WeakPtr<T> w(sp); sp.Reset(); auto s1 = w.Lock();`
for a `T` without `EnableSharedFromThis`: the object is gone, `s1` is attached
to its `ControlBlockPtr`. -/
def relockedPtr : Machine :=
  run Machine.init [.fromRaw 100 false, .weakFromShared 0 false, .reset 0, .lock 0]

/-- `auto sp = MakeShared<T>(); WeakPtr<T> w(sp); sp.Reset(); auto s = w.Lock();
auto s2 = s;` followed by the destruction of `s2`. -/
def relockedEmplace : Machine :=
  run Machine.init
    [.makeShared 100 false, .weakFromShared 0 false, .reset 0, .lock 0, .copy 1, .destroy 2]

/-- `auto sp = MakeShared<T>(); { WeakPtr<T> w(sp); sp.Reset(); }` for a `T`
derived from `EnableSharedFromThis<T>`: the observer `w` dies by its
destructor. -/
def orphanedEmplace : Machine :=
  run Machine.init [.makeShared 100 true, .weakFromShared 0 true, .reset 0, .weakDestroy 0]

/-- `struct Node { WeakPtr<Node> self; }; auto sp = MakeShared<Node>();
sp->self = sp;` (or `SharedPtr<Node> sp(new Node)` when `emplace` is false):
the heap and the owner `sp`. -/
def selfObserved (emplace : Bool) : Heap × SharedPtr :=
  let r := if emplace then MakeShared Heap.empty 100 false
           else SharedPtr.fromRaw Heap.empty 100 false
  (assignField r.1 0 0 r.2 false, r.2)

/-- `SharedPtr<T> sp(new T)` (or `MakeShared<T>()` when `emplace`), then
`WeakPtr<T> w(sp); sp.Reset();`: the last owner is gone, the block stays for
the observer `w`. -/
def expiredBlock (emplace : Bool) : Machine :=
  run Machine.init
    [if emplace then .makeShared 100 false else .fromRaw 100 false, .weakFromShared 0 false,
     .reset 0]

/-- `auto sp = MakeShared<T>(); WeakPtr<T> w(sp); sp.Reset(); auto s = w.Lock();`:
the owner variable 1 holds `s`. -/
def lockedExpiredEmplace : Machine := step (expiredBlock true) (.lock 0)

/-! ## `UniquePtr` (`unique.h`)

The deleter is an opaque callable.  The model keeps a log of its invocations:
every function takes the log so far and returns the log afterwards. -/

/-- One invocation `data_.GetSecond()(arg)`: which deleter ran, on which
pointer, and what `data_.GetFirst()` of the calling wrapper held at that
moment. -/
structure DeleterCall where
  deleter : Nat
  arg : Nat
  held : Nat
deriving DecidableEq

/-- A `UniquePtr<T, Deleter>`: `data_.GetFirst()` (address `0` is `nullptr`)
and `data_.GetSecond()`, the deleter, known by a name. -/
structure UniquePtr where
  first : Nat
  second : Nat
deriving DecidableEq

/-- `UniquePtr(T* ptr, Deleter deleter)`. -/
def UniquePtr.ofRaw (ptr deleter : Nat) : UniquePtr := ⟨ptr, deleter⟩

/-- `UniquePtr(UniquePtr&& other)`: the log, the new wrapper and what is left
in `other`. -/
def UniquePtr.moveFrom (log : List DeleterCall) (other : UniquePtr) :
    List DeleterCall × UniquePtr × UniquePtr :=
  (log, ⟨other.first, other.second⟩, { other with first := 0 })

/-- `UniquePtr::operator=(UniquePtr&& other)`; `same` is `this == &other`.
Returns the log, `*this` and `other`. -/
def UniquePtr.moveAssign (log : List DeleterCall) (this other : UniquePtr) (same : Bool) :
    List DeleterCall × UniquePtr × UniquePtr :=
  if same then (log, this, other)
  else
    (log ++ [⟨this.second, this.first, this.first⟩], ⟨other.first, other.second⟩,
      { other with first := 0 })

/-- `UniquePtr::operator=(std::nullptr_t)`. -/
def UniquePtr.assignNull (log : List DeleterCall) (this : UniquePtr) :
    List DeleterCall × UniquePtr :=
  if this.first = 0 then (log, this)
  else (log ++ [⟨this.second, this.first, this.first⟩], { this with first := 0 })

/-- `~UniquePtr`. -/
def UniquePtr.destroy (log : List DeleterCall) (this : UniquePtr) : List DeleterCall :=
  if this.first ≠ 0 then log ++ [⟨this.second, this.first, this.first⟩] else log

/-- `UniquePtr::Release`: the log, the returned pointer and the wrapper. -/
def UniquePtr.Release (log : List DeleterCall) (this : UniquePtr) :
    List DeleterCall × Nat × UniquePtr :=
  (log, this.first, { this with first := 0 })

/-- `UniquePtr::Reset(T* ptr)`: `auto first = data_.GetFirst();
data_.GetFirst() = ptr; data_.GetSecond()(first);`. -/
def UniquePtr.Reset (log : List DeleterCall) (this : UniquePtr) (ptr : Nat) :
    List DeleterCall × UniquePtr :=
  let first := this.first
  let that : UniquePtr := { this with first := ptr }
  (log ++ [⟨that.second, first, that.first⟩], that)

/-- `UniquePtr::Swap`. -/
def UniquePtr.Swap (this other : UniquePtr) : UniquePtr × UniquePtr :=
  (⟨other.first, other.second⟩, ⟨this.first, this.second⟩)

/-- `UniquePtr::Get`. -/
def UniquePtr.Get (this : UniquePtr) : Nat := this.first

/-- `UniquePtr::GetDeleter`. -/
def UniquePtr.GetDeleter (this : UniquePtr) : Nat := this.second

/-- `UniquePtr::operator bool`. -/
def UniquePtr.toBool (this : UniquePtr) : Bool := decide (this.first ≠ 0)

/-! ## `IntrusivePtr` (`intrusive.h`)

Pointees live in a store indexed by their address (address `0` is `nullptr`,
so the first `new` returns address `1`).  `destroyed` is bookkeeping: it counts
the calls of `Deleter::Destroy` on a pointee. -/

/-- `SimpleCounter::IncRef`: the new value of `count_`. -/
def SimpleCounter.IncRef (count_ : Nat) : Nat := incr count_

/-- `SimpleCounter::DecRef`: the new value of `count_`. -/
def SimpleCounter.DecRef (count_ : Nat) : Nat := decr count_

/-- A `SimpleRefCounted` pointee: the `count_` of its `counter_`. -/
structure RefCounted where
  count_ : Nat
  destroyed : Nat
deriving DecidableEq

/-- `RefCounted::RefCount`. -/
def RefCounted.RefCount (o : RefCounted) : Nat := o.count_

/-- `RefCounted::IncRef`. -/
def RefCounted.IncRef (o : RefCounted) : RefCounted :=
  { o with count_ := SimpleCounter.IncRef o.count_ }

/-- `Deleter::Destroy(static_cast<Derived*>(this))`. -/
def RefCounted.Destroy (o : RefCounted) : RefCounted :=
  { o with destroyed := o.destroyed + 1 }

/-- `RefCounted::DecRef`. -/
def RefCounted.DecRef (o : RefCounted) : RefCounted :=
  if o.RefCount = 0 then o.Destroy
  else
    let o1 : RefCounted := { o with count_ := SimpleCounter.DecRef o.count_ }
    if o1.count_ = 0 then o1.Destroy else o1

/-- The pointees: `next` is the address the next `new T` returns. -/
structure Store where
  objs : Nat → RefCounted
  next : Nat

/-- The store before any allocation. -/
def Store.empty : Store := { objs := fun _ => ⟨0, 0⟩, next := 1 }

/-- Overwrite the pointee at address `p`. -/
def Store.upd (st : Store) (p : Nat) (o : RefCounted) : Store :=
  { st with objs := fun i => if i = p then o else st.objs i }

/-- `new T(...)`: a pointee whose `count_` is 0. -/
def Store.alloc (st : Store) : Store × Nat :=
  ({ objs := fun i => if i = st.next then ⟨0, 0⟩ else st.objs i, next := st.next + 1 }, st.next)

/-- An `IntrusivePtr<T>`: the member `pointer_`. -/
structure IntrusivePtr where
  pointer_ : Nat
deriving DecidableEq

/-- `IntrusivePtr::AddPointer`. -/
def IntrusivePtr.AddPointer (st : Store) (h : IntrusivePtr) : Store :=
  if h.pointer_ ≠ 0 then st.upd h.pointer_ (st.objs h.pointer_).IncRef else st

/-- `IntrusivePtr::DeletePointer`, the body of `~IntrusivePtr`. -/
def IntrusivePtr.DeletePointer (st : Store) (h : IntrusivePtr) : Store :=
  if h.pointer_ ≠ 0 then st.upd h.pointer_ (st.objs h.pointer_).DecRef else st

/-- `IntrusivePtr()`, `IntrusivePtr(std::nullptr_t)` and `IntrusivePtr(T* ptr)`. -/
def IntrusivePtr.ofRaw (st : Store) (ptr : Nat) : Store × IntrusivePtr :=
  (IntrusivePtr.AddPointer st ⟨ptr⟩, ⟨ptr⟩)

/-- `IntrusivePtr(const IntrusivePtr& other)`. -/
def IntrusivePtr.copy (st : Store) (other : IntrusivePtr) : Store × IntrusivePtr :=
  (IntrusivePtr.AddPointer st ⟨other.pointer_⟩, ⟨other.pointer_⟩)

/-- `IntrusivePtr(IntrusivePtr&& other)`: the new handle and what is left in
`other`. -/
def IntrusivePtr.move (other : IntrusivePtr) : IntrusivePtr × IntrusivePtr :=
  (⟨other.pointer_⟩, ⟨0⟩)

/-- `IntrusivePtr::operator=(const IntrusivePtr& other)`; `same` is
`this == &other`. -/
def IntrusivePtr.copyAssign (st : Store) (this other : IntrusivePtr) (same : Bool) :
    Store × IntrusivePtr :=
  if same then (st, this)
  else (IntrusivePtr.AddPointer (IntrusivePtr.DeletePointer st this) ⟨other.pointer_⟩,
    ⟨other.pointer_⟩)

/-- `IntrusivePtr::operator=(IntrusivePtr&& other)`; `same` is `this == &other`.
Returns the store, `*this` and `other`. -/
def IntrusivePtr.moveAssign (st : Store) (this other : IntrusivePtr) (same : Bool) :
    Store × IntrusivePtr × IntrusivePtr :=
  if same then (st, this, other)
  else (IntrusivePtr.DeletePointer st this, ⟨other.pointer_⟩, ⟨0⟩)

/-- `IntrusivePtr::Reset()`. -/
def IntrusivePtr.Reset (st : Store) (this : IntrusivePtr) : Store × IntrusivePtr :=
  (IntrusivePtr.DeletePointer st this, ⟨0⟩)

/-- `IntrusivePtr::Reset(T* ptr)`. -/
def IntrusivePtr.ResetPtr (st : Store) (this : IntrusivePtr) (ptr : Nat) :
    Store × IntrusivePtr :=
  (IntrusivePtr.AddPointer (IntrusivePtr.DeletePointer st this) ⟨ptr⟩, ⟨ptr⟩)

/-- `IntrusivePtr::Swap`. -/
def IntrusivePtr.Swap (this other : IntrusivePtr) : IntrusivePtr × IntrusivePtr :=
  (⟨other.pointer_⟩, ⟨this.pointer_⟩)

/-- `IntrusivePtr::Get`. -/
def IntrusivePtr.Get (h : IntrusivePtr) : Nat := h.pointer_

/-- `IntrusivePtr::UseCount`. -/
def IntrusivePtr.UseCount (st : Store) (h : IntrusivePtr) : Nat :=
  if h.pointer_ ≠ 0 then (st.objs h.pointer_).RefCount else 0

/-- `MakeIntrusive<T>(args...)`. -/
def MakeIntrusive (st : Store) : Store × IntrusivePtr :=
  let a := st.alloc
  IntrusivePtr.ofRaw a.1 a.2

/-- The store and the `IntrusivePtr` variables of a client program; a destroyed
variable leaves `none` behind. -/
structure IMachine where
  store : Store
  vars : List (Option IntrusivePtr)

/-- The program state before the first statement. -/
def IMachine.init : IMachine := { store := Store.empty, vars := [] }

/-- One statement on `IntrusivePtr` variables.  `make` is `MakeIntrusive<T>()`
(or `IntrusivePtr<T> h(new T)`), `ofGet j` is `IntrusivePtr<T> h(v_j.Get())`,
`resetNew i` is `v_i.Reset(new T)` and `resetGet i j` is `v_i.Reset(v_j.Get())`,
also for `j = i`. -/
inductive IOp where
  | null
  | make
  | ofGet (j : Nat)
  | copy (j : Nat)
  | move (j : Nat)
  | copyAssign (i j : Nat)
  | moveAssign (i j : Nat)
  | reset (i : Nat)
  | resetNew (i : Nat)
  | resetGet (i j : Nat)
  | swap (i j : Nat)
  | destroy (i : Nat)
deriving DecidableEq

/-- The live handle in variable `i`. -/
def IMachine.var (M : IMachine) (i : Nat) : Option IntrusivePtr := M.vars.getD i none

/-- A new variable. -/
def IMachine.push (M : IMachine) (st : Store) (h : IntrusivePtr) : IMachine :=
  { store := st, vars := M.vars ++ [some h] }

/-- Execute one statement; a statement that names a destroyed or missing
variable is not a program step and is skipped. -/
def istep (M : IMachine) : IOp → IMachine
  | .null =>
    let r := IntrusivePtr.ofRaw M.store 0
    M.push r.1 r.2
  | .make =>
    let r := MakeIntrusive M.store
    M.push r.1 r.2
  | .ofGet j =>
    match M.var j with
    | none => M
    | some h =>
      let r := IntrusivePtr.ofRaw M.store h.Get
      M.push r.1 r.2
  | .copy j =>
    match M.var j with
    | none => M
    | some h =>
      let r := IntrusivePtr.copy M.store h
      M.push r.1 r.2
  | .move j =>
    match M.var j with
    | none => M
    | some h =>
      let r := IntrusivePtr.move h
      { store := M.store, vars := M.vars.set j (some r.2) ++ [some r.1] }
  | .copyAssign i j =>
    match M.var i, M.var j with
    | some a, some b =>
      let r := IntrusivePtr.copyAssign M.store a b (decide (i = j))
      { store := r.1, vars := M.vars.set i (some r.2) }
    | _, _ => M
  | .moveAssign i j =>
    match M.var i, M.var j with
    | some a, some b =>
      let r := IntrusivePtr.moveAssign M.store a b (decide (i = j))
      { store := r.1, vars := (M.vars.set j (some r.2.2)).set i (some r.2.1) }
    | _, _ => M
  | .reset i =>
    match M.var i with
    | none => M
    | some h =>
      let r := IntrusivePtr.Reset M.store h
      { store := r.1, vars := M.vars.set i (some r.2) }
  | .resetNew i =>
    match M.var i with
    | none => M
    | some h =>
      let a := M.store.alloc
      let r := IntrusivePtr.ResetPtr a.1 h a.2
      { store := r.1, vars := M.vars.set i (some r.2) }
  | .resetGet i j =>
    match M.var i, M.var j with
    | some a, some b =>
      let r := IntrusivePtr.ResetPtr M.store a b.Get
      { store := r.1, vars := M.vars.set i (some r.2) }
    | _, _ => M
  | .swap i j =>
    match M.var i, M.var j with
    | some a, some b =>
      let r := IntrusivePtr.Swap a b
      { store := M.store, vars := (M.vars.set j (some r.2)).set i (some r.1) }
    | _, _ => M
  | .destroy i =>
    match M.var i with
    | none => M
    | some h => { store := IntrusivePtr.DeletePointer M.store h, vars := M.vars.set i none }

/-- Execute a program from state `M`. -/
def irun (M : IMachine) (ops : List IOp) : IMachine := ops.foldl istep M

/-- Is the statement a `v.Reset(v.Get())`, a handle reset to its own pointer? -/
def IOp.ownPointer : IOp → Bool
  | .resetGet i j => decide (i = j)
  | _ => false

/-- Does the variable hold a live handle on the pointee at `p`? -/
def refersTo (p : Nat) : Option IntrusivePtr → Bool
  | some h => decide (h.pointer_ = p)
  | none => false

/-- The number of live `IntrusivePtr` variables that hold the address `p`. -/
def refs (l : List (Option IntrusivePtr)) (p : Nat) : Nat := l.countP (refersTo p)

/-- What holds in every state of every program on `IntrusivePtr` variables
that resets no handle to its own pointer: a
pointee with live handles counts them and has not been destroyed, and an
allocated pointee without live handles has been destroyed once; nothing has
happened at an address that was never returned by `new`. -/
structure IInv (M : IMachine) : Prop where
  pos : 1 ≤ M.store.next
  range : ∀ o ∈ M.vars, ∀ h, o = some h → h.pointer_ < M.store.next
  counted : ∀ p, 1 ≤ p → 1 ≤ refs M.vars p →
    (M.store.objs p).count_ = refs M.vars p ∧ (M.store.objs p).destroyed = 0
  gone : ∀ p, 1 ≤ p → p < M.store.next → refs M.vars p = 0 → (M.store.objs p).destroyed = 1
  fresh : ∀ p, p = 0 ∨ M.store.next ≤ p → M.store.objs p = ⟨0, 0⟩

/-- The program of the assignment example: variable 0 is the sole owner of
block 0, variables 1 and 2 own block 1. -/
def assignScene : Machine :=
  run Machine.init [.fromRaw 100 false, .makeShared 200 false, .copy 1]

/-- The program of the hand-over example: a pointee is made, its handle is
copied, the copy is moved on and the first handle is destroyed. -/
def handover : IMachine := irun IMachine.init [.make, .copy 0, .move 1, .destroy 0]

/-- `auto sp = MakeShared<T>(); WeakPtr<T> w(sp); sp.Reset(); auto s = w.Lock();
w.Reset();` (with `SharedPtr<T> sp(new T)` when `emplace` is false): the last
observer lets go while the handle `s`, owner variable 1, is still there. -/
def freedUnderLock (emplace : Bool) : Machine :=
  run (expiredBlock emplace) [.lock 0, .weakReset 0]

/-- `auto p = MakeIntrusive<T>(); p.Reset(p.Get());`: the sole handle is reset
to its own pointer. -/
def selfReset : IMachine := irun IMachine.init [.make, .resetGet 0 0]

/-- The copy assignment `*p = *q` of two managed objects, `*p` the object of
block `e` and `*q` the object of block `f`, as far as their
`EnableSharedFromThis` base goes.  The class declares no assignment operator,
so the implicit one runs `weak_this_ = other.weak_this_`, that is
`WeakPtr::operator=(const WeakPtr&)`. -/
def assignObject (s : Heap) (e f : Nat) : Heap :=
  match (s.blocks e).weak_this_, (s.blocks f).weak_this_ with
  | some wt, some wo =>
    let r := WeakPtr.copyAssign s wt wo (decide (e = f))
    r.1.upd e { r.1.blocks e with weak_this_ := some r.2 }
  | _, _ => s

/-- `struct E : EnableSharedFromThis<E> {}; auto sp1 = MakeShared<E>();
auto sp2 = MakeShared<E>(); *sp1 = *sp2;`: owner variable 0 is `sp1`, owner
variable 1 is `sp2`. -/
def objectAssigned : Machine :=
  { heap := assignObject (run Machine.init [.makeShared 100 true, .makeShared 200 true]).heap 0 1,
    shared := (run Machine.init [.makeShared 100 true, .makeShared 200 true]).shared,
    weak := (run Machine.init [.makeShared 100 true, .makeShared 200 true]).weak }

/-! ## Managed objects that hold owners

`struct Node { SharedPtr<Node> next; };` is a managed object with a `SharedPtr`
data member.  Every handle variable is a slot that records where it lives: in
the client program, or inside the object that some block manages, whose
destructor destroys it by `~SharedPtr`.  `~SharedPtr` writes neither member, so
a destroyed handle keeps its value; `stale` counts the accesses to destroyed
handles.  A destructor can run destructors in turn: the functions take the
nesting depth they may use and return `none` when it does not suffice. -/

/-- A handle variable: its members, the block whose managed object contains it
(`none`: a variable of the client program), and whether its destructor has
run. -/
structure Slot where
  value : SharedPtr
  home : Option Nat
  dead : Bool
deriving DecidableEq

/-- The heap, the handle variables, and the number of accesses to destroyed
handle variables so far. -/
structure Nest where
  heap : Heap
  slots : List Slot
  stale : Nat

/-- The program state before the first statement. -/
def Nest.init : Nest := { heap := Heap.empty, slots := [], stale := 0 }

/-- The handle variable `i`. -/
def Nest.slot (N : Nest) (i : Nat) : Option Slot := (N.slots.map some).getD i none

/-- The handle variables that are members of the object managed by block `b`,
in the order in which `~T` destroys them (the reverse of their declaration). -/
def Nest.members (N : Nest) (b : Nat) : List Nat :=
  ((List.range N.slots.length).filter
    (fun j => decide ((N.slot j).bind Slot.home = some b))).reverse

/-- An access to the handle variable `j` through `this` or a reference. -/
def Nest.access (N : Nest) (j : Nat) : Nest :=
  match N.slot j with
  | some sl => if sl.dead then { N with stale := N.stale + 1 } else N
  | none => N

/-- The assignments `block_ = v.block_; pointer_ = v.pointer_;` inside the
handle variable `j`. -/
def Nest.store (N : Nest) (j : Nat) (v : SharedPtr) : Nest :=
  match N.slot j with
  | some sl => { N with slots := N.slots.set j { sl with value := v } }
  | none => N

/-- The lifetime of the handle variable `j` ends. -/
def Nest.endLife (N : Nest) (j : Nat) : Nest :=
  match N.slot j with
  | some sl => { N with slots := N.slots.set j { sl with dead := true } }
  | none => N

/-- `~SharedPtr` on the handle variable `j`; `release` is `DeleteBlock`. -/
def Nest.destroyWith (release : Nest → SharedPtr → Option Nest) (N : Nest) (j : Nat) :
    Option Nest :=
  match N.slot j with
  | some sl => release ((N.access j).endLife j) sl.value
  | none => some N

/-- `SharedPtr::DeleteBlock` on a handle with the members `h`, when managed
objects hold owners: `block_->DeleterPointer()` runs `~T`, which destroys the
`SharedPtr` members of the object before `ControlBlock.DeleterPointer` does the
rest. -/
def Nest.DeleteBlock : Nat → Nest → SharedPtr → Option Nest
  | 0, _, _ => none
  | fuel + 1, N, h =>
    match h.block_ with
    | none => some N
    | some b =>
      let s1 := N.heap.touch b
      let s2 := s1.upd b { s1.blocks b with strong_count := decr (s1.blocks b).strong_count }
      if (s2.blocks b).strong_count = 0 then
        let N3 : Option Nest :=
          if (s2.blocks b).alive then
            ((N.members b).foldl
              (fun acc j => acc.bind (fun N1 => Nest.destroyWith (Nest.DeleteBlock fuel) N1 j))
              (some { N with heap := s2 })).map
              (fun N2 => { N2 with heap := ControlBlock.DeleterPointer N2.heap b })
          else some { N with heap := s2 }
        N3.map (fun N4 =>
          let s4 := N4.heap.touch b
          { N4 with heap := if (s4.blocks b).weak_count = 0 then s4.free b else s4 })
      else some { N with heap := s2 }

/-- `SharedPtr::operator=(const SharedPtr& other)`, `*this` being the handle
variable `i` and `other` the handle variable `j`. -/
def Nest.copyAssign (fuel : Nat) (N : Nest) (i j : Nat) : Option Nest :=
  match N.slot i, N.slot j with
  | some a, some _ =>
    if i = j then some N
    else
      (Nest.DeleteBlock fuel (N.access i) a.value).map (fun N1 =>
        match (N1.access j).slot j with
        | none => N1
        | some o =>
          let N3 := ((N1.access j).access i).store i ⟨o.value.block_, o.value.pointer_⟩
          match o.value.block_ with
          | none => N3
          | some b =>
            let s2 := N3.heap.touch b
            { N3 with heap :=
                s2.upd b { s2.blocks b with strong_count := incr (s2.blocks b).strong_count } })
  | _, _ => some N

/-- `SharedPtr::operator=(SharedPtr&& other)`, `*this` being the handle variable
`i` and `other` the handle variable `j`. -/
def Nest.moveAssign (fuel : Nat) (N : Nest) (i j : Nat) : Option Nest :=
  match N.slot i, N.slot j with
  | some a, some _ =>
    if i = j then some N
    else
      (Nest.DeleteBlock fuel (N.access i) a.value).map (fun N1 =>
        match (N1.access j).slot j with
        | none => N1
        | some o =>
          (((N1.access j).access i).store i ⟨o.value.block_, o.value.pointer_⟩).store j
            ⟨none, 0⟩)
  | _, _ => some N

/-- `SharedPtr<Node> v(new Node);`, or `auto v = MakeShared<Node>();` when
`emplace`, for `struct Node { SharedPtr<Node> next; };`: the new variable `v`
and, inside the new object, its default-constructed member `next`. -/
def Nest.node (N : Nest) (emplace : Bool) (ptr : Nat) : Nest :=
  let r := if emplace then MakeShared N.heap ptr false else SharedPtr.fromRaw N.heap ptr false
  { N with heap := r.1,
           slots := N.slots ++ [⟨r.2, none, false⟩, ⟨SharedPtr.null, r.2.block_, false⟩] }

/-- One statement of a program on `Node` objects. -/
inductive NOp where
  | node (emplace : Bool) (ptr : Nat)
  | copyAssign (i j : Nat)
  | moveAssign (i j : Nat)
  | destroy (i : Nat)
deriving DecidableEq

/-- Execute one statement. -/
def Nest.step (fuel : Nat) (N : Nest) : NOp → Option Nest
  | .node emplace ptr => some (N.node emplace ptr)
  | .copyAssign i j => Nest.copyAssign fuel N i j
  | .moveAssign i j => Nest.moveAssign fuel N i j
  | .destroy i => Nest.destroyWith (Nest.DeleteBlock fuel) N i

/-- Execute a program from state `N`. -/
def Nest.run (fuel : Nat) (N : Nest) : List NOp → Option Nest
  | [] => some N
  | op :: ops => (Nest.step fuel N op).bind (fun N1 => Nest.run fuel N1 ops)

/-- The number of live handle variables whose block is `b`. -/
def Nest.owners (N : Nest) (b : Nat) : Nat :=
  N.slots.countP (fun sl => !sl.dead && decide (sl.value.block_ = some b))

/-- `SharedPtr<Node> a(new Node); SharedPtr<Node> c(new Node); a->next = c;`
(with `MakeShared<Node>()` when `emplace`): the variables 0 and 2 are `a` and
`c`, the variables 1 and 3 their members `a->next` and `c->next`. -/
def linkedShared (emplace : Bool) : Option Nest :=
  Nest.run 8 Nest.init [.node emplace 100, .node emplace 200, .copyAssign 1 2]

/-- `SharedPtr<Node> a(new Node); a->next = SharedPtr<Node>(new Node);` (with
`MakeShared<Node>()` when `emplace`): the variable 0 is `a`, the variable 1 is
`a->next`, the variable 2 is the temporary after the move. -/
def linkedSole (emplace : Bool) : Option Nest :=
  Nest.run 8 Nest.init [.node emplace 100, .node emplace 200, .moveAssign 1 2]

/-! ## Counters -/

theorem incr_of_lt {n : Nat} (h : n + 1 < SIZE_MOD) : incr n = n + 1 := by
  unfold incr
  exact Nat.mod_eq_of_lt h

theorem decr_of_pos {n : Nat} (h0 : 0 < n) (h : n < SIZE_MOD) : decr n = n - 1 := by
  unfold decr SIZE_MOD at *
  omega

/-! ## What the `WeakPtr` functions leave alone -/

theorem core_upd (s : Heap) (b : Nat) (B : ControlBlock) :
    (s.upd b B).core = fun i => if i = b then { B with weak_count := 0, freed := 0 }
      else s.core i := by
  funext i
  unfold Heap.core Heap.upd
  by_cases h : i = b <;> simp [h]

@[simp] theorem next_upd (s : Heap) (b : Nat) (B : ControlBlock) : (s.upd b B).next = s.next := rfl

@[simp] theorem blocks_upd_same (s : Heap) (b : Nat) (B : ControlBlock) :
    (s.upd b B).blocks b = B := by
  simp [Heap.upd]

theorem blocks_upd_of_ne (s : Heap) {b i : Nat} (B : ControlBlock) (h : i ≠ b) :
    (s.upd b B).blocks i = s.blocks i := by
  simp [Heap.upd, h]

@[simp] theorem blocks_touch (s : Heap) (b : Nat) : (s.touch b).blocks = s.blocks := by
  unfold Heap.touch; split <;> rfl

@[simp] theorem next_touch (s : Heap) (b : Nat) : (s.touch b).next = s.next := by
  unfold Heap.touch; split <;> rfl

@[simp] theorem core_touch (s : Heap) (b : Nat) : (s.touch b).core = s.core := by
  funext i; simp [Heap.core]

theorem core_upd_weak (s : Heap) (b wc fr : Nat) :
    (s.upd b { s.blocks b with weak_count := wc, freed := fr }).core = s.core := by
  rw [core_upd]
  funext i
  by_cases h : i = b
  · subst h; simp [Heap.core]
  · simp [h]

@[simp] theorem core_upd_weak_count (s : Heap) (b wc : Nat) :
    (s.upd b { s.blocks b with weak_count := wc }).core = s.core :=
  core_upd_weak s b wc (s.blocks b).freed

@[simp] theorem core_free (s : Heap) (b : Nat) : (s.free b).core = s.core :=
  core_upd_weak s b (s.blocks b).weak_count ((s.blocks b).freed + 1)

@[simp] theorem next_free (s : Heap) (b : Nat) : (s.free b).next = s.next := rfl

@[simp] theorem core_AddWeak (s : Heap) (w : WeakPtr) : (WeakPtr.AddWeak s w).core = s.core := by
  unfold WeakPtr.AddWeak
  cases w.block_ with
  | none => rfl
  | some b => simp only [core_upd_weak_count, core_touch]

@[simp] theorem next_AddWeak (s : Heap) (w : WeakPtr) : (WeakPtr.AddWeak s w).next = s.next := by
  unfold WeakPtr.AddWeak
  cases w.block_ with
  | none => rfl
  | some b => simp only [next_upd, next_touch]

@[simp] theorem core_DeleteWeak (s : Heap) (w : WeakPtr) :
    (WeakPtr.DeleteWeak s w).1.core = s.core := by
  unfold WeakPtr.DeleteWeak
  cases w.block_ with
  | none => rfl
  | some b => dsimp only; split_ifs <;> simp only [core_free, core_upd_weak_count, core_touch]

@[simp] theorem next_DeleteWeak (s : Heap) (w : WeakPtr) :
    (WeakPtr.DeleteWeak s w).1.next = s.next := by
  unfold WeakPtr.DeleteWeak
  cases w.block_ with
  | none => rfl
  | some b => dsimp only; split_ifs <;> simp only [next_free, next_upd, next_touch]

theorem DeleteWeak_handle (s : Heap) (w : WeakPtr) :
    (WeakPtr.DeleteWeak s w).2 = w ∨ (WeakPtr.DeleteWeak s w).2 = ⟨none, 0, w.esft⟩ := by
  unfold WeakPtr.DeleteWeak
  cases w.block_ with
  | none => exact Or.inl rfl
  | some b => dsimp only; split_ifs <;> simp

@[simp] theorem core_DeleteWeakFromThis (s : Heap) (w : WeakPtr) :
    (WeakPtr.DeleteWeakFromThis s w).1.core = s.core := by
  unfold WeakPtr.DeleteWeakFromThis
  cases w.block_ with
  | none => rfl
  | some b => dsimp only; split_ifs <;> simp only [core_free, core_upd_weak_count, core_touch]

@[simp] theorem next_DeleteWeakFromThis (s : Heap) (w : WeakPtr) :
    (WeakPtr.DeleteWeakFromThis s w).1.next = s.next := by
  unfold WeakPtr.DeleteWeakFromThis
  cases w.block_ with
  | none => rfl
  | some b => dsimp only; split_ifs <;> simp only [next_free, next_upd, next_touch]

theorem DeleteWeakFromThis_handle (s : Heap) (w : WeakPtr) :
    (WeakPtr.DeleteWeakFromThis s w).2 = w ∨
      (WeakPtr.DeleteWeakFromThis s w).2 = ⟨none, 0, w.esft⟩ := by
  unfold WeakPtr.DeleteWeakFromThis
  cases w.block_ with
  | none => exact Or.inl rfl
  | some b => dsimp only; split_ifs <;> simp

@[simp] theorem core_destroyMembers (s : Heap) (ms : List WeakPtr) :
    (destroyMembers s ms).1.core = s.core := by
  induction ms generalizing s with
  | nil => rfl
  | cons m ms ih => simp [destroyMembers, ih]

@[simp] theorem next_destroyMembers (s : Heap) (ms : List WeakPtr) :
    (destroyMembers s ms).1.next = s.next := by
  induction ms generalizing s with
  | nil => rfl
  | cons m ms ih => simp [destroyMembers, ih]

/-! ## The effect of a release on the core of the heap -/

theorem Faded.refl (o : Option WeakPtr) : Faded o o :=
  fun n hn => ⟨n, hn, Or.inl rfl⟩

theorem core_destroyObject (s : Heap) (b : Nat) :
    ∃ F W, Faded (s.core b).weak_this_ W ∧ (destroyObject s b).next = s.next ∧
      (destroyObject s b).core =
        fun i => if i = b then { s.core b with fields := F, weak_this_ := W } else s.core i := by
  unfold destroyObject
  cases hw : (s.blocks b).weak_this_ with
  | none =>
    refine ⟨(destroyMembers s (s.blocks b).fields).2, none, ?_, ?_, ?_⟩
    · intro n hn; cases hn
    · simp
    · dsimp only
      rw [core_upd]
      funext i
      by_cases h : i = b
      · subst h
        have h1 := congrFun (core_destroyMembers s (s.blocks i).fields) i
        simp only [Heap.core] at h1 ⊢
        simp only [if_true]
        rw [ControlBlock.mk.injEq] at h1 ⊢
        obtain ⟨a1, _, a3, a4, a5, a6, _, a8, _⟩ := h1
        exact ⟨a1, rfl, a3, a4, a5, a6.trans hw, rfl, a8, rfl⟩
      · simp [h]
  | some wt =>
    refine ⟨(destroyMembers s (s.blocks b).fields).2,
      some (WeakPtr.DeleteWeak (destroyMembers s (s.blocks b).fields).1 wt).2, ?_, ?_, ?_⟩
    · intro n hn
      refine ⟨wt, by simpa [Heap.core] using hw, ?_⟩
      cases hn
      exact DeleteWeak_handle _ _
    · simp
    · dsimp only
      rw [core_upd]
      funext i
      by_cases h : i = b
      · subst h
        have h1 := congrFun (core_DeleteWeak (destroyMembers s (s.blocks i).fields).1 wt) i
        rw [core_destroyMembers] at h1
        simp only [Heap.core] at h1 ⊢
        simp only [if_true]
        rw [ControlBlock.mk.injEq] at h1 ⊢
        obtain ⟨a1, _, a3, a4, a5, _, _, a8, _⟩ := h1
        exact ⟨a1, rfl, a3, a4, a5, rfl, rfl, a8, rfl⟩
      · simp [h]

theorem core_upd_same (s : Heap) (b : Nat) (B : ControlBlock) :
    (s.upd b B).core b = { B with weak_count := 0, freed := 0 } := by
  rw [core_upd]; simp

theorem core_upd_of_ne (s : Heap) {b i : Nat} (B : ControlBlock) (h : i ≠ b) :
    (s.upd b B).core i = s.core i := by
  rw [core_upd]; simp [h]

theorem core_DeleterPointer (s : Heap) (b : Nat) :
    ∃ F W, Faded (s.core b).weak_this_ W ∧ (ControlBlock.DeleterPointer s b).next = s.next ∧
      (ControlBlock.DeleterPointer s b).core =
        fun i => if i = b then
          { s.core b with destroyed := (s.core b).destroyed + 1,
                          alive := if (s.core b).emplace then (s.core b).alive else false,
                          fields := F, weak_this_ := W }
        else s.core i := by
  obtain ⟨F, W, hF, hn, hc⟩ :=
    core_destroyObject (s.upd b { s.blocks b with destroyed := (s.blocks b).destroyed + 1 }) b
  refine ⟨F, W, ?_, ?_, ?_⟩
  · rw [core_upd_same] at hF
    exact hF
  · unfold ControlBlock.DeleterPointer
    dsimp only
    split <;> simp [hn]
  · unfold ControlBlock.DeleterPointer
    dsimp only
    by_cases he : (s.blocks b).emplace = true
    · rw [if_pos he, hc]
      funext i
      by_cases h : i = b
      · subst h
        simp only [if_true, core_upd_same]
        simp [Heap.core, he]
      · simp only [if_neg h]
        exact core_upd_of_ne s _ h
    · rw [if_neg he, core_upd]
      funext i
      by_cases h : i = b
      · subst h
        have h1 := congrFun hc i
        simp only [if_true, core_upd_same] at h1
        simp only [if_true, blocks_touch]
        simp only [Heap.core] at h1 ⊢
        rw [ControlBlock.mk.injEq] at h1 ⊢
        obtain ⟨a1, _, a3, a4, a5, a6, a7, a8, _⟩ := h1
        simp only [Bool.not_eq_true] at he
        exact ⟨a1, rfl, by simp [he], a4, a5, a6, a7, a8, rfl⟩
      · simp only [if_neg h, core_touch]
        rw [hc]
        simp only [if_neg h]
        exact core_upd_of_ne s _ h

/-- The last two statements of `DeleteBlock` when the count reached zero. -/
theorem core_freeIfUnobserved (t : Heap) (b : Nat) :
    (if ((t.touch b).blocks b).weak_count = 0 then (t.touch b).free b else t.touch b).core
      = t.core ∧
    (if ((t.touch b).blocks b).weak_count = 0 then (t.touch b).free b else t.touch b).next
      = t.next := by
  split <;> simp

theorem core_decrStrong (s : Heap) (b : Nat) :
    ((s.touch b).upd b { (s.touch b).blocks b with
        strong_count := decr ((s.touch b).blocks b).strong_count }).core =
      fun i => if i = b then { s.core b with strong_count := decr (s.core b).strong_count }
        else s.core i := by
  rw [core_upd]
  funext i
  by_cases hi : i = b
  · subst hi
    simp [Heap.core]
  · simp [hi]

theorem core_DeleteBlock (s : Heap) (h : SharedPtr) (b : Nat) (hb : h.block_ = some b) :
    (SharedPtr.DeleteBlock s h).next = s.next ∧
    ∃ F W, Faded (s.core b).weak_this_ W ∧
      (SharedPtr.DeleteBlock s h).core =
        fun i => if i = b then
          (if decr (s.core b).strong_count = 0 ∧ (s.core b).alive = true then
            { s.core b with strong_count := 0, destroyed := (s.core b).destroyed + 1,
                            alive := (s.core b).emplace, fields := F, weak_this_ := W }
           else { s.core b with strong_count := decr (s.core b).strong_count })
        else s.core i := by
  unfold SharedPtr.DeleteBlock
  rw [hb]
  dsimp only
  generalize hs2 : (s.touch b).upd b { (s.touch b).blocks b with
        strong_count := decr ((s.touch b).blocks b).strong_count } = s2
  have hc2 := core_decrStrong s b
  rw [hs2] at hc2
  have hn2 : s2.next = s.next := by rw [← hs2]; simp
  have hB : ∀ t : Heap, (t.blocks b).strong_count = (t.core b).strong_count ∧
      (t.blocks b).alive = (t.core b).alive ∧ (t.blocks b).emplace = (t.core b).emplace :=
    fun t => ⟨rfl, rfl, rfl⟩
  have hcb : s2.core b = { s.core b with strong_count := decr (s.core b).strong_count } := by
    rw [hc2]; simp
  rw [(hB s2).1, (hB s2).2.1, hcb]
  dsimp only
  by_cases h0 : decr (s.core b).strong_count = 0
  · rw [if_pos h0]
    by_cases ha : (s.core b).alive = true
    · rw [if_pos ha]
      obtain ⟨F, W, hF, hn, hc⟩ := core_DeleterPointer s2 b
      refine ⟨by rw [(core_freeIfUnobserved _ b).2, hn, hn2], F, W, ?_, ?_⟩
      · rw [hcb] at hF
        exact hF
      · rw [(core_freeIfUnobserved _ b).1, hc]
        funext i
        by_cases hi : i = b
        · subst hi
          simp only [if_true]
          rw [if_pos (And.intro h0 ha), hcb]
          simp only [Heap.core] at ha h0 ⊢
          simp [ha, h0]
        · simp only [if_neg hi]
          rw [hc2]
          simp only [if_neg hi]
    · rw [if_neg ha]
      refine ⟨by rw [(core_freeIfUnobserved _ b).2, hn2], (s.core b).fields,
        (s.core b).weak_this_, Faded.refl _, ?_⟩
      rw [(core_freeIfUnobserved _ b).1, hc2]
      funext i
      by_cases hi : i = b
      · subst hi
        have h2 : ¬ (decr (s.core i).strong_count = 0 ∧ (s.core i).alive = true) :=
          fun hh => ha hh.2
        simp only [if_true]
        rw [if_neg h2]
      · simp only [if_neg hi]
  · rw [if_neg h0]
    refine ⟨hn2, (s.core b).fields, (s.core b).weak_this_, Faded.refl _, ?_⟩
    rw [hc2]
    funext i
    by_cases hi : i = b
    · subst hi
      have h2 : ¬ (decr (s.core i).strong_count = 0 ∧ (s.core i).alive = true) :=
        fun hh => h0 hh.1
      simp only [if_true]
      rw [if_neg h2]
    · simp only [if_neg hi]

/-! ## Counting owners -/

theorem owners_push (l : List (Option SharedPtr)) (h : SharedPtr) (x : Nat) :
    owners (l ++ [some h]) x = owners l x + (if h.block_ = some x then 1 else 0) := by
  unfold owners
  rw [List.countP_append]
  simp [List.countP_cons, pointsTo]

theorem owners_set (l : List (Option SharedPtr)) (i : Nat) (o v : Option SharedPtr)
    (hl : i < l.length) (ho : l[i] = o) (x : Nat) :
    owners (l.set i v) x + (if pointsTo x o then 1 else 0)
      = owners l x + (if pointsTo x v then 1 else 0) := by
  unfold owners
  rw [List.countP_set _ _ _ _ hl, ho]
  have := List.boole_getElem_le_countP (pointsTo x) l i hl
  rw [ho] at this
  omega

theorem owners_le_length (l : List (Option SharedPtr)) (x : Nat) : owners l x ≤ l.length :=
  List.countP_le_length _

theorem owners_pos_of_mem {l : List (Option SharedPtr)} {h : SharedPtr} {b : Nat}
    (hm : some h ∈ l) (hb : h.block_ = some b) : 1 ≤ owners l b := by
  unfold owners
  exact List.countP_pos_iff.mpr ⟨some h, hm, by simp [pointsTo, hb]⟩

theorem exists_of_owners_pos {l : List (Option SharedPtr)} {b : Nat} (h : 1 ≤ owners l b) :
    ∃ x, some x ∈ l ∧ x.block_ = some b := by
  unfold owners at h
  obtain ⟨o, ho, hp⟩ := List.countP_pos_iff.mp h
  cases o with
  | none => simp [pointsTo] at hp
  | some x => exact ⟨x, ho, by simpa [pointsTo] using hp⟩

theorem sh_eq_some {M : Machine} {i : Nat} {h : SharedPtr} (hs : M.sh i = some h) :
    ∃ hl : i < M.shared.length, M.shared[i] = some h := by
  unfold Machine.sh at hs
  by_cases hl : i < M.shared.length
  · refine ⟨hl, ?_⟩
    rw [List.getD_eq_getElem _ _ hl] at hs
    exact hs
  · rw [List.getD_eq_default _ _ (Nat.le_of_not_lt hl)] at hs
    cases hs

theorem wk_eq_some {M : Machine} {i : Nat} {w : WeakPtr} (hs : M.wk i = some w) :
    ∃ hl : i < M.weak.length, M.weak[i] = some w := by
  unfold Machine.wk at hs
  by_cases hl : i < M.weak.length
  · refine ⟨hl, ?_⟩
    rw [List.getD_eq_getElem _ _ hl] at hs
    exact hs
  · rw [List.getD_eq_default _ _ (Nat.le_of_not_lt hl)] at hs
    cases hs

theorem sh_mem {M : Machine} {i : Nat} {h : SharedPtr} (hs : M.sh i = some h) :
    some h ∈ M.shared := by
  obtain ⟨hl, he⟩ := sh_eq_some hs
  rw [← he]
  exact List.getElem_mem hl

theorem wk_mem {M : Machine} {i : Nat} {w : WeakPtr} (hs : M.wk i = some w) :
    some w ∈ M.weak := by
  obtain ⟨hl, he⟩ := wk_eq_some hs
  rw [← he]
  exact List.getElem_mem hl

theorem RangeS.pushS {l : List (Option SharedPtr)} {n : Nat} (hr : RangeS l n) (h : SharedPtr)
    (hh : ∀ b, h.block_ = some b → b < n) : RangeS (l ++ [some h]) n := by
  intro o ho x b hx hb
  rcases List.mem_append.mp ho with h1 | h1
  · exact hr o h1 x b hx hb
  · simp only [List.mem_singleton] at h1
    subst h1
    cases hx
    exact hh b hb

theorem RangeS.setS {l : List (Option SharedPtr)} {n : Nat} (hr : RangeS l n) (i : Nat)
    (v : Option SharedPtr) (hh : ∀ h b, v = some h → h.block_ = some b → b < n) :
    RangeS (l.set i v) n := by
  intro o ho x b hx hb
  rcases List.mem_or_eq_of_mem_set ho with h1 | h1
  · exact hr o h1 x b hx hb
  · subst h1
    exact hh x b hx hb

theorem RangeS.monoS {l : List (Option SharedPtr)} {n m : Nat} (hr : RangeS l n) (hnm : n ≤ m) :
    RangeS l m :=
  fun o ho x b hx hb => Nat.lt_of_lt_of_le (hr o ho x b hx hb) hnm

theorem RangeW.pushW {l : List (Option WeakPtr)} {n : Nat} (hr : RangeW l n) (w : WeakPtr)
    (hh : ∀ b, w.block_ = some b → b < n) : RangeW (l ++ [some w]) n := by
  intro o ho x b hx hb
  rcases List.mem_append.mp ho with h1 | h1
  · exact hr o h1 x b hx hb
  · simp only [List.mem_singleton] at h1
    subst h1
    cases hx
    exact hh b hb

theorem RangeW.setW {l : List (Option WeakPtr)} {n : Nat} (hr : RangeW l n) (i : Nat)
    (v : Option WeakPtr) (hh : ∀ w b, v = some w → w.block_ = some b → b < n) :
    RangeW (l.set i v) n := by
  intro o ho x b hx hb
  rcases List.mem_or_eq_of_mem_set ho with h1 | h1
  · exact hr o h1 x b hx hb
  · subst h1
    exact hh x b hx hb

theorem RangeW.monoW {l : List (Option WeakPtr)} {n m : Nat} (hr : RangeW l n) (hnm : n ≤ m) :
    RangeW l m :=
  fun o ho x b hx hb => Nat.lt_of_lt_of_le (hr o ho x b hx hb) hnm

/-! ## The five ways in which a statement changes the state -/

theorem Quiet.trans_of {M M' : Machine} (h : Quiet M M') : Trans M M' :=
  ⟨h.1, fun b hb hd => Or.inl ((h.2 b hb).1.trans hd)⟩

theorem Trans.then_quiet {M N M' : Machine} (h1 : Trans M N) (h2 : Quiet N M') :
    Trans M M' := by
  refine ⟨Nat.le_trans h1.1 h2.1, ?_⟩
  intro b hb hd
  have hbN : b < N.heap.next := Nat.lt_of_lt_of_le hb h1.1
  rcases h1.2 b hb hd with h | ⟨h, h0⟩
  · exact Or.inl ((h2.2 b hbN).1.trans h)
  · exact Or.inr ⟨(h2.2 b hbN).1.trans h, (h2.2 b hbN).2 h0⟩

/-- Neither the core of the heap nor the number of owners of any block
changes. -/
theorem Inv.same {M M' : Machine} (hI : Inv M) (hc : M'.heap.core = M.heap.core)
    (hn : M'.heap.next = M.heap.next) (ho : ∀ x, M'.owners x = M.owners x)
    (hS : RangeS M'.shared M'.heap.next) (hW : RangeW M'.weak M'.heap.next) :
    Inv M' ∧ Quiet M M' ∧ (Intact M → Intact M') := by
  refine ⟨⟨hS, hW, ?_, ?_, ?_⟩, ?_, ?_⟩
  · intro e wt b; rw [hc, hn]; exact hI.selfW e wt b
  · intro b; rw [hc, hn, ho]; exact hI.counted b
  · intro e; rw [hc, hn]; exact hI.latent e
  · refine ⟨Nat.le_of_eq hn.symm, ?_⟩
    intro b _; rw [hc, ho]; exact ⟨rfl, id⟩
  · intro hR b; rw [hc, ho]; exact hR b

/-- One more owner on block `b`, whose `strong_count` went through `++`. -/
theorem Inv.inc {M M' : Machine} (hI : Inv M) (b : Nat) (hb : b < M.heap.next)
    (hc : M'.heap.core = fun i => if i = b then
        { M.heap.core b with strong_count := incr (M.heap.core b).strong_count }
      else M.heap.core i)
    (hn : M'.heap.next = M.heap.next)
    (ho : ∀ x, M'.owners x = M.owners x + if x = b then 1 else 0)
    (hS : RangeS M'.shared M'.heap.next) (hW : RangeW M'.weak M'.heap.next)
    (hlen : M'.shared.length < SIZE_MOD) :
    Inv M' ∧ Trans M M' ∧ (1 ≤ M.owners b → Quiet M M' ∧ (Intact M → Intact M')) := by
  have hcx : ∀ x, x ≠ b → M'.heap.core x = M.heap.core x := by
    intro x hx; rw [hc]; simp [hx]
  have hcb : M'.heap.core b =
      { M.heap.core b with strong_count := incr (M.heap.core b).strong_count } := by
    rw [hc]; simp
  have hox : ∀ x, x ≠ b → M'.owners x = M.owners x := by
    intro x hx; rw [ho]; simp [hx]
  have hob : M'.owners b = M.owners b + 1 := by rw [ho]; simp
  have hd : ∀ x, (M'.heap.core x).destroyed = (M.heap.core x).destroyed := by
    intro x
    by_cases hx : x = b
    · subst hx; rw [hcb]
    · rw [hcx x hx]
  refine ⟨⟨hS, hW, ?_, ?_, ?_⟩, ?_, ?_⟩
  · intro e wt x hw hx
    rw [hn]
    by_cases he : e = b
    · subst he; rw [hcb] at hw; exact hI.selfW e wt x hw hx
    · rw [hcx e he] at hw; exact hI.selfW e wt x hw hx
  · intro x hx hdx
    rw [hn] at hx
    rw [hd] at hdx
    obtain ⟨h1, h2, h3⟩ := hI.counted x hx hdx
    by_cases hxb : x = b
    · subst hxb
      have hle : M'.owners x ≤ M'.shared.length := owners_le_length _ _
      rw [hcb, hob]
      refine ⟨?_, h2, by omega⟩
      show incr (M.heap.core x).strong_count = M.owners x + 1
      rw [h1]
      exact incr_of_lt (by omega)
    · rw [hcx x hxb, hox x hxb]
      exact ⟨h1, h2, h3⟩
  · intro e he hem hde wt hw
    rw [hn] at he
    rw [hd] at hde
    by_cases heb : e = b
    · subst heb
      rw [hcb] at hem hw ⊢
      exact hI.latent e he hem hde wt hw
    · rw [hcx e heb] at hem hw ⊢
      exact hI.latent e he hem hde wt hw
  · refine ⟨Nat.le_of_eq hn.symm, ?_⟩
    intro x _ hdx
    exact Or.inl ((hd x).trans hdx)
  · intro hb1
    refine ⟨⟨Nat.le_of_eq hn.symm, fun x _ => ⟨hd x, fun h0 => ?_⟩⟩, fun hR x hx => ?_⟩
    · have hxb : x ≠ b := by
        intro hxb; subst hxb; omega
      rw [hox x hxb]; exact h0
    · rw [hd]
      by_cases hxb : x = b
      · subst hxb; exact hR x hb1
      · rw [hox x hxb] at hx; exact hR x hx

/-- One owner fewer on block `b`, whose core went through `DeleteBlock`. -/
theorem Inv.rel {M M' : Machine} (hI : Inv M) (b : Nat) (hb1 : 1 ≤ M.owners b)
    (F : List WeakPtr) (W : Option WeakPtr) (hF : Faded (M.heap.core b).weak_this_ W)
    (hc : M'.heap.core = fun i => if i = b then
          (if decr (M.heap.core b).strong_count = 0 ∧ (M.heap.core b).alive = true then
            { M.heap.core b with strong_count := 0, destroyed := (M.heap.core b).destroyed + 1,
                                 alive := (M.heap.core b).emplace, fields := F, weak_this_ := W }
           else { M.heap.core b with strong_count := decr (M.heap.core b).strong_count })
        else M.heap.core i)
    (hn : M'.heap.next = M.heap.next)
    (ho : ∀ x, M'.owners x + (if x = b then 1 else 0) = M.owners x)
    (hS : RangeS M'.shared M'.heap.next) (hW : RangeW M'.weak M'.heap.next)
    (hlen : M.shared.length < SIZE_MOD) :
    Inv M' ∧ Trans M M' ∧ (Intact M → Intact M') := by
  have hcx : ∀ x, x ≠ b → M'.heap.core x = M.heap.core x := by
    intro x hx; rw [hc]; simp [hx]
  have hox : ∀ x, x ≠ b → M'.owners x = M.owners x := by
    intro x hx; have := ho x; simpa [hx] using this
  have hob : M'.owners b + 1 = M.owners b := by have := ho b; simpa using this
  have hle : M.owners b ≤ M.shared.length := owners_le_length _ _
  have hbn : b < M.heap.next := by
    obtain ⟨x, hx, hxb⟩ := exists_of_owners_pos hb1
    exact hI.rangeS _ hx x b rfl hxb
  -- the two shapes of the new core of `b`
  have hkeep : ¬ (decr (M.heap.core b).strong_count = 0 ∧ (M.heap.core b).alive = true) →
      M'.heap.core b =
        { M.heap.core b with strong_count := decr (M.heap.core b).strong_count } := by
    intro hk; rw [hc]; simp only [if_true]; rw [if_neg hk]
  have hgone : (decr (M.heap.core b).strong_count = 0 ∧ (M.heap.core b).alive = true) →
      M'.heap.core b =
        { M.heap.core b with strong_count := 0, destroyed := (M.heap.core b).destroyed + 1,
                             alive := (M.heap.core b).emplace, fields := F, weak_this_ := W } := by
    intro hk; rw [hc]; simp only [if_true]; rw [if_pos hk]
  have hmono : (M'.heap.core b).destroyed = 0 → (M.heap.core b).destroyed = 0 ∧
      ¬ (decr (M.heap.core b).strong_count = 0 ∧ (M.heap.core b).alive = true) := by
    intro h0
    by_cases hk : decr (M.heap.core b).strong_count = 0 ∧ (M.heap.core b).alive = true
    · rw [hgone hk] at h0; simp at h0
    · rw [hkeep hk] at h0; exact ⟨h0, hk⟩
  refine ⟨⟨hS, hW, ?_, ?_, ?_⟩, ?_, ?_⟩
  · intro e wt x hw hx
    rw [hn]
    by_cases he : e = b
    · subst he
      by_cases hk : decr (M.heap.core e).strong_count = 0 ∧ (M.heap.core e).alive = true
      · rw [hgone hk] at hw
        obtain ⟨o, ho1, ho2⟩ := hF wt hw
        rcases ho2 with h | h
        · subst h; exact hI.selfW e wt x ho1 hx
        · subst h; cases hx
      · rw [hkeep hk] at hw; exact hI.selfW e wt x hw hx
    · rw [hcx e he] at hw; exact hI.selfW e wt x hw hx
  · intro x hx hdx
    rw [hn] at hx
    by_cases hxb : x = b
    · subst hxb
      obtain ⟨hd0, hk⟩ := hmono hdx
      obtain ⟨h1, h2, h3⟩ := hI.counted x hx hd0
      have hdec : decr (M.heap.core x).strong_count = M.owners x - 1 := by
        rw [h1]; exact decr_of_pos (by omega) (by omega)
      rw [hkeep hk]
      have hne : decr (M.heap.core x).strong_count ≠ 0 := fun h => hk ⟨h, h2⟩
      refine ⟨?_, h2, by omega⟩
      show decr (M.heap.core x).strong_count = M'.owners x
      omega
    · rw [hcx x hxb] at hdx ⊢
      rw [hox x hxb]
      exact hI.counted x hx hdx
  · intro e he hem hde wt hw
    rw [hn] at he
    by_cases heb : e = b
    · subst heb
      obtain ⟨hd0, hk⟩ := hmono hde
      rw [hkeep hk] at hem hw ⊢
      exact hI.latent e he hem hd0 wt hw
    · rw [hcx e heb] at hem hde hw ⊢
      exact hI.latent e he hem hde wt hw
  · refine ⟨Nat.le_of_eq hn.symm, ?_⟩
    intro x hx hdx
    by_cases hxb : x = b
    · subst hxb
      obtain ⟨h1, h2, h3⟩ := hI.counted x hx hdx
      have hdec : decr (M.heap.core x).strong_count = M.owners x - 1 := by
        rw [h1]; exact decr_of_pos (by omega) (by omega)
      by_cases hk : decr (M.heap.core x).strong_count = 0 ∧ (M.heap.core x).alive = true
      · right
        rw [hgone hk]
        refine ⟨by simp [hdx], ?_⟩
        have := hk.1
        omega
      · left
        rw [hkeep hk]; exact hdx
    · left
      rw [hcx x hxb]; exact hdx
  · intro hR x hx
    by_cases hxb : x = b
    · subst hxb
      have h2o : 1 ≤ M.owners x := by omega
      have hd0 := hR x h2o
      obtain ⟨h1, h2, h3⟩ := hI.counted x hbn hd0
      have hdec : decr (M.heap.core x).strong_count = M.owners x - 1 := by
        rw [h1]; exact decr_of_pos (by omega) (by omega)
      have hk : ¬ (decr (M.heap.core x).strong_count = 0 ∧ (M.heap.core x).alive = true) := by
        intro hk; have := hk.1; omega
      rw [hkeep hk]; exact hd0
    · rw [hcx x hxb]
      rw [hox x hxb] at hx
      exact hR x hx

/-- A new block with its first owner. -/
theorem Inv.alloc {M M' : Machine} (hI : Inv M) (B : ControlBlock)
    (hB1 : B.strong_count = 1) (hB2 : B.alive = true) (hB3 : B.destroyed = 0)
    (hB4 : ∀ wt, B.weak_this_ = some wt →
      wt = ⟨some M.heap.next, B.pointer_, true⟩ ∨ (B.emplace = false ∧ wt.block_ = none))
    (hc : M'.heap.core = fun i => if i = M.heap.next then B else M.heap.core i)
    (hn : M'.heap.next = M.heap.next + 1)
    (ho : ∀ x, M'.owners x = M.owners x + if x = M.heap.next then 1 else 0)
    (hS : RangeS M'.shared M'.heap.next) (hW : RangeW M'.weak M'.heap.next) :
    Inv M' ∧ Quiet M M' ∧ (Intact M → Intact M') := by
  have hcx : ∀ x, x ≠ M.heap.next → M'.heap.core x = M.heap.core x := by
    intro x hx; rw [hc]; simp [hx]
  have hcb : M'.heap.core M.heap.next = B := by rw [hc]; simp
  have hox : ∀ x, x ≠ M.heap.next → M'.owners x = M.owners x := by
    intro x hx; rw [ho]; simp [hx]
  have h0 : M.owners M.heap.next = 0 := by
    by_contra hne
    obtain ⟨x, hx, hxb⟩ := exists_of_owners_pos (Nat.pos_of_ne_zero hne)
    exact Nat.lt_irrefl _ (hI.rangeS _ hx x _ rfl hxb)
  have hob : M'.owners M.heap.next = 1 := by rw [ho, h0]; simp
  refine ⟨⟨hS, hW, ?_, ?_, ?_⟩, ?_, ?_⟩
  · intro e wt x hw hx
    rw [hn]
    by_cases he : e = M.heap.next
    · subst he
      rw [hcb] at hw
      rcases hB4 wt hw with h | ⟨_, h⟩
      · subst h; cases hx; exact ⟨rfl, Nat.lt_succ_self _⟩
      · rw [h] at hx; cases hx
    · rw [hcx e he] at hw
      obtain ⟨h1, h2⟩ := hI.selfW e wt x hw hx
      exact ⟨h1, Nat.lt_succ_of_lt h2⟩
  · intro x hx hdx
    rw [hn] at hx
    by_cases hxb : x = M.heap.next
    · subst hxb
      rw [hcb, hob]
      exact ⟨hB1, hB2, Nat.le_refl _⟩
    · rw [hcx x hxb] at hdx ⊢
      rw [hox x hxb]
      exact hI.counted x (by omega) hdx
  · intro e he hem hde wt hw
    rw [hn] at he
    by_cases heb : e = M.heap.next
    · subst heb
      rw [hcb] at hem hw ⊢
      rcases hB4 wt hw with h | ⟨h, _⟩
      · exact h
      · rw [h] at hem; cases hem
    · rw [hcx e heb] at hem hde hw ⊢
      exact hI.latent e (by omega) hem hde wt hw
  · refine ⟨by omega, ?_⟩
    intro x hx
    have hxb : x ≠ M.heap.next := by omega
    rw [hcx x hxb, hox x hxb]
    exact ⟨rfl, id⟩
  · intro hR x hx
    by_cases hxb : x = M.heap.next
    · subst hxb; rw [hcb]; exact hB3
    · rw [hcx x hxb]
      rw [hox x hxb] at hx
      exact hR x hx

/-- Any change to the `strong_count` and `alive` of a block whose object is
already destroyed, and to the owners attached to that block. -/
theorem Inv.junk {M M' : Machine} (hI : Inv M) (b : Nat)
    (hd : (M.heap.core b).destroyed ≠ 0)
    (hcx : ∀ x, x ≠ b → M'.heap.core x = M.heap.core x)
    (hcb : (M'.heap.core b).destroyed = (M.heap.core b).destroyed ∧
      (M'.heap.core b).weak_this_ = (M.heap.core b).weak_this_)
    (hn : M'.heap.next = M.heap.next)
    (hox : ∀ x, x ≠ b → M'.owners x = M.owners x)
    (hS : RangeS M'.shared M'.heap.next) (hW : RangeW M'.weak M'.heap.next) :
    Inv M' ∧ Trans M M' := by
  refine ⟨⟨hS, hW, ?_, ?_, ?_⟩, ?_⟩
  · intro e wt x hw hx
    rw [hn]
    by_cases he : e = b
    · subst he; rw [hcb.2] at hw; exact hI.selfW e wt x hw hx
    · rw [hcx e he] at hw; exact hI.selfW e wt x hw hx
  · intro x hx hdx
    rw [hn] at hx
    by_cases hxb : x = b
    · subst hxb; rw [hcb.1] at hdx; exact absurd hdx hd
    · rw [hcx x hxb] at hdx ⊢
      rw [hox x hxb]
      exact hI.counted x hx hdx
  · intro e he hem hde wt hw
    rw [hn] at he
    by_cases heb : e = b
    · subst heb; rw [hcb.1] at hde; exact absurd hde hd
    · rw [hcx e heb] at hem hde hw ⊢
      exact hI.latent e he hem hde wt hw
  · refine ⟨Nat.le_of_eq hn.symm, ?_⟩
    intro x _ hdx
    by_cases hxb : x = b
    · subst hxb; exact absurd hdx hd
    · left; rw [hcx x hxb]; exact hdx

/-! ## Promotion and `Lock` -/

/-- The promoting constructor throws exactly when the observer has a block
whose `strong_count` is zero. -/
theorem fromWeak_throws_iff (s : Heap) (w : WeakPtr) :
    SharedPtr.fromWeak s w = .error .thrown ↔
      ∃ b, w.block_ = some b ∧ (s.blocks b).strong_count = 0 := by
  unfold SharedPtr.fromWeak
  cases hb : w.block_ with
  | none => simp
  | some b =>
    have ht : ((s.touch b).blocks b) = s.blocks b := by
      unfold Heap.touch; split <;> rfl
    simp only [ht]
    by_cases h0 : (s.blocks b).strong_count = 0 <;> simp [h0]

/-- C5: promoting a default-constructed observer (null block, for which
`Expired()` is true) does not fail with `BadWeakPtr`: the constructor returns an
empty handle and leaves the heap as it was. -/
theorem fromWeak_null_block_succeeds :
    WeakPtr.Expired Heap.empty (WeakPtr.null false) = true ∧
    (SharedPtr.fromWeak Heap.empty (WeakPtr.null false)).toOption.map Prod.snd
      = some SharedPtr.null := by
  decide

/-- C6: on an expired observer `Lock()` returns a handle whose `Get()` is
`nullptr`, whose `operator bool` is false and whose block is the block of the
observer (so it is null exactly when the observer has no block). -/
theorem Lock_of_expired (s : Heap) (w : WeakPtr) (h : WeakPtr.Expired s w = true) :
    (WeakPtr.Lock s w).2.Get = 0 ∧ (WeakPtr.Lock s w).2.toBool = false ∧
    (WeakPtr.Lock s w).2.block_ = w.block_ ∧
    ((WeakPtr.Lock s w).2.block_ = none ↔ w.block_ = none) := by
  have hb : (WeakPtr.Lock s w).2 = ⟨w.block_, 0⟩ := by
    unfold WeakPtr.Lock
    rw [if_pos h]
    unfold SharedPtr.ofBlock
    cases w.block_ with
    | none => rfl
    | some b => dsimp only; split <;> rfl
  rw [hb]
  simp [SharedPtr.Get, SharedPtr.toBool]

theorem Lock_of_expired_witness :
    WeakPtr.Expired (run Machine.init [.fromRaw 100 false, .weakFromShared 0 false, .reset 0]).heap
      (observerOf 100 false) = true ∧
    ((WeakPtr.Lock (run Machine.init [.fromRaw 100 false, .weakFromShared 0 false, .reset 0]).heap
        (observerOf 100 false)).2.Get = 0 ∧
     (WeakPtr.Lock (run Machine.init [.fromRaw 100 false, .weakFromShared 0 false, .reset 0]).heap
        (observerOf 100 false)).2.toBool = false ∧
     (WeakPtr.Lock (run Machine.init [.fromRaw 100 false, .weakFromShared 0 false, .reset 0]).heap
        (observerOf 100 false)).2.block_ = (observerOf 100 false).block_ ∧
     ((WeakPtr.Lock (run Machine.init [.fromRaw 100 false, .weakFromShared 0 false, .reset 0]).heap
        (observerOf 100 false)).2.block_ = none ↔ (observerOf 100 false).block_ = none)) :=
  ⟨by decide, Lock_of_expired _ _ (by decide)⟩

/-- C7: in `relockedPtr` the observer is not expired (`s1` owns its block, use
count 1), and `Lock()` returns the stored pointer but raises the use count by
two, to 3. -/
theorem Lock_after_relock_adds_two :
    relockedPtr.wk 0 = some (observerOf 100 false) ∧
    WeakPtr.Expired relockedPtr.heap (observerOf 100 false) = false ∧
    WeakPtr.UseCount relockedPtr.heap (observerOf 100 false) = 1 ∧
    (WeakPtr.Lock relockedPtr.heap (observerOf 100 false)).2.Get = 100 ∧
    WeakPtr.UseCount (WeakPtr.Lock relockedPtr.heap (observerOf 100 false)).1
      (observerOf 100 false) = 3 := by
  decide

/-- C2: in `relockedEmplace` the destruction strategy of the one block has run
twice: at `sp.Reset()` and again when `s2` is destroyed. -/
theorem emplace_destroyed_twice :
    ((run Machine.init [.makeShared 100 false, .weakFromShared 0 false, .reset 0]).heap.blocks
      0).destroyed = 1 ∧
    ((run Machine.init
      [.makeShared 100 false, .weakFromShared 0 false, .reset 0, .lock 0, .copy 1]).heap.blocks
      0).strong_count = 1 ∧
    (relockedEmplace.heap.blocks 0).strong_count = 0 ∧
    (relockedEmplace.heap.blocks 0).destroyed = 2 := by
  decide

/-- C3: in `orphanedEmplace` every handle has been released and both counters
of the block are zero, yet `delete block_` never ran. -/
theorem emplace_block_never_freed :
    orphanedEmplace.shared = [some SharedPtr.null] ∧ orphanedEmplace.weak = [none] ∧
    (orphanedEmplace.heap.blocks 0).strong_count = 0 ∧
    (orphanedEmplace.heap.blocks 0).weak_count = 0 ∧
    (orphanedEmplace.heap.blocks 0).destroyed = 1 ∧
    (orphanedEmplace.heap.blocks 0).freed = 0 := by
  decide

/-- C4: releasing the only owner of an object that holds a `WeakPtr` to
itself (and has no `EnableSharedFromThis` base) deletes the control block
twice and reads it after the first `delete`, for both kinds of block. -/
theorem self_observer_double_free :
    (((selfObserved true).1.blocks 0).strong_count = 1 ∧
     ((selfObserved true).1.blocks 0).weak_count = 1 ∧
     ((SharedPtr.DeleteBlock (selfObserved true).1 (selfObserved true).2).blocks 0).destroyed = 1 ∧
     ((SharedPtr.DeleteBlock (selfObserved true).1 (selfObserved true).2).blocks 0).freed = 2 ∧
     (SharedPtr.DeleteBlock (selfObserved true).1 (selfObserved true).2).faults = 1) ∧
    (((SharedPtr.DeleteBlock (selfObserved false).1 (selfObserved false).2).blocks 0).destroyed
        = 1 ∧
     ((SharedPtr.DeleteBlock (selfObserved false).1 (selfObserved false).2).blocks 0).freed = 2 ∧
     (SharedPtr.DeleteBlock (selfObserved false).1 (selfObserved false).2).faults = 2) := by
  decide

/-! ## The effect of the `SharedPtr` constructors on the core of the heap -/

theorem core_incrStrong (s : Heap) (b : Nat) :
    ((s.touch b).upd b { (s.touch b).blocks b with
        strong_count := incr ((s.touch b).blocks b).strong_count }).core = bump s.core b := by
  rw [core_upd]
  funext i
  unfold bump
  by_cases hi : i = b
  · subst hi
    simp [Heap.core]
  · simp [hi]

theorem SharedPtr.copy_some (s : Heap) (h : SharedPtr) (b : Nat) (hb : h.block_ = some b) :
    (SharedPtr.copy s h).2 = ⟨some b, h.pointer_⟩ ∧ (SharedPtr.copy s h).1.next = s.next ∧
    (SharedPtr.copy s h).1.core = bump s.core b := by
  unfold SharedPtr.copy
  rw [hb]
  exact ⟨rfl, by simp, core_incrStrong s b⟩

theorem SharedPtr.copy_none (s : Heap) (h : SharedPtr) (hb : h.block_ = none) :
    SharedPtr.copy s h = (s, ⟨none, h.pointer_⟩) := by
  unfold SharedPtr.copy
  rw [hb]

theorem SharedPtr.alias_some (s : Heap) (h : SharedPtr) (ptr : Nat) (u : SharedPtr) (b : Nat)
    (hb : h.block_ = some b) :
    (SharedPtr.alias s h ptr u).2 = ⟨some b, ptr⟩ ∧ (SharedPtr.alias s h ptr u).1.next = s.next ∧
    (SharedPtr.alias s h ptr u).1.core = bump s.core b := by
  unfold SharedPtr.alias
  rw [hb]
  exact ⟨rfl, by simp, core_incrStrong s b⟩

theorem SharedPtr.fromWeak_some (s : Heap) (w : WeakPtr) (b : Nat) (hb : w.block_ = some b)
    (h0 : (s.core b).strong_count ≠ 0) :
    ∃ t, SharedPtr.fromWeak s w = .ok (t, ⟨some b, w.pointer_⟩) ∧ t.next = s.next ∧
      t.core = bump s.core b := by
  unfold SharedPtr.fromWeak
  rw [hb]
  have h1 : ((s.touch b).blocks b).strong_count ≠ 0 := by simpa [Heap.core] using h0
  dsimp only
  rw [if_neg h1]
  exact ⟨_, rfl, by simp, core_incrStrong s b⟩

theorem SharedPtr.fromWeak_none (s : Heap) (w : WeakPtr) (hb : w.block_ = none) :
    SharedPtr.fromWeak s w = .ok (s, ⟨none, w.pointer_⟩) := by
  unfold SharedPtr.fromWeak
  rw [hb]

theorem SharedPtr.fromWeak_zero (s : Heap) (w : WeakPtr) (b : Nat) (hb : w.block_ = some b)
    (h0 : (s.core b).strong_count = 0) : SharedPtr.fromWeak s w = .error .thrown :=
  (fromWeak_throws_iff s w).mpr ⟨b, hb, h0⟩

theorem SharedPtr.ofBlock_some (s : Heap) (b ptr : Nat) :
    (SharedPtr.ofBlock s (some b) ptr).2 = ⟨some b, ptr⟩ ∧
    (SharedPtr.ofBlock s (some b) ptr).1.next = s.next ∧
    (SharedPtr.ofBlock s (some b) ptr).1.core =
      if (s.core b).alive = true then s.core else bump s.core b := by
  unfold SharedPtr.ofBlock
  dsimp only
  by_cases ha : (s.core b).alive = true
  · have h1 : ((s.touch b).blocks b).alive = true := by simpa [Heap.core] using ha
    rw [if_pos h1, if_pos ha]
    exact ⟨rfl, by simp, by simp⟩
  · have h1 : ¬ ((s.touch b).blocks b).alive = true := by simpa [Heap.core] using ha
    rw [if_neg h1, if_neg ha]
    exact ⟨rfl, by simp, core_incrStrong s b⟩

theorem bump_destroyed (c : Nat → ControlBlock) (b x : Nat) :
    (bump c b x).destroyed = (c x).destroyed ∧ (bump c b x).weak_this_ = (c x).weak_this_ ∧
    (bump c b x).alive = (c x).alive := by
  unfold bump
  by_cases h : x = b
  · subst h; simp
  · simp [h]

theorem bump_of_ne (c : Nat → ControlBlock) {b x : Nat} (h : x ≠ b) : bump c b x = c x := by
  unfold bump; simp [h]

/-- `Lock()` on an observer without a block. -/
theorem WeakPtr.Lock_none (s : Heap) (w : WeakPtr) (hb : w.block_ = none) :
    WeakPtr.Lock s w = (s, ⟨none, 0⟩) := by
  unfold WeakPtr.Lock WeakPtr.Expired
  rw [hb]
  rfl

/-- `Lock()` on an observer whose block has owners and a live object. -/
theorem WeakPtr.Lock_live (s : Heap) (w : WeakPtr) (b : Nat) (hb : w.block_ = some b)
    (h0 : (s.core b).strong_count ≠ 0) (ha : (s.core b).alive = true) :
    (WeakPtr.Lock s w).2 = ⟨some b, w.pointer_⟩ ∧ (WeakPtr.Lock s w).1.next = s.next ∧
    (WeakPtr.Lock s w).1.core = bump s.core b := by
  have he : WeakPtr.Expired s w = false := by
    unfold WeakPtr.Expired
    rw [hb]
    have : (s.blocks b).strong_count ≠ 0 := h0
    simp [this]
  obtain ⟨h1, h2, h3⟩ := SharedPtr.ofBlock_some s b w.pointer_
  rw [if_pos ha] at h3
  unfold WeakPtr.Lock
  rw [he, hb]
  simp only [Bool.false_eq_true, if_false]
  refine ⟨h1, by simp [h2], ?_⟩
  exact (core_incrStrong _ b).trans (by rw [h3])

/-- `Lock()` on an observer with a block, whatever its state: only the
`strong_count` of that block can change. -/
theorem WeakPtr.Lock_frame (s : Heap) (w : WeakPtr) (b : Nat) (hb : w.block_ = some b) :
    (WeakPtr.Lock s w).2.block_ = some b ∧ (WeakPtr.Lock s w).1.next = s.next ∧
    (∀ x, x ≠ b → (WeakPtr.Lock s w).1.core x = s.core x) ∧
    ((WeakPtr.Lock s w).1.core b).destroyed = (s.core b).destroyed ∧
    ((WeakPtr.Lock s w).1.core b).weak_this_ = (s.core b).weak_this_ := by
  have hob : ∀ (t : Heap) (p : Nat), (∀ x, x ≠ b → (SharedPtr.ofBlock t (some b) p).1.core x
      = t.core x) ∧ ((SharedPtr.ofBlock t (some b) p).1.core b).destroyed = (t.core b).destroyed
      ∧ ((SharedPtr.ofBlock t (some b) p).1.core b).weak_this_ = (t.core b).weak_this_ := by
    intro t p
    obtain ⟨_, _, h3⟩ := SharedPtr.ofBlock_some t b p
    rw [h3]
    split
    · exact ⟨fun _ _ => rfl, rfl, rfl⟩
    · exact ⟨fun x hx => bump_of_ne _ hx, (bump_destroyed _ _ _).1, (bump_destroyed _ _ _).2.1⟩
  unfold WeakPtr.Lock
  rw [hb]
  split
  · obtain ⟨h1, h2, _⟩ := SharedPtr.ofBlock_some s b 0
    exact ⟨by rw [h1], h2, hob s 0⟩
  · obtain ⟨h1, h2, _⟩ := SharedPtr.ofBlock_some s b w.pointer_
    have hc := core_incrStrong (SharedPtr.ofBlock s (some b) w.pointer_).1 b
    refine ⟨by rw [h1], by simp [h2], ?_, ?_, ?_⟩
    · intro x hx
      refine (congrFun hc x).trans ?_
      rw [bump_of_ne _ hx]
      exact (hob s w.pointer_).1 x hx
    · refine (congrArg ControlBlock.destroyed (congrFun hc b)).trans ?_
      rw [(bump_destroyed _ _ _).1]
      exact (hob s w.pointer_).2.1
    · refine (congrArg ControlBlock.weak_this_ (congrFun hc b)).trans ?_
      rw [(bump_destroyed _ _ _).2.1]
      exact (hob s w.pointer_).2.2

theorem core_alloc (s : Heap) (emplace : Bool) (ptr : Nat) (esft : Bool) :
    (s.alloc emplace ptr esft).2 = s.next ∧ (s.alloc emplace ptr esft).1.next = s.next + 1 ∧
    (s.alloc emplace ptr esft).1.core = fun i => if i = s.next then
        { freshCore s.next emplace ptr esft with
          weak_this_ := if esft then some ⟨none, 0, true⟩ else none }
      else s.core i := by
  refine ⟨rfl, rfl, ?_⟩
  funext i
  unfold Heap.alloc Heap.core freshCore
  by_cases hi : i = s.next
  · simp [hi]
  · simp [hi]

theorem core_InitWeakThis_fresh (s : Heap) (emplace : Bool) (ptr : Nat) :
    (SharedPtr.InitWeakThis (s.alloc emplace ptr true).1 ⟨some s.next, ptr⟩ s.next).next
      = s.next + 1 ∧
    (SharedPtr.InitWeakThis (s.alloc emplace ptr true).1 ⟨some s.next, ptr⟩ s.next).core =
      fun i => if i = s.next then freshCore s.next emplace ptr true else s.core i := by
  have hw : ((s.alloc emplace ptr true).1.blocks s.next).weak_this_ = some ⟨none, 0, true⟩ := by
    simp [Heap.alloc]
  unfold SharedPtr.InitWeakThis
  rw [hw]
  simp only [WeakPtr.fromShared, WeakPtr.moveAssign, WeakPtr.DeleteWeakFromThis, Bool.false_eq_true,
    if_false, WeakPtr.DeleteWeak]
  refine ⟨by simp [(core_alloc s emplace ptr true).2.1], ?_⟩
  rw [core_upd, core_AddWeak, (core_alloc s emplace ptr true).2.2]
  funext i
  by_cases hi : i = s.next
  · subst hi
    simp only [if_true]
    have h1 := congrFun (core_AddWeak (s.alloc emplace ptr true).1 ⟨some s.next, ptr, true⟩) s.next
    rw [(core_alloc s emplace ptr true).2.2] at h1
    simp only [if_true] at h1
    simp only [Heap.core, freshCore] at h1 ⊢
    rw [ControlBlock.mk.injEq] at h1 ⊢
    obtain ⟨a1, _, a3, a4, a5, _, a7, a8, _⟩ := h1
    exact ⟨a1, rfl, a3, a4, a5, rfl, a7, a8, rfl⟩
  · simp only [if_neg hi]

theorem core_fromRaw (s : Heap) (ptr : Nat) (esft : Bool) :
    (SharedPtr.fromRaw s ptr esft).2 = ⟨some s.next, ptr⟩ ∧
    (SharedPtr.fromRaw s ptr esft).1.next = s.next + 1 ∧
    (SharedPtr.fromRaw s ptr esft).1.core =
      fun i => if i = s.next then freshCore s.next false ptr esft else s.core i := by
  unfold SharedPtr.fromRaw
  cases esft with
  | true =>
    obtain ⟨h1, h2⟩ := core_InitWeakThis_fresh s false ptr
    exact ⟨rfl, h1, h2⟩
  | false =>
    obtain ⟨_, h1, h2⟩ := core_alloc s false ptr false
    refine ⟨rfl, h1, ?_⟩
    simp only [Bool.false_eq_true, if_false] at h2 ⊢
    rw [h2]
    rfl

theorem core_MakeShared (s : Heap) (addr : Nat) (esft : Bool) :
    (MakeShared s addr esft).2 = ⟨some s.next, addr⟩ ∧
    (MakeShared s addr esft).1.next = s.next + 1 ∧
    (MakeShared s addr esft).1.core =
      fun i => if i = s.next then freshCore s.next true addr esft else s.core i := by
  have hp : ((s.alloc true addr esft).1.blocks s.next).pointer_ = addr := by
    simp [Heap.alloc]
  unfold MakeShared SharedPtr.ofEmplace
  cases esft with
  | true =>
    obtain ⟨h1, h2⟩ := core_InitWeakThis_fresh s true addr
    refine ⟨?_, ?_, ?_⟩
    · show (⟨some s.next, ((s.alloc true addr true).1.blocks s.next).pointer_⟩ : SharedPtr) = _
      rw [hp]
    · show (SharedPtr.InitWeakThis (s.alloc true addr true).1
        ⟨some s.next, ((s.alloc true addr true).1.blocks s.next).pointer_⟩ s.next).next = _
      rw [hp]; exact h1
    · show (SharedPtr.InitWeakThis (s.alloc true addr true).1
        ⟨some s.next, ((s.alloc true addr true).1.blocks s.next).pointer_⟩ s.next).core = _
      rw [hp]; exact h2
  | false =>
    obtain ⟨_, h1, h2⟩ := core_alloc s true addr false
    refine ⟨?_, h1, ?_⟩
    · show (⟨some s.next, ((s.alloc true addr false).1.blocks s.next).pointer_⟩ : SharedPtr) = _
      rw [hp]
    · simp only [Bool.false_eq_true, if_false] at h2 ⊢
      rw [h2]
      rfl

/-! ## Every statement preserves the invariant -/

/-- `1` when the variable holds an owner attached to `x`. -/
theorem pointsTo_some (x : Nat) (h : SharedPtr) :
    (if pointsTo x (some h) = true then 1 else 0) = if h.block_ = some x then 1 else 0 := by
  simp [pointsTo]

theorem owners_set_sh {M : Machine} {i : Nat} {h : SharedPtr} (hs : M.sh i = some h)
    (v : Option SharedPtr) (x : Nat) :
    owners (M.shared.set i v) x + (if h.block_ = some x then 1 else 0)
      = owners M.shared x + (if pointsTo x v = true then 1 else 0) := by
  obtain ⟨hl, he⟩ := sh_eq_some hs
  have := owners_set M.shared i (some h) v hl he x
  rw [pointsTo_some] at this
  exact this

theorem sh_rangeS {M : Machine} (hI : Inv M) {i : Nat} {h : SharedPtr} (hs : M.sh i = some h)
    {b : Nat} (hb : h.block_ = some b) : b < M.heap.next :=
  hI.rangeS _ (sh_mem hs) h b rfl hb

theorem wk_rangeW {M : Machine} (hI : Inv M) {i : Nat} {w : WeakPtr} (hs : M.wk i = some w)
    {b : Nat} (hb : w.block_ = some b) : b < M.heap.next :=
  hI.rangeW _ (wk_mem hs) w b rfl hb

theorem sh_owners_pos {M : Machine} {i : Nat} {h : SharedPtr} (hs : M.sh i = some h)
    {b : Nat} (hb : h.block_ = some b) : 1 ≤ M.owners b :=
  owners_pos_of_mem (sh_mem hs) hb

theorem safe_refl {M : Machine} (hI : Inv M) :
    Inv M ∧ Trans M M ∧ (Intact M → Intact M) :=
  ⟨hI, ⟨Nat.le_refl _, fun _ _ hd => Or.inl hd⟩, id⟩

/-- A new variable holding an owner without a block. -/
theorem safe_push_blockless {M : Machine} (hI : Inv M) (t : Heap) (hc : t.core = M.heap.core)
    (hn : t.next = M.heap.next) (ptr : Nat) :
    Inv (M.pushShared t ⟨none, ptr⟩) ∧ Quiet M (M.pushShared t ⟨none, ptr⟩) ∧
      (Intact M → Intact (M.pushShared t ⟨none, ptr⟩)) := by
  refine Inv.same hI hc hn ?_ ?_ ?_
  · intro x
    show owners (M.shared ++ [some ⟨none, ptr⟩]) x = owners M.shared x
    rw [owners_push]; simp
  · show RangeS (M.shared ++ [some ⟨none, ptr⟩]) t.next
    rw [hn]
    exact hI.rangeS.pushS _ (fun b hb => by cases hb)
  · show RangeW M.weak t.next
    rw [hn]; exact hI.rangeW

/-- A new variable holding an owner of block `b`, after `++strong_count`. -/
theorem safe_push_inc {M : Machine} (hI : Inv M) (b : Nat) (hb : b < M.heap.next) (t : Heap)
    (hc : t.core = bump M.heap.core b) (hn : t.next = M.heap.next) (ptr : Nat)
    (hlen : (M.pushShared t ⟨some b, ptr⟩).shared.length < SIZE_MOD) :
    Inv (M.pushShared t ⟨some b, ptr⟩) ∧ Trans M (M.pushShared t ⟨some b, ptr⟩) ∧
      (1 ≤ M.owners b → Quiet M (M.pushShared t ⟨some b, ptr⟩) ∧
        (Intact M → Intact (M.pushShared t ⟨some b, ptr⟩))) := by
  refine Inv.inc hI b hb hc hn ?_ ?_ ?_ hlen
  · intro x
    show owners (M.shared ++ [some ⟨some b, ptr⟩]) x = _
    rw [owners_push]
    by_cases hx : x = b
    · subst hx; simp; rfl
    · have : ¬ b = x := fun h => hx h.symm
      simp [hx, this]; rfl
  · show RangeS (M.shared ++ [some ⟨some b, ptr⟩]) t.next
    rw [hn]
    exact hI.rangeS.pushS _ (fun x hx => by cases hx; exact hb)
  · show RangeW M.weak t.next
    rw [hn]; exact hI.rangeW

/-- A new variable holding the first owner of a new block. -/
theorem safe_push_alloc {M : Machine} (hI : Inv M) (t : Heap) (emplace : Bool) (ptr : Nat)
    (esft : Bool)
    (hc : t.core = fun i => if i = M.heap.next then freshCore M.heap.next emplace ptr esft
      else M.heap.core i)
    (hn : t.next = M.heap.next + 1) :
    Inv (M.pushShared t ⟨some M.heap.next, ptr⟩) ∧
    Quiet M (M.pushShared t ⟨some M.heap.next, ptr⟩) ∧
      (Intact M → Intact (M.pushShared t ⟨some M.heap.next, ptr⟩)) := by
  refine Inv.alloc hI (freshCore M.heap.next emplace ptr esft) rfl rfl rfl ?_ hc hn ?_ ?_ ?_
  · intro wt hw
    left
    cases esft with
    | true => simp [freshCore] at hw; rw [← hw]; rfl
    | false => simp [freshCore] at hw
  · intro x
    show owners (M.shared ++ [some ⟨some M.heap.next, ptr⟩]) x = _
    rw [owners_push]
    by_cases hx : x = M.heap.next
    · rw [hx]; simp; rfl
    · have : ¬ M.heap.next = x := fun h => hx h.symm
      simp [hx, this]; rfl
  · show RangeS (M.shared ++ [some ⟨some M.heap.next, ptr⟩]) t.next
    rw [hn]
    exact (hI.rangeS.monoS (Nat.le_succ _)).pushS _
      (fun x hx => by cases hx; exact Nat.lt_succ_self _)
  · show RangeW M.weak t.next
    rw [hn]; exact hI.rangeW.monoW (Nat.le_succ _)

/-- A change of the observer variables that leaves the core of the heap alone. -/
theorem safe_weak {M : Machine} (hI : Inv M) (t : Heap) (hc : t.core = M.heap.core)
    (hn : t.next = M.heap.next) (wl : List (Option WeakPtr)) (hW : RangeW wl M.heap.next) :
    Inv ⟨t, M.shared, wl⟩ ∧ Trans M ⟨t, M.shared, wl⟩ ∧ (Intact M → Intact ⟨t, M.shared, wl⟩) := by
  have h := @Inv.same _ (⟨t, M.shared, wl⟩) hI hc hn (fun _ => rfl)
    (by show RangeS M.shared t.next; rw [hn]; exact hI.rangeS)
    (by show RangeW wl t.next; rw [hn]; exact hW)
  exact ⟨h.1, h.2.1.trans_of, h.2.2⟩

/-- The owner `h` is released by `DeleteBlock` and the owner variables become
`l`, which has one owner of the block of `h` fewer. -/
theorem safe_release {M : Machine} (hI : Inv M) {i : Nat} {h : SharedPtr} (hs : M.sh i = some h)
    (l : List (Option SharedPtr))
    (ho : ∀ x, owners l x + (if h.block_ = some x then 1 else 0) = owners M.shared x)
    (hS : RangeS l M.heap.next) (hlen : M.shared.length < SIZE_MOD) :
    Inv ⟨SharedPtr.DeleteBlock M.heap h, l, M.weak⟩ ∧
    Trans M ⟨SharedPtr.DeleteBlock M.heap h, l, M.weak⟩ ∧
    (Intact M → Intact ⟨SharedPtr.DeleteBlock M.heap h, l, M.weak⟩) ∧
    (SharedPtr.DeleteBlock M.heap h).next = M.heap.next := by
  cases hb : h.block_ with
  | none =>
    have hd : SharedPtr.DeleteBlock M.heap h = M.heap := by
      unfold SharedPtr.DeleteBlock; rw [hb]
    rw [hd]
    have h := @Inv.same _ (⟨M.heap, l, M.weak⟩) hI rfl rfl
      (fun x => by have := ho x; rw [hb] at this; simpa using this) hS hI.rangeW
    exact ⟨h.1, h.2.1.trans_of, h.2.2, rfl⟩
  | some b =>
    obtain ⟨hn, F, W, hF, hc⟩ := core_DeleteBlock M.heap h b hb
    have h := @Inv.rel _ (⟨SharedPtr.DeleteBlock M.heap h, l, M.weak⟩) hI b
      (sh_owners_pos hs hb) F W hF hc hn
      (fun x => by
        have := ho x
        rw [hb] at this
        by_cases hx : x = b
        · subst hx; simpa using this
        · have hne : ¬ b = x := fun h => hx h.symm
          simp only [Option.some.injEq, hne, if_false, hx] at this ⊢
          exact this)
      (by show RangeS l (SharedPtr.DeleteBlock M.heap h).next; rw [hn]; exact hS)
      (by show RangeW M.weak (SharedPtr.DeleteBlock M.heap h).next; rw [hn]; exact hI.rangeW)
      hlen
    exact ⟨h.1, h.2.1, h.2.2, hn⟩

theorem getD_set_of_ne {α : Type} (l : List α) {i j : Nat} (hij : i ≠ j) (v d : α) :
    (l.set j v).getD i d = l.getD i d := by
  simp only [List.getD_eq_getElem?_getD]
  rw [List.getElem?_set_ne (fun h => hij h.symm)]

theorem getD_set_self {α : Type} (l : List α) {i : Nat} (hi : i < l.length) (v d : α) :
    (l.set i v).getD i d = v := by
  simp only [List.getD_eq_getElem?_getD]
  rw [List.getElem?_set_self hi]
  rfl

theorem step_null {M : Machine} (hI : Inv M) :
    Inv (step M .null) ∧ Trans M (step M .null) ∧ (Intact M → Intact (step M .null)) := by
  have h := safe_push_blockless hI M.heap rfl rfl 0
  exact ⟨h.1, h.2.1.trans_of, h.2.2⟩

theorem step_fromRaw {M : Machine} (hI : Inv M) (ptr : Nat) (esft : Bool) :
    Inv (step M (.fromRaw ptr esft)) ∧ Trans M (step M (.fromRaw ptr esft)) ∧
      (Intact M → Intact (step M (.fromRaw ptr esft))) := by
  obtain ⟨h1, h2, h3⟩ := core_fromRaw M.heap ptr esft
  have h := safe_push_alloc hI (SharedPtr.fromRaw M.heap ptr esft).1 false ptr esft h3 h2
  rw [← h1] at h
  exact ⟨h.1, h.2.1.trans_of, h.2.2⟩

theorem step_makeShared {M : Machine} (hI : Inv M) (addr : Nat) (esft : Bool) :
    Inv (step M (.makeShared addr esft)) ∧ Trans M (step M (.makeShared addr esft)) ∧
      (Intact M → Intact (step M (.makeShared addr esft))) := by
  obtain ⟨h1, h2, h3⟩ := core_MakeShared M.heap addr esft
  have h := safe_push_alloc hI (MakeShared M.heap addr esft).1 true addr esft h3 h2
  rw [← h1] at h
  exact ⟨h.1, h.2.1.trans_of, h.2.2⟩

theorem step_copy {M : Machine} (hI : Inv M) (i : Nat)
    (hlen : (step M (.copy i)).shared.length < SIZE_MOD) :
    Inv (step M (.copy i)) ∧ Trans M (step M (.copy i)) ∧
      (Intact M → Intact (step M (.copy i))) := by
  simp only [step] at hlen ⊢
  cases hs : M.sh i with
  | none => exact safe_refl hI
  | some h =>
    simp only [hs] at hlen ⊢
    cases hb : h.block_ with
    | none =>
      rw [SharedPtr.copy_none _ _ hb]
      have h := safe_push_blockless hI M.heap rfl rfl h.pointer_
      exact ⟨h.1, h.2.1.trans_of, h.2.2⟩
    | some b =>
      obtain ⟨h1, h2, h3⟩ := SharedPtr.copy_some M.heap h b hb
      rw [h1] at hlen ⊢
      have h := safe_push_inc hI b (sh_rangeS hI hs hb) _ h3 h2 h.pointer_ hlen
      exact ⟨h.1, h.2.1, (h.2.2 (sh_owners_pos hs hb)).2⟩

theorem step_alias {M : Machine} (hI : Inv M) (i ptr : Nat)
    (hlen : (step M (.aliasing i ptr)).shared.length < SIZE_MOD) :
    Inv (step M (.aliasing i ptr)) ∧ Trans M (step M (.aliasing i ptr)) ∧
      (Intact M → Intact (step M (.aliasing i ptr))) := by
  simp only [step] at hlen ⊢
  cases hs : M.sh i with
  | none => exact safe_refl hI
  | some h =>
    simp only [hs] at hlen ⊢
    cases hb : h.block_ with
    | none => simp only [Option.isSome_none, Bool.false_eq_true, if_false]; exact safe_refl hI
    | some b =>
      simp only [hb, Option.isSome_some, if_true] at hlen ⊢
      obtain ⟨h1, h2, h3⟩ := SharedPtr.alias_some M.heap h ptr SharedPtr.null b hb
      rw [h1] at hlen ⊢
      have h := safe_push_inc hI b (sh_rangeS hI hs hb) _ h3 h2 ptr hlen
      exact ⟨h.1, h.2.1, (h.2.2 (sh_owners_pos hs hb)).2⟩

theorem step_move {M : Machine} (hI : Inv M) (i : Nat) :
    Inv (step M (.move i)) ∧ Trans M (step M (.move i)) ∧
      (Intact M → Intact (step M (.move i))) := by
  simp only [step]
  cases hs : M.sh i with
  | none => exact safe_refl hI
  | some h =>
    simp only [SharedPtr.move]
    have hh := @Inv.same _ (⟨M.heap, M.shared.set i (some ⟨none, 0⟩) ++
        [some ⟨h.block_, h.pointer_⟩], M.weak⟩) hI rfl rfl
      (fun x => by
        show owners (M.shared.set i (some ⟨none, 0⟩) ++ [some ⟨h.block_, h.pointer_⟩]) x
          = owners M.shared x
        rw [owners_push]
        have := owners_set_sh hs (some ⟨none, 0⟩) x
        simp only [pointsTo] at this
        simp only at this ⊢
        simpa using this)
      ((hI.rangeS.setS i _ (fun y b hy hb => by cases hy; cases hb)).pushS _
        (fun b hb => sh_rangeS hI hs hb))
      hI.rangeW
    exact ⟨hh.1, hh.2.1.trans_of, hh.2.2⟩

/-- The promoting constructor applied to an observer whose block, if any, has
been allocated. -/
theorem safe_promote {M : Machine} (hI : Inv M) (x : WeakPtr)
    (hr : ∀ b, x.block_ = some b → b < M.heap.next)
    (hlen : (M.pushResult (SharedPtr.fromWeak M.heap x)).shared.length < SIZE_MOD) :
    Inv (M.pushResult (SharedPtr.fromWeak M.heap x)) ∧
      Trans M (M.pushResult (SharedPtr.fromWeak M.heap x)) := by
  cases hb : x.block_ with
  | none =>
    rw [SharedPtr.fromWeak_none _ _ hb]
    have h := safe_push_blockless hI M.heap rfl rfl x.pointer_
    exact ⟨h.1, h.2.1.trans_of⟩
  | some b =>
    by_cases h0 : (M.heap.core b).strong_count = 0
    · rw [SharedPtr.fromWeak_zero _ _ b hb h0]
      exact ⟨hI, (safe_refl hI).2.1⟩
    · obtain ⟨t, ht, hn, hc⟩ := SharedPtr.fromWeak_some _ _ b hb h0
      rw [ht] at hlen ⊢
      have h := safe_push_inc hI b (hr b hb) t hc hn x.pointer_ hlen
      exact ⟨h.1, h.2.1⟩

theorem step_fromWeak {M : Machine} (hI : Inv M) (w : Nat)
    (hlen : (step M (.fromWeak w)).shared.length < SIZE_MOD) :
    Inv (step M (.fromWeak w)) ∧ Trans M (step M (.fromWeak w)) := by
  simp only [step] at hlen ⊢
  cases hs : M.wk w with
  | none => exact ⟨hI, (safe_refl hI).2.1⟩
  | some x =>
    simp only [hs] at hlen ⊢
    exact safe_promote hI x (fun b hb => wk_rangeW hI hs hb) hlen

theorem step_sharedFromThis {M : Machine} (hI : Inv M) (i : Nat)
    (hlen : (step M (.sharedFromThis i)).shared.length < SIZE_MOD) :
    Inv (step M (.sharedFromThis i)) ∧ Trans M (step M (.sharedFromThis i)) := by
  simp only [step] at hlen ⊢
  cases hs : M.sh i with
  | none => exact ⟨hI, (safe_refl hI).2.1⟩
  | some h =>
    simp only [hs] at hlen ⊢
    cases hb : h.block_ with
    | none => exact ⟨hI, (safe_refl hI).2.1⟩
    | some e =>
      simp only [hb] at hlen ⊢
      by_cases hp : h.pointer_ = (M.heap.blocks e).pointer_
      · simp only [hp, if_true] at hlen ⊢
        unfold SharedFromThis at hlen ⊢
        cases hw : (M.heap.blocks e).weak_this_ with
        | none => exact ⟨hI, (safe_refl hI).2.1⟩
        | some wt =>
          simp only [hw] at hlen ⊢
          exact safe_promote hI wt
            (fun b hb => by
              obtain ⟨h1, h2⟩ := hI.selfW e wt b hw hb
              rw [h1]; exact h2) hlen
      · simp only [hp, if_false]
        exact ⟨hI, (safe_refl hI).2.1⟩

theorem step_lock {M : Machine} (hI : Inv M) (w : Nat)
    (hlen : (step M (.lock w)).shared.length < SIZE_MOD) :
    Inv (step M (.lock w)) ∧ Trans M (step M (.lock w)) := by
  simp only [step] at hlen ⊢
  cases hs : M.wk w with
  | none => exact ⟨hI, (safe_refl hI).2.1⟩
  | some x =>
    simp only [hs] at hlen ⊢
    cases hb : x.block_ with
    | none =>
      rw [WeakPtr.Lock_none _ _ hb]
      have h := safe_push_blockless hI M.heap rfl rfl 0
      exact ⟨h.1, h.2.1.trans_of⟩
    | some b =>
      have hbn : b < M.heap.next := wk_rangeW hI hs hb
      by_cases hd : (M.heap.core b).destroyed = 0
      · obtain ⟨h1, h2, h3⟩ := hI.counted b hbn hd
        obtain ⟨k1, k2, k3⟩ := WeakPtr.Lock_live M.heap x b hb (by omega) h2
        rw [k1] at hlen ⊢
        have h := safe_push_inc hI b hbn _ k3 k2 x.pointer_ hlen
        exact ⟨h.1, h.2.1⟩
      · obtain ⟨k1, k2, k3, k4, k5⟩ := WeakPtr.Lock_frame M.heap x b hb
        refine Inv.junk hI b hd k3 ⟨k4, k5⟩ k2 ?_ ?_ ?_
        · intro y hy
          show owners (M.shared ++ [some (WeakPtr.Lock M.heap x).2]) y = owners M.shared y
          rw [owners_push, k1]
          have : ¬ b = y := fun h => hy h.symm
          simp [this]
        · show RangeS (M.shared ++ [some (WeakPtr.Lock M.heap x).2]) (WeakPtr.Lock M.heap x).1.next
          rw [k2]
          exact hI.rangeS.pushS _ (fun y hy => by rw [k1] at hy; cases hy; exact hbn)
        · show RangeW M.weak (WeakPtr.Lock M.heap x).1.next
          rw [k2]; exact hI.rangeW

theorem owners_blockless (v : Option SharedPtr) (hv : ∀ h b, v = some h → h.block_ ≠ some b)
    (x : Nat) : (if pointsTo x v = true then 1 else 0) = 0 := by
  cases v with
  | none => simp [pointsTo]
  | some h => simp [pointsTo, hv h x rfl]

theorem step_reset {M : Machine} (hI : Inv M) (i : Nat)
    (hlen : M.shared.length < SIZE_MOD) :
    Inv (step M (.reset i)) ∧ Trans M (step M (.reset i)) ∧
      (Intact M → Intact (step M (.reset i))) := by
  simp only [step]
  cases hs : M.sh i with
  | none => exact safe_refl hI
  | some h =>
    simp only [SharedPtr.Reset]
    have hr := safe_release hI hs (M.shared.set i (some ⟨none, 0⟩))
      (fun x => by
        have := owners_set_sh hs (some ⟨none, 0⟩) x
        rw [owners_blockless _ (fun _ _ hh hb => by cases hh; cases hb)] at this
        exact this)
      (hI.rangeS.setS i _ (fun y b hy hb => by cases hy; cases hb)) hlen
    exact ⟨hr.1, hr.2.1, hr.2.2.1⟩

theorem step_destroy {M : Machine} (hI : Inv M) (i : Nat)
    (hlen : M.shared.length < SIZE_MOD) :
    Inv (step M (.destroy i)) ∧ Trans M (step M (.destroy i)) ∧
      (Intact M → Intact (step M (.destroy i))) := by
  simp only [step]
  cases hs : M.sh i with
  | none => exact safe_refl hI
  | some h =>
    have hr := safe_release hI hs (M.shared.set i none)
      (fun x => by
        have := owners_set_sh hs none x
        rw [owners_blockless _ (fun _ _ hh _ => by cases hh)] at this
        exact this)
      (hI.rangeS.setS i _ (fun y b hy _ => by cases hy)) hlen
    exact ⟨hr.1, hr.2.1, hr.2.2.1⟩

theorem sh_after_set_ne {M : Machine} {i j : Nat} (hij : j ≠ i) (t : Heap)
    (v : Option SharedPtr) :
    (⟨t, M.shared.set i v, M.weak⟩ : Machine).sh j = M.sh j :=
  getD_set_of_ne M.shared hij v none

theorem sh_after_set_self {M : Machine} {i : Nat} {h : SharedPtr} (hs : M.sh i = some h)
    (t : Heap) (v : Option SharedPtr) :
    (⟨t, M.shared.set i v, M.weak⟩ : Machine).sh i = v :=
  getD_set_self M.shared (sh_eq_some hs).1 v none

theorem step_swap {M : Machine} (hI : Inv M) (i j : Nat) :
    Inv (step M (.swap i j)) ∧ Trans M (step M (.swap i j)) ∧
      (Intact M → Intact (step M (.swap i j))) := by
  simp only [step]
  cases hi : M.sh i with
  | none => exact safe_refl hI
  | some a =>
    cases hj : M.sh j with
    | none => exact safe_refl hI
    | some b =>
      simp only [SharedPtr.Swap]
      have hmid : ∃ a', (⟨M.heap, M.shared.set j (some ⟨a.block_, a.pointer_⟩), M.weak⟩ :
          Machine).sh i = some a' ∧ a'.block_ = a.block_ := by
        by_cases hij : i = j
        · subst hij
          exact ⟨_, sh_after_set_self hj _ _, rfl⟩
        · exact ⟨a, (sh_after_set_ne hij _ _).trans hi, rfl⟩
      obtain ⟨a', ha', hab⟩ := hmid
      have hh := @Inv.same _ (⟨M.heap, (M.shared.set j (some ⟨a.block_, a.pointer_⟩)).set i
          (some ⟨b.block_, b.pointer_⟩), M.weak⟩) hI rfl rfl
        (fun x => by
          have h1 := owners_set_sh hj (some ⟨a.block_, a.pointer_⟩) x
          have h2 := owners_set_sh ha' (some ⟨b.block_, b.pointer_⟩) x
          rw [pointsTo_some] at h1 h2
          rw [hab] at h2
          show owners ((M.shared.set j (some ⟨a.block_, a.pointer_⟩)).set i
            (some ⟨b.block_, b.pointer_⟩)) x = owners M.shared x
          simp only at h1 h2
          omega)
        ((hI.rangeS.setS j _ (fun y c hy hc => by
            cases hy; exact sh_rangeS hI hi hc)).setS i _ (fun y c hy hc => by
            cases hy; exact sh_rangeS hI hj hc))
        hI.rangeW
      exact ⟨hh.1, hh.2.1.trans_of, hh.2.2⟩

theorem step_moveAssign {M : Machine} (hI : Inv M) (i j : Nat)
    (hlen : M.shared.length < SIZE_MOD) :
    Inv (step M (.moveAssign i j)) ∧ Trans M (step M (.moveAssign i j)) ∧
      (Intact M → Intact (step M (.moveAssign i j))) := by
  simp only [step]
  cases hi : M.sh i with
  | none => exact safe_refl hI
  | some a =>
    cases hj : M.sh j with
    | none => exact safe_refl hI
    | some b =>
      by_cases hij : i = j
      · subst hij
        have hab : a = b := by rw [hi] at hj; cases hj; rfl
        subst hab
        simp only [SharedPtr.moveAssign, decide_True, if_true]
        rw [List.set_set]
        have hh := @Inv.same _ (⟨M.heap, M.shared.set i (some a), M.weak⟩) hI rfl rfl
          (fun x => by
            have h1 := owners_set_sh hi (some a) x
            rw [pointsTo_some] at h1
            show owners (M.shared.set i (some a)) x = owners M.shared x
            omega)
          (hI.rangeS.setS i _ (fun y c hy hc => by cases hy; exact sh_rangeS hI hi hc))
          hI.rangeW
        exact ⟨hh.1, hh.2.1.trans_of, hh.2.2⟩
      · have hd : decide (i = j) = false := by simp [hij]
        simp only [SharedPtr.moveAssign, hd, Bool.false_eq_true, if_false]
        have ha' : (⟨M.heap, M.shared.set j (some ⟨none, 0⟩), M.weak⟩ : Machine).sh i = some a :=
          (sh_after_set_ne hij _ _).trans hi
        have hr := safe_release hI hi
          ((M.shared.set j (some ⟨none, 0⟩)).set i (some ⟨b.block_, b.pointer_⟩))
          (fun x => by
            have h1 := owners_set_sh hj (some ⟨none, 0⟩) x
            have h2 := owners_set_sh ha' (some ⟨b.block_, b.pointer_⟩) x
            rw [pointsTo_some] at h2
            rw [owners_blockless _ (fun _ _ hh hb => by cases hh; cases hb)] at h1
            simp only at h1 h2
            omega)
          ((hI.rangeS.setS j _ (fun y c hy hc => by cases hy; cases hc)).setS i _
            (fun y c hy hc => by cases hy; exact sh_rangeS hI hj hc)) hlen
        exact ⟨hr.1, hr.2.1, hr.2.2.1⟩

theorem step_copyAssign {M : Machine} (hI : Inv M) (i j : Nat)
    (hlen : M.shared.length < SIZE_MOD) :
    Inv (step M (.copyAssign i j)) ∧ Trans M (step M (.copyAssign i j)) ∧
      (Intact M → Intact (step M (.copyAssign i j))) := by
  simp only [step]
  cases hi : M.sh i with
  | none => exact safe_refl hI
  | some a =>
    cases hj : M.sh j with
    | none => exact safe_refl hI
    | some b =>
      by_cases hij : i = j
      · subst hij
        simp only [SharedPtr.copyAssign, decide_True, if_true]
        have hh := @Inv.same _ (⟨M.heap, M.shared.set i (some a), M.weak⟩) hI rfl rfl
          (fun x => by
            have h1 := owners_set_sh hi (some a) x
            rw [pointsTo_some] at h1
            show owners (M.shared.set i (some a)) x = owners M.shared x
            omega)
          (hI.rangeS.setS i _ (fun y c hy hc => by cases hy; exact sh_rangeS hI hi hc))
          hI.rangeW
        exact ⟨hh.1, hh.2.1.trans_of, hh.2.2⟩
      · have hd : decide (i = j) = false := by simp [hij]
        simp only [SharedPtr.copyAssign, hd, Bool.false_eq_true, if_false]
        cases hb : b.block_ with
        | none =>
          have hr := safe_release hI hi (M.shared.set i (some ⟨none, b.pointer_⟩))
            (fun x => by
              have := owners_set_sh hi (some ⟨none, b.pointer_⟩) x
              rw [owners_blockless _ (fun _ _ hh hb => by cases hh; cases hb)] at this
              exact this)
            (hI.rangeS.setS i _ (fun y c hy hc => by cases hy; cases hc)) hlen
          exact ⟨hr.1, hr.2.1, hr.2.2.1⟩
        | some bj =>
          have hr := safe_release hI hi (M.shared.set i (some ⟨none, 0⟩))
            (fun x => by
              have := owners_set_sh hi (some ⟨none, 0⟩) x
              rw [owners_blockless _ (fun _ _ hh hb => by cases hh; cases hb)] at this
              exact this)
            (hI.rangeS.setS i _ (fun y c hy hc => by cases hy; cases hc)) hlen
          obtain ⟨hIm, hTm, hRm, hnm⟩ := hr
          have hjm : (⟨SharedPtr.DeleteBlock M.heap a, M.shared.set i (some ⟨none, 0⟩), M.weak⟩ :
              Machine).sh j = some b :=
            (sh_after_set_ne (fun h => hij h.symm) _ _).trans hj
          have hbj : bj < M.heap.next := sh_rangeS hI hj hb
          have hinc := @Inv.inc _
            (⟨((SharedPtr.DeleteBlock M.heap a).touch bj).upd bj
              { ((SharedPtr.DeleteBlock M.heap a).touch bj).blocks bj with
                strong_count := incr (((SharedPtr.DeleteBlock M.heap a).touch bj).blocks bj).strong_count },
              M.shared.set i (some ⟨some bj, b.pointer_⟩), M.weak⟩)
            hIm bj (by rw [hnm]; exact hbj) (core_incrStrong _ bj) (by simp)
            (fun x => by
              have h1 := owners_set_sh hi (some ⟨none, 0⟩) x
              have h2 := owners_set_sh hi (some ⟨some bj, b.pointer_⟩) x
              rw [owners_blockless _ (fun _ _ hh hb => by cases hh; cases hb)] at h1
              rw [pointsTo_some] at h2
              show owners (M.shared.set i (some ⟨some bj, b.pointer_⟩)) x
                = owners (M.shared.set i (some ⟨none, 0⟩)) x + _
              by_cases hx : x = bj
              · subst hx; simp only [if_true] at h2 ⊢; omega
              · have hne : ¬ bj = x := fun h => hx h.symm
                simp only [Option.some.injEq, hne, if_false, hx] at h2 ⊢
                omega)
            (by
              show RangeS (M.shared.set i (some ⟨some bj, b.pointer_⟩)) _
              simp only [next_upd, next_touch, hnm]
              exact hI.rangeS.setS i _ (fun y c hy hc => by cases hy; cases hc; exact hbj))
            (by
              show RangeW M.weak _
              simp only [next_upd, next_touch, hnm]
              exact hI.rangeW)
            (by simpa using hlen)
          obtain ⟨hI2, _, hQ2⟩ := hinc
          obtain ⟨hQ, hR2⟩ := hQ2 (sh_owners_pos hjm hb)
          exact ⟨hI2, hTm.then_quiet hQ, fun hR => hR2 (hRm hR)⟩

theorem step_resetPtr {M : Machine} (hI : Inv M) (i ptr : Nat) (esft : Bool)
    (hlen : M.shared.length < SIZE_MOD) :
    Inv (step M (.resetPtr i ptr esft)) ∧ Trans M (step M (.resetPtr i ptr esft)) ∧
      (Intact M → Intact (step M (.resetPtr i ptr esft))) := by
  simp only [step]
  cases hi : M.sh i with
  | none => exact safe_refl hI
  | some a =>
    simp only [SharedPtr.ResetPtr]
    have hr := safe_release hI hi (M.shared.set i (some ⟨none, 0⟩))
      (fun x => by
        have := owners_set_sh hi (some ⟨none, 0⟩) x
        rw [owners_blockless _ (fun _ _ hh hb => by cases hh; cases hb)] at this
        exact this)
      (hI.rangeS.setS i _ (fun y c hy hc => by cases hy; cases hc)) hlen
    obtain ⟨hIm, hTm, hRm, hnm⟩ := hr
    obtain ⟨k1, k2, k3⟩ := core_alloc (SharedPtr.DeleteBlock M.heap a) false ptr esft
    rw [k1]
    have hall := @Inv.alloc _
      (⟨((SharedPtr.DeleteBlock M.heap a).alloc false ptr esft).1,
        M.shared.set i (some ⟨some (SharedPtr.DeleteBlock M.heap a).next, ptr⟩), M.weak⟩)
      hIm _ rfl rfl rfl
      (fun wt hw => by
        right
        refine ⟨rfl, ?_⟩
        cases esft with
        | true => simp at hw; rw [← hw]
        | false => simp at hw)
      k3 k2
      (fun x => by
        have h1 := owners_set_sh hi (some ⟨none, 0⟩) x
        have h2 := owners_set_sh hi (some ⟨some (SharedPtr.DeleteBlock M.heap a).next, ptr⟩) x
        rw [owners_blockless _ (fun _ _ hh hb => by cases hh; cases hb)] at h1
        rw [pointsTo_some] at h2
        show owners (M.shared.set i (some ⟨some (SharedPtr.DeleteBlock M.heap a).next, ptr⟩)) x
          = owners (M.shared.set i (some ⟨none, 0⟩)) x + _
        by_cases hx : x = (SharedPtr.DeleteBlock M.heap a).next
        · rw [hx] at h1 h2 ⊢; simp only [if_true] at h2 ⊢; omega
        · have hne : ¬ (SharedPtr.DeleteBlock M.heap a).next = x := fun h => hx h.symm
          simp only [Option.some.injEq, hne, if_false, hx] at h2 ⊢
          omega)
      (by
        show RangeS (M.shared.set i (some ⟨some (SharedPtr.DeleteBlock M.heap a).next, ptr⟩)) _
        rw [k2, hnm]
        exact (hI.rangeS.monoS (Nat.le_succ _)).setS i _
          (fun y c hy hc => by cases hy; cases hc; exact Nat.lt_succ_self _))
      (by
        show RangeW M.weak _
        rw [k2, hnm]
        exact hI.rangeW.monoW (Nat.le_succ _))
    obtain ⟨hI2, hQ, hR2⟩ := hall
    exact ⟨hI2, hTm.then_quiet hQ, fun hR => hR2 (hRm hR)⟩

theorem DeleteWeakFromThis_block (s : Heap) (w : WeakPtr) (b : Nat)
    (h : (WeakPtr.DeleteWeakFromThis s w).2.block_ = some b) : w.block_ = some b := by
  rcases DeleteWeakFromThis_handle s w with h1 | h1
  · rw [h1] at h; exact h
  · rw [h1] at h; cases h

theorem step_weakNull {M : Machine} (hI : Inv M) (esft : Bool) :
    Inv (step M (.weakNull esft)) ∧ Trans M (step M (.weakNull esft)) ∧
      (Intact M → Intact (step M (.weakNull esft))) :=
  safe_weak hI M.heap rfl rfl _ (hI.rangeW.pushW _ (fun b hb => by cases hb))

theorem step_weakFromShared {M : Machine} (hI : Inv M) (i : Nat) (esft : Bool) :
    Inv (step M (.weakFromShared i esft)) ∧ Trans M (step M (.weakFromShared i esft)) ∧
      (Intact M → Intact (step M (.weakFromShared i esft))) := by
  simp only [step]
  cases hs : M.sh i with
  | none => exact safe_refl hI
  | some h =>
    exact safe_weak hI _ (by simp [WeakPtr.fromShared]) (by simp [WeakPtr.fromShared]) _
      (hI.rangeW.pushW _ (fun b hb => sh_rangeS hI hs hb))

theorem step_weakCopy {M : Machine} (hI : Inv M) (w : Nat) :
    Inv (step M (.weakCopy w)) ∧ Trans M (step M (.weakCopy w)) ∧
      (Intact M → Intact (step M (.weakCopy w))) := by
  simp only [step]
  cases hs : M.wk w with
  | none => exact safe_refl hI
  | some x =>
    exact safe_weak hI _ (by simp [WeakPtr.copy]) (by simp [WeakPtr.copy]) _
      (hI.rangeW.pushW _ (fun b hb => wk_rangeW hI hs hb))

theorem step_weakMove {M : Machine} (hI : Inv M) (w : Nat) :
    Inv (step M (.weakMove w)) ∧ Trans M (step M (.weakMove w)) ∧
      (Intact M → Intact (step M (.weakMove w))) := by
  simp only [step]
  cases hs : M.wk w with
  | none => exact safe_refl hI
  | some x =>
    exact safe_weak hI _ rfl rfl _
      ((hI.rangeW.setW w _ (fun y b hy hb => by
        cases hy; simp [WeakPtr.move] at hb)).pushW _ (fun b hb => wk_rangeW hI hs hb))

theorem step_weakCopyAssign {M : Machine} (hI : Inv M) (w v : Nat) :
    Inv (step M (.weakCopyAssign w v)) ∧ Trans M (step M (.weakCopyAssign w v)) ∧
      (Intact M → Intact (step M (.weakCopyAssign w v))) := by
  simp only [step]
  cases hw : M.wk w with
  | none => exact safe_refl hI
  | some a =>
    cases hv : M.wk v with
    | none => exact safe_refl hI
    | some b =>
      simp only [WeakPtr.copyAssign]
      by_cases hwv : w = v
      · simp only [hwv, decide_True, if_true]
        exact safe_weak hI _ rfl rfl _
          (hI.rangeW.setW v _ (fun y c hy hc => by cases hy; exact wk_rangeW hI hw hc))
      · have hd : decide (w = v) = false := by simp [hwv]
        simp only [hd, Bool.false_eq_true, if_false]
        exact safe_weak hI _ (by simp) (by simp) _
          (hI.rangeW.setW w _ (fun y c hy hc => by cases hy; exact wk_rangeW hI hv hc))

theorem step_weakMoveAssign {M : Machine} (hI : Inv M) (w v : Nat) :
    Inv (step M (.weakMoveAssign w v)) ∧ Trans M (step M (.weakMoveAssign w v)) ∧
      (Intact M → Intact (step M (.weakMoveAssign w v))) := by
  simp only [step]
  cases hw : M.wk w with
  | none => exact safe_refl hI
  | some a =>
    cases hv : M.wk v with
    | none => exact safe_refl hI
    | some b =>
      simp only [WeakPtr.moveAssign]
      by_cases hwv : w = v
      · simp only [hwv, decide_True, if_true]
        exact safe_weak hI _ rfl rfl _
          ((hI.rangeW.setW v _ (fun y c hy hc => by cases hy; exact wk_rangeW hI hv hc)).setW v _
            (fun y c hy hc => by cases hy; exact wk_rangeW hI hw hc))
      · have hd : decide (w = v) = false := by simp [hwv]
        simp only [hd, Bool.false_eq_true, if_false]
        exact safe_weak hI _ (by simp) (by simp) _
          ((hI.rangeW.setW v _ (fun y c hy hc => by cases hy; cases hc)).setW w _
            (fun y c hy hc => by cases hy; exact wk_rangeW hI hv hc))

theorem step_weakReset {M : Machine} (hI : Inv M) (w : Nat) :
    Inv (step M (.weakReset w)) ∧ Trans M (step M (.weakReset w)) ∧
      (Intact M → Intact (step M (.weakReset w))) := by
  simp only [step]
  cases hs : M.wk w with
  | none => exact safe_refl hI
  | some x =>
    exact safe_weak hI _ (by simp [WeakPtr.Reset]) (by simp [WeakPtr.Reset]) _
      (hI.rangeW.setW w _ (fun y b hy hb => by cases hy; simp [WeakPtr.Reset] at hb))

theorem step_weakSwap {M : Machine} (hI : Inv M) (w v : Nat) :
    Inv (step M (.weakSwap w v)) ∧ Trans M (step M (.weakSwap w v)) ∧
      (Intact M → Intact (step M (.weakSwap w v))) := by
  simp only [step]
  cases hw : M.wk w with
  | none => exact safe_refl hI
  | some a =>
    cases hv : M.wk v with
    | none => exact safe_refl hI
    | some b =>
      exact safe_weak hI _ rfl rfl _
        ((hI.rangeW.setW v _ (fun y c hy hc => by cases hy; exact wk_rangeW hI hw hc)).setW w _
          (fun y c hy hc => by cases hy; exact wk_rangeW hI hv hc))

theorem step_weakDestroy {M : Machine} (hI : Inv M) (w : Nat) :
    Inv (step M (.weakDestroy w)) ∧ Trans M (step M (.weakDestroy w)) ∧
      (Intact M → Intact (step M (.weakDestroy w))) := by
  simp only [step]
  cases hs : M.wk w with
  | none => exact safe_refl hI
  | some x =>
    exact safe_weak hI _ (by simp) (by simp) _
      (hI.rangeW.setW w _ (fun y b hy _ => by cases hy))

theorem step_weakFromThis {M : Machine} (hI : Inv M) (i : Nat) :
    Inv (step M (.weakFromThis i)) ∧ Trans M (step M (.weakFromThis i)) ∧
      (Intact M → Intact (step M (.weakFromThis i))) := by
  simp only [step]
  cases hs : M.sh i with
  | none => exact safe_refl hI
  | some h =>
    simp only []
    cases hb : h.block_ with
    | none => exact safe_refl hI
    | some e =>
      simp only []
      by_cases hp : h.pointer_ = (M.heap.blocks e).pointer_
      · rw [if_pos hp]
        unfold WeakFromThis
        cases hw : (M.heap.blocks e).weak_this_ with
        | none => exact safe_refl hI
        | some wt =>
          exact safe_weak hI _ (by simp [WeakPtr.copy]) (by simp [WeakPtr.copy]) _
            (hI.rangeW.pushW _ (fun b hb => by
              obtain ⟨h1, h2⟩ := hI.selfW e wt b hw hb
              rw [h1]; exact h2))
      · rw [if_neg hp]
        exact safe_refl hI

/-! ## Programs -/

theorem length_step (M : Machine) (op : Op) : M.shared.length ≤ (step M op).shared.length := by
  cases op <;> simp only [step, Machine.pushResult] <;> (repeat' split) <;>
    simp [Machine.pushShared, Machine.pushWeak]

/-- Every statement preserves the invariant, destroys an object only by
releasing its last owner, and (unless it builds an owner out of an observer)
never attaches an owner to a block whose object is gone. -/
theorem step_safe (M : Machine) (op : Op) (hI : Inv M)
    (hlen : (step M op).shared.length < SIZE_MOD) :
    Inv (step M op) ∧ Trans M (step M op) ∧
      (op.promotes = false → Intact M → Intact (step M op)) := by
  have hM : M.shared.length < SIZE_MOD := Nat.lt_of_le_of_lt (length_step M op) hlen
  have weaken : ∀ {N : Machine} {p : Bool}, (Inv N ∧ Trans M N ∧ (Intact M → Intact N)) →
      Inv N ∧ Trans M N ∧ (p = false → Intact M → Intact N) :=
    fun h => ⟨h.1, h.2.1, fun _ => h.2.2⟩
  have promo : ∀ {N : Machine}, (Inv N ∧ Trans M N) →
      Inv N ∧ Trans M N ∧ (true = false → Intact M → Intact N) :=
    fun h => ⟨h.1, h.2, fun h => by cases h⟩
  cases op with
  | null => exact weaken (step_null hI)
  | fromRaw ptr esft => exact weaken (step_fromRaw hI ptr esft)
  | makeShared addr esft => exact weaken (step_makeShared hI addr esft)
  | copy i => exact weaken (step_copy hI i hlen)
  | move i => exact weaken (step_move hI i)
  | aliasing i ptr => exact weaken (step_alias hI i ptr hlen)
  | fromWeak w => exact promo (step_fromWeak hI w hlen)
  | copyAssign i j => exact weaken (step_copyAssign hI i j hM)
  | moveAssign i j => exact weaken (step_moveAssign hI i j hM)
  | reset i => exact weaken (step_reset hI i hM)
  | resetPtr i ptr esft => exact weaken (step_resetPtr hI i ptr esft hM)
  | swap i j => exact weaken (step_swap hI i j)
  | destroy i => exact weaken (step_destroy hI i hM)
  | sharedFromThis i => exact promo (step_sharedFromThis hI i hlen)
  | lock w => exact promo (step_lock hI w hlen)
  | weakNull esft => exact weaken (step_weakNull hI esft)
  | weakFromShared i esft => exact weaken (step_weakFromShared hI i esft)
  | weakCopy w => exact weaken (step_weakCopy hI w)
  | weakMove w => exact weaken (step_weakMove hI w)
  | weakCopyAssign w v => exact weaken (step_weakCopyAssign hI w v)
  | weakMoveAssign w v => exact weaken (step_weakMoveAssign hI w v)
  | weakReset w => exact weaken (step_weakReset hI w)
  | weakSwap w v => exact weaken (step_weakSwap hI w v)
  | weakDestroy w => exact weaken (step_weakDestroy hI w)
  | weakFromThis i => exact weaken (step_weakFromThis hI i)

theorem run_cons (M : Machine) (op : Op) (ops : List Op) :
    run M (op :: ops) = run (step M op) ops := rfl

theorem run_append (M : Machine) (ops rest : List Op) :
    run M (ops ++ rest) = run (run M ops) rest := by
  unfold run
  exact List.foldl_append _ _ _ _

theorem length_run (M : Machine) (ops : List Op) :
    M.shared.length ≤ (run M ops).shared.length := by
  induction ops generalizing M with
  | nil => exact Nat.le_refl _
  | cons op ops ih => exact Nat.le_trans (length_step M op) (ih (step M op))

theorem Inv.atStart : Inv Machine.init where
  rangeS := fun o ho => by cases ho
  rangeW := fun o ho => by cases ho
  selfW := fun e wt b hw => by cases hw
  counted := fun b hb => absurd hb (Nat.not_lt_zero b)
  latent := fun e he => absurd he (Nat.not_lt_zero e)

theorem Intact.initially : Intact Machine.init := by
  intro b hb
  have h0 : Machine.init.owners b = 0 := rfl
  rw [h0] at hb
  exact absurd hb (Nat.not_succ_le_zero 0)

/-- The invariant holds in every state of every program. -/
theorem run_inv (M : Machine) (ops : List Op) (hI : Inv M)
    (hlen : (run M ops).shared.length < SIZE_MOD) : Inv (run M ops) := by
  induction ops generalizing M with
  | nil => exact hI
  | cons op ops ih =>
    rw [run_cons] at hlen ⊢
    exact ih (step M op)
      (step_safe M op hI (Nat.lt_of_le_of_lt (length_run (step M op) ops) hlen)).1 hlen

theorem run_intact (M : Machine) (ops : List Op) (hI : Inv M) (hR : Intact M)
    (hops : ∀ op ∈ ops, op.promotes = false)
    (hlen : (run M ops).shared.length < SIZE_MOD) : Intact (run M ops) := by
  induction ops generalizing M with
  | nil => exact hR
  | cons op ops ih =>
    rw [run_cons] at hlen ⊢
    have hs := step_safe M op hI (Nat.lt_of_le_of_lt (length_run (step M op) ops) hlen)
    exact ih (step M op) hs.1 (hs.2.2 (hops op (List.mem_cons_self _ _)) hR)
      (fun o ho => hops o (List.mem_cons_of_mem _ ho)) hlen

/-! ## Use counts -/

/-- Where managed objects hold no owners: in every state of a program made of
`SharedPtr()`, `SharedPtr(T*)`,
`MakeShared`, copy and move construction, the aliasing constructor, copy and
move assignment, `Reset()`, `Reset(ptr)`, `Swap`, destruction and any `WeakPtr`
statement except `Lock` (no owner is ever built out of an observer), with fewer
than `2 ^ 64` owner variables, every live handle with a block reports as
`UseCount()` the number of live handles attached to that block, and a live
handle without a block reports 0. -/
theorem UseCount_counts_live_owners (ops : List Op) (hops : ∀ op ∈ ops, op.promotes = false)
    (hlen : (run Machine.init ops).shared.length < SIZE_MOD) (i : Nat) (h : SharedPtr)
    (hi : (run Machine.init ops).sh i = some h) :
    (h.block_ = none → SharedPtr.UseCount (run Machine.init ops).heap h = 0) ∧
    (∀ b, h.block_ = some b →
      SharedPtr.UseCount (run Machine.init ops).heap h = (run Machine.init ops).owners b) := by
  have hI := run_inv Machine.init ops Inv.atStart hlen
  have hR := run_intact Machine.init ops Inv.atStart Intact.initially hops hlen
  constructor
  · intro hb
    unfold SharedPtr.UseCount
    rw [hb]
  · intro b hb
    have hd := hR b (sh_owners_pos hi hb)
    have hc := (hI.counted b (sh_rangeS hI hi hb) hd).1
    unfold SharedPtr.UseCount
    rw [hb]
    exact hc

theorem UseCount_counts_live_owners_witness :
    (∀ op ∈ [Op.makeShared 100 false, .copy 0, .move 1, .fromRaw 200 true, .copyAssign 0 3,
        .reset 1, .destroy 2], op.promotes = false) ∧
    (run Machine.init [Op.makeShared 100 false, .copy 0, .move 1, .fromRaw 200 true,
        .copyAssign 0 3, .reset 1, .destroy 2]).sh 0 = some ⟨some 1, 200⟩ ∧
    ((SharedPtr.block_ ⟨some 1, 200⟩ = none →
      SharedPtr.UseCount (run Machine.init [Op.makeShared 100 false, .copy 0, .move 1,
        .fromRaw 200 true, .copyAssign 0 3, .reset 1, .destroy 2]).heap ⟨some 1, 200⟩ = 0) ∧
     (∀ b, SharedPtr.block_ ⟨some 1, 200⟩ = some b →
      SharedPtr.UseCount (run Machine.init [Op.makeShared 100 false, .copy 0, .move 1,
        .fromRaw 200 true, .copyAssign 0 3, .reset 1, .destroy 2]).heap ⟨some 1, 200⟩
      = (run Machine.init [Op.makeShared 100 false, .copy 0, .move 1, .fromRaw 200 true,
        .copyAssign 0 3, .reset 1, .destroy 2]).owners b)) :=
  ⟨by decide, by decide,
    UseCount_counts_live_owners _ (by decide) (by decide) 0 ⟨some 1, 200⟩ (by decide)⟩

/-- Where no managed object is assigned: in every state of every program with
fewer than `2 ^ 64 - 1` owner variables, if the live handle `sp` points at an object that `MakeShared`
created (its block `e` is a `ControlBlockEmplace`), that has the
`EnableSharedFromThis` base and has not been destroyed, then `UseCount()` is at
least 1 and `SharedFromThis()` returns, without throwing, a handle `h` with
`h.Get() == sp.Get()` on the same block, after which both `h` and `sp` report
the former `UseCount()` plus one. -/
theorem SharedFromThis_adds_one_owner (ops : List Op) (i e : Nat) (sp : SharedPtr)
    (hs : (run Machine.init ops).sh i = some sp) (he : sp.block_ = some e)
    (hE : ((run Machine.init ops).heap.blocks e).emplace = true)
    (hW : ((run Machine.init ops).heap.blocks e).weak_this_.isSome = true)
    (hX : ((run Machine.init ops).heap.blocks e).destroyed = 0)
    (hp : sp.Get = ((run Machine.init ops).heap.blocks e).pointer_)
    (hlen : (run Machine.init ops).shared.length + 1 < SIZE_MOD) :
    1 ≤ SharedPtr.UseCount (run Machine.init ops).heap sp ∧
    ∃ t h, SharedFromThis (run Machine.init ops).heap e = some (.ok (t, h)) ∧
      h.Get = sp.Get ∧ h.block_ = sp.block_ ∧
      SharedPtr.UseCount t h = SharedPtr.UseCount (run Machine.init ops).heap sp + 1 ∧
      SharedPtr.UseCount t sp = SharedPtr.UseCount (run Machine.init ops).heap sp + 1 := by
  have hI := run_inv Machine.init ops Inv.atStart (by omega)
  have hen := sh_rangeS hI hs he
  obtain ⟨h1, h2, h3⟩ := hI.counted e hen hX
  have hle : (run Machine.init ops).owners e ≤ (run Machine.init ops).shared.length :=
    owners_le_length _ _
  obtain ⟨wt, hwt⟩ := Option.isSome_iff_exists.mp hW
  have hwt' := hI.latent e hen hE hX wt hwt
  have hU : SharedPtr.UseCount (run Machine.init ops).heap sp = (run Machine.init ops).owners e := by
    unfold SharedPtr.UseCount
    rw [he]
    exact h1
  obtain ⟨t, ht, _, hc⟩ := SharedPtr.fromWeak_some (run Machine.init ops).heap wt e
    (by rw [hwt']) (by omega)
  have hte : (t.blocks e).strong_count = (run Machine.init ops).owners e + 1 := by
    have : (t.core e).strong_count = incr ((run Machine.init ops).heap.core e).strong_count := by
      rw [hc]; simp [bump]
    rw [h1, incr_of_lt (by omega)] at this
    exact this
  refine ⟨by omega, t, ⟨some e, wt.pointer_⟩, ?_, ?_, ?_, ?_, ?_⟩
  · unfold SharedFromThis
    rw [hwt]
    exact congrArg some ht
  · show wt.pointer_ = sp.Get
    rw [hwt', hp]
    rfl
  · exact he.symm
  · rw [hU]
    exact hte
  · rw [hU]
    unfold SharedPtr.UseCount
    rw [he]
    exact hte

theorem SharedFromThis_adds_one_owner_witness :
    (run Machine.init [Op.makeShared 100 true, .copy 0]).sh 1 = some ⟨some 0, 100⟩ ∧
    (1 ≤ SharedPtr.UseCount (run Machine.init [Op.makeShared 100 true, .copy 0]).heap
        ⟨some 0, 100⟩ ∧
     ∃ t h, SharedFromThis (run Machine.init [Op.makeShared 100 true, .copy 0]).heap 0
        = some (.ok (t, h)) ∧
      h.Get = SharedPtr.Get ⟨some 0, 100⟩ ∧ h.block_ = SharedPtr.block_ ⟨some 0, 100⟩ ∧
      SharedPtr.UseCount t h
        = SharedPtr.UseCount (run Machine.init [Op.makeShared 100 true, .copy 0]).heap
            ⟨some 0, 100⟩ + 1 ∧
      SharedPtr.UseCount t ⟨some 0, 100⟩
        = SharedPtr.UseCount (run Machine.init [Op.makeShared 100 true, .copy 0]).heap
            ⟨some 0, 100⟩ + 1) :=
  ⟨by decide, SharedFromThis_adds_one_owner [Op.makeShared 100 true, .copy 0] 1 0 ⟨some 0, 100⟩
    (by decide) rfl (by decide) (by decide) (by decide) (by decide) (by decide)⟩

theorem next_run_le (M : Machine) (ops : List Op) (hI : Inv M)
    (hlen : (run M ops).shared.length < SIZE_MOD) : M.heap.next ≤ (run M ops).heap.next := by
  induction ops generalizing M with
  | nil => exact Nat.le_refl _
  | cons op ops ih =>
    rw [run_cons] at hlen ⊢
    have hs := step_safe M op hI (Nat.lt_of_le_of_lt (length_run (step M op) ops) hlen)
    exact Nat.le_trans hs.2.1.1 (ih (step M op) hs.1 hlen)

theorem sh_pushShared_last (M : Machine) (t : Heap) (h : SharedPtr) :
    (M.pushShared t h).sh M.shared.length = some h := by
  simp [Machine.sh, Machine.pushShared]

theorem sh_pushShared_old (M : Machine) (t : Heap) (h : SharedPtr) {i : Nat}
    (hi : i < M.shared.length) : (M.pushShared t h).sh i = M.sh i := by
  unfold Machine.sh Machine.pushShared
  exact List.getD_append _ _ _ _ hi

/-- C8: let `A` be a live owner, in any state of any program, whose block `b`
holds an object `X` that has not been destroyed, and let
`SharedPtr<U> B(A, ptr)` be executed (fewer than `2 ^ 64` owner variables in
all).  Then `B` has `Get() == ptr` and the block of `A`, whose `strong_count`
went up by exactly one, and `X` still exists.  Destroying `A` next does not
destroy `X`.  And after any further statements `rest` that leave `X` in
existence there is a live owner on `b`, and whatever statement `op` comes next:
if a live owner of `b` remains after `op` then `X` still exists, and if none
remains then the destruction strategy of `b` has run exactly once. -/
theorem alias_shares_ownership (ops : List Op) (i ptr b : Nat) (A : SharedPtr)
    (rest : List Op) (op : Op)
    (hA : (run Machine.init ops).sh i = some A) (hb : A.block_ = some b)
    (hX : ((run Machine.init ops).heap.blocks b).destroyed = 0)
    (hlen : (step (run (aliased ops i ptr) rest) op).shared.length < SIZE_MOD) :
    (aliased ops i ptr).sh (run Machine.init ops).shared.length = some ⟨some b, ptr⟩ ∧
    ((aliased ops i ptr).heap.blocks b).strong_count
      = ((run Machine.init ops).heap.blocks b).strong_count + 1 ∧
    ((aliased ops i ptr).heap.blocks b).destroyed = 0 ∧
    ((step (aliased ops i ptr) (.destroy i)).heap.blocks b).destroyed = 0 ∧
    (((run (aliased ops i ptr) rest).heap.blocks b).destroyed = 0 →
      1 ≤ (run (aliased ops i ptr) rest).owners b ∧
      (1 ≤ (step (run (aliased ops i ptr) rest) op).owners b →
        ((step (run (aliased ops i ptr) rest) op).heap.blocks b).destroyed = 0) ∧
      ((step (run (aliased ops i ptr) rest) op).owners b = 0 →
        ((step (run (aliased ops i ptr) rest) op).heap.blocks b).destroyed = 1)) := by
  have hlen2 : (run (aliased ops i ptr) rest).shared.length < SIZE_MOD :=
    Nat.lt_of_le_of_lt (length_step _ op) hlen
  have hlen1 : (aliased ops i ptr).shared.length < SIZE_MOD :=
    Nat.lt_of_le_of_lt (length_run _ rest) hlen2
  have hlen0 : (run Machine.init ops).shared.length < SIZE_MOD :=
    Nat.lt_of_le_of_lt (length_step _ (.aliasing i ptr)) hlen1
  have hI := run_inv Machine.init ops Inv.atStart hlen0
  have hbn := sh_rangeS hI hA hb
  obtain ⟨c1, c2, c3⟩ := hI.counted b hbn hX
  obtain ⟨k1, k2, k3⟩ := SharedPtr.alias_some (run Machine.init ops).heap A ptr SharedPtr.null b hb
  have hM1 : aliased ops i ptr = (run Machine.init ops).pushShared
      (SharedPtr.alias (run Machine.init ops).heap A ptr SharedPtr.null).1 ⟨some b, ptr⟩ := by
    simp only [aliased, step, hA, hb, Option.isSome_some, if_true]
    rw [k1]
  have hs1 := step_safe (run Machine.init ops) (.aliasing i ptr) hI hlen1
  have hI1 : Inv (aliased ops i ptr) := hs1.1
  have hbn1 : b < (aliased ops i ptr).heap.next := Nat.lt_of_lt_of_le hbn hs1.2.1.1
  have hB : (aliased ops i ptr).sh (run Machine.init ops).shared.length = some ⟨some b, ptr⟩ := by
    rw [hM1]; exact sh_pushShared_last _ _ _
  have hcore : (aliased ops i ptr).heap.core b
      = bump (run Machine.init ops).heap.core b b := by
    rw [hM1]; exact congrFun k3 b
  have hd1 : ((aliased ops i ptr).heap.core b).destroyed = 0 := by
    rw [hcore, (bump_destroyed _ _ _).1]; exact hX
  have hil : i < (run Machine.init ops).shared.length := (sh_eq_some hA).1
  refine ⟨hB, ?_, hd1, ?_, ?_⟩
  · have hle : (run Machine.init ops).owners b ≤ (run Machine.init ops).shared.length :=
      owners_le_length _ _
    have hl1 : (aliased ops i ptr).shared.length = (run Machine.init ops).shared.length + 1 := by
      rw [hM1]; simp [Machine.pushShared]
    have : ((aliased ops i ptr).heap.core b).strong_count
        = incr ((run Machine.init ops).heap.core b).strong_count := by
      rw [hcore]; simp [bump]
    rw [incr_of_lt (by omega)] at this
    exact this
  · have hld : (step (aliased ops i ptr) (.destroy i)).shared.length < SIZE_MOD := by
      simp only [step]
      split
      · exact hlen1
      · simpa using hlen1
    have hsd := step_safe (aliased ops i ptr) (.destroy i) hI1 hld
    have hA1 : (aliased ops i ptr).sh i = some A := by
      rw [hM1, sh_pushShared_old _ _ _ hil]; exact hA
    have hB' : (step (aliased ops i ptr) (.destroy i)).sh (run Machine.init ops).shared.length
        = some ⟨some b, ptr⟩ := by
      simp only [step, hA1]
      exact (sh_after_set_ne (Nat.ne_of_gt hil) _ _).trans hB
    rcases hsd.2.1.2 b hbn1 hd1 with h | ⟨_, h⟩
    · exact h
    · have := sh_owners_pos hB' rfl
      omega
  · intro hd2
    have hI2 := run_inv (aliased ops i ptr) rest hI1 hlen2
    have hbn2 : b < (run (aliased ops i ptr) rest).heap.next :=
      Nat.lt_of_lt_of_le hbn1 (next_run_le _ rest hI1 hlen2)
    have hs3 := step_safe (run (aliased ops i ptr) rest) op hI2 hlen
    refine ⟨(hI2.counted b hbn2 hd2).2.2, ?_, ?_⟩
    · intro hpos
      rcases hs3.2.1.2 b hbn2 hd2 with h | ⟨_, h⟩
      · exact h
      · omega
    · intro hzero
      rcases hs3.2.1.2 b hbn2 hd2 with h | ⟨h, _⟩
      · have := (hs3.1.counted b (Nat.lt_of_lt_of_le hbn2 hs3.2.1.1) h).2.2
        omega
      · exact h

theorem alias_shares_ownership_witness :
    ((run Machine.init [Op.fromRaw 100 false]).sh 0 = some ⟨some 0, 100⟩ ∧
     ((run Machine.init [Op.fromRaw 100 false]).heap.blocks 0).destroyed = 0) ∧
    ((aliased [Op.fromRaw 100 false] 0 104).sh
        (run Machine.init [Op.fromRaw 100 false]).shared.length = some ⟨some 0, 104⟩ ∧
     ((aliased [Op.fromRaw 100 false] 0 104).heap.blocks 0).strong_count
        = ((run Machine.init [Op.fromRaw 100 false]).heap.blocks 0).strong_count + 1 ∧
     ((aliased [Op.fromRaw 100 false] 0 104).heap.blocks 0).destroyed = 0 ∧
     ((step (aliased [Op.fromRaw 100 false] 0 104) (.destroy 0)).heap.blocks 0).destroyed = 0 ∧
     (((run (aliased [Op.fromRaw 100 false] 0 104)
          [Op.copy 1, .destroy 0, .destroy 1]).heap.blocks 0).destroyed = 0 →
      1 ≤ (run (aliased [Op.fromRaw 100 false] 0 104)
          [Op.copy 1, .destroy 0, .destroy 1]).owners 0 ∧
      (1 ≤ (step (run (aliased [Op.fromRaw 100 false] 0 104)
          [Op.copy 1, .destroy 0, .destroy 1]) (.destroy 2)).owners 0 →
        ((step (run (aliased [Op.fromRaw 100 false] 0 104)
          [Op.copy 1, .destroy 0, .destroy 1]) (.destroy 2)).heap.blocks 0).destroyed = 0) ∧
      ((step (run (aliased [Op.fromRaw 100 false] 0 104)
          [Op.copy 1, .destroy 0, .destroy 1]) (.destroy 2)).owners 0 = 0 →
        ((step (run (aliased [Op.fromRaw 100 false] 0 104)
          [Op.copy 1, .destroy 0, .destroy 1]) (.destroy 2)).heap.blocks 0).destroyed = 1))) :=
  ⟨by decide, alias_shares_ownership [Op.fromRaw 100 false] 0 104 0 ⟨some 0, 100⟩
    [Op.copy 1, .destroy 0, .destroy 1] (.destroy 2) (by decide) rfl (by decide) (by decide)⟩

/-! ## `Lock` round trip -/

/-- Two owners of a live object released one after the other: the object
survives the first release and is destroyed by the second. -/
theorem release_two (t : Heap) (n : Nat) (h1 h2 : SharedPtr)
    (hb1 : h1.block_ = some n) (hb2 : h2.block_ = some n)
    (hs : (t.core n).strong_count = 2) (ha : (t.core n).alive = true)
    (hd : (t.core n).destroyed = 0) :
    ((SharedPtr.DeleteBlock t h1).blocks n).destroyed = 0 ∧
    ((SharedPtr.DeleteBlock (SharedPtr.DeleteBlock t h1) h2).blocks n).destroyed = 1 := by
  obtain ⟨_, F, W, _, hc⟩ := core_DeleteBlock t h1 n hb1
  have hkeep : ¬ (decr (t.core n).strong_count = 0 ∧ (t.core n).alive = true) := by
    rw [hs]; intro h; exact absurd h.1 (by decide)
  have hc1 : (SharedPtr.DeleteBlock t h1).core n
      = { t.core n with strong_count := decr (t.core n).strong_count } := by
    rw [hc]; simp only [if_true]; rw [if_neg hkeep]
  obtain ⟨_, F2, W2, _, hc'⟩ := core_DeleteBlock (SharedPtr.DeleteBlock t h1) h2 n hb2
  have hgone : decr ((SharedPtr.DeleteBlock t h1).core n).strong_count = 0 ∧
      ((SharedPtr.DeleteBlock t h1).core n).alive = true := by
    rw [hc1]
    refine ⟨?_, ha⟩
    show decr (decr (t.core n).strong_count) = 0
    rw [hs]; decide
  have hc2 := congrFun hc' n
  simp only [if_true] at hc2
  rw [if_pos hgone] at hc2
  refine ⟨?_, ?_⟩
  · show ((SharedPtr.DeleteBlock t h1).core n).destroyed = 0
    rw [hc1]; exact hd
  · show ((SharedPtr.DeleteBlock (SharedPtr.DeleteBlock t h1) h2).core n).destroyed = 1
    rw [hc2]
    show ((SharedPtr.DeleteBlock t h1).core n).destroyed + 1 = 1
    rw [hc1]
    show (t.core n).destroyed + 1 = 1
    rw [hd]

/-- C10: let `sp = MakeShared<T>(...)` on any heap, `w` a `WeakPtr` built from
`sp`, and `s = w.Lock()` taken while `sp` is live (`lockedOnce` is the heap
after that, with `sp` and `s`).  Then `s` points at the object and shares its
block, whose `strong_count` is 2, and the object exists.  Releasing `sp`
alone, or `s` alone, through `DeleteBlock` (the body of the destructor and the
first statement of `Reset()`) does not run the destruction strategy; releasing
the other one afterwards runs it, once, in either order. -/
theorem Lock_round_trip (s : Heap) (addr : Nat) (esft wesft : Bool) :
    (lockedOnce s addr esft wesft).2.1 = ⟨some s.next, addr⟩ ∧
    (lockedOnce s addr esft wesft).2.2 = ⟨some s.next, addr⟩ ∧
    ((lockedOnce s addr esft wesft).1.blocks s.next).strong_count = 2 ∧
    ((lockedOnce s addr esft wesft).1.blocks s.next).destroyed = 0 ∧
    ((SharedPtr.DeleteBlock (lockedOnce s addr esft wesft).1
      (lockedOnce s addr esft wesft).2.1).blocks s.next).destroyed = 0 ∧
    ((SharedPtr.DeleteBlock (SharedPtr.DeleteBlock (lockedOnce s addr esft wesft).1
      (lockedOnce s addr esft wesft).2.1)
      (lockedOnce s addr esft wesft).2.2).blocks s.next).destroyed = 1 ∧
    ((SharedPtr.DeleteBlock (lockedOnce s addr esft wesft).1
      (lockedOnce s addr esft wesft).2.2).blocks s.next).destroyed = 0 ∧
    ((SharedPtr.DeleteBlock (SharedPtr.DeleteBlock (lockedOnce s addr esft wesft).1
      (lockedOnce s addr esft wesft).2.2)
      (lockedOnce s addr esft wesft).2.1).blocks s.next).destroyed = 1 := by
  obtain ⟨m1, m2, m3⟩ := core_MakeShared s addr esft
  have hw2 : (WeakPtr.fromShared (MakeShared s addr esft).1 (MakeShared s addr esft).2 wesft).2
      = ⟨some s.next, addr, wesft⟩ := by
    unfold WeakPtr.fromShared; rw [m1]
  have hwc : (WeakPtr.fromShared (MakeShared s addr esft).1 (MakeShared s addr esft).2 wesft).1.core
      = (MakeShared s addr esft).1.core := by
    simp [WeakPtr.fromShared]
  have hcn : (WeakPtr.fromShared (MakeShared s addr esft).1 (MakeShared s addr esft).2 wesft).1.core
      s.next = freshCore s.next true addr esft := by
    rw [hwc, m3]; simp
  obtain ⟨l0, _, l3⟩ := WeakPtr.Lock_live
    (WeakPtr.fromShared (MakeShared s addr esft).1 (MakeShared s addr esft).2 wesft).1
    (WeakPtr.fromShared (MakeShared s addr esft).1 (MakeShared s addr esft).2 wesft).2 s.next
    (by rw [hw2]) (by rw [hcn]; simp [freshCore]) (by rw [hcn]; rfl)
  have l1 : (lockedOnce s addr esft wesft).2.2 = ⟨some s.next, addr⟩ := by
    show (WeakPtr.Lock _ _).2 = _
    rw [l0, hw2]
  have hsp : (lockedOnce s addr esft wesft).2.1 = ⟨some s.next, addr⟩ := m1
  have hl : (lockedOnce s addr esft wesft).1.core s.next
      = { freshCore s.next true addr esft with strong_count := 2 } := by
    show (WeakPtr.Lock _ _).1.core s.next = _
    rw [l3]
    unfold bump
    simp only [if_true]
    rw [hcn]
    rfl
  have hA := release_two (lockedOnce s addr esft wesft).1 s.next
    (lockedOnce s addr esft wesft).2.1 (lockedOnce s addr esft wesft).2.2
    (by rw [hsp]) (by rw [l1])
    (congrArg ControlBlock.strong_count hl) (congrArg ControlBlock.alive hl)
    (congrArg ControlBlock.destroyed hl)
  have hB := release_two (lockedOnce s addr esft wesft).1 s.next
    (lockedOnce s addr esft wesft).2.2 (lockedOnce s addr esft wesft).2.1
    (by rw [l1]) (by rw [hsp])
    (congrArg ControlBlock.strong_count hl) (congrArg ControlBlock.alive hl)
    (congrArg ControlBlock.destroyed hl)
  exact ⟨hsp, l1, congrArg ControlBlock.strong_count hl, congrArg ControlBlock.destroyed hl,
    hA.1, hA.2, hB.1, hB.2⟩

/-! ## What does hold next to the defects above -/

/-- `Lock()` on an observer whose block has owners and whose `alive` flag is
still set: the result carries the stored pointer, `strong_count` goes up by
exactly one and `weak_count` stays. -/
theorem Lock_of_live_adds_one (s : Heap) (w : WeakPtr) (b : Nat) (hb : w.block_ = some b)
    (h0 : (s.blocks b).strong_count ≠ 0) (ha : (s.blocks b).alive = true)
    (hlt : (s.blocks b).strong_count + 1 < SIZE_MOD) :
    (WeakPtr.Lock s w).2 = ⟨some b, w.pointer_⟩ ∧
    ((WeakPtr.Lock s w).1.blocks b).strong_count = (s.blocks b).strong_count + 1 ∧
    ((WeakPtr.Lock s w).1.blocks b).weak_count = (s.blocks b).weak_count := by
  simp [WeakPtr.Lock, WeakPtr.Expired, hb, h0, SharedPtr.ofBlock, ha, Heap.upd, incr_of_lt hlt]

/-- The last owner of an object with the `EnableSharedFromThis` base is
released, with no other observer around: the destructor of the object releases
`weak_this_`, whose `DeleteWeak` leaves the block to `DeleteBlock`; the object
is destroyed once, the block is deleted once and is not touched afterwards.
This holds for both kinds of block and on any heap. -/
theorem latent_observer_release (s : Heap) (ptr : Nat) (emplace : Bool) :
    ((SharedPtr.DeleteBlock (if emplace then MakeShared s ptr true
        else SharedPtr.fromRaw s ptr true).1 ⟨some s.next, ptr⟩).blocks s.next).destroyed = 1 ∧
    ((SharedPtr.DeleteBlock (if emplace then MakeShared s ptr true
        else SharedPtr.fromRaw s ptr true).1 ⟨some s.next, ptr⟩).blocks s.next).freed = 1 ∧
    (SharedPtr.DeleteBlock (if emplace then MakeShared s ptr true
        else SharedPtr.fromRaw s ptr true).1 ⟨some s.next, ptr⟩).faults = s.faults := by
  have d1 : decr 1 = 0 := by decide
  have i0 : incr 0 = 1 := by decide
  cases emplace <;>
  simp [MakeShared, SharedPtr.fromRaw, SharedPtr.ofEmplace, SharedPtr.InitWeakThis, Heap.alloc,
    WeakPtr.fromShared, WeakPtr.moveAssign, WeakPtr.DeleteWeakFromThis, WeakPtr.DeleteWeak,
    WeakPtr.AddWeak, Heap.touch, Heap.upd, Heap.free, SharedPtr.DeleteBlock,
    ControlBlock.DeleterPointer, destroyObject, destroyMembers, d1, i0]

/-! ## Handles of an expired block -/

/-- C11: in `lockedExpiredEmplace` the live handle `s` returned by `Lock()` has
a non-null block whose `strong_count` is 0 (the block has not been deleted).
The same program on a `ControlBlockPtr` leaves the count at 1. -/
theorem lock_handle_without_owner :
    lockedExpiredEmplace.sh 1 = some ⟨some 0, 0⟩ ∧
    (lockedExpiredEmplace.heap.blocks 0).strong_count = 0 ∧
    (lockedExpiredEmplace.heap.blocks 0).freed = 0 ∧
    ((step (expiredBlock false) (.lock 0)).heap.blocks 0).strong_count = 1 := by
  decide

/-- C18: after the release that takes `strong_count` to zero the destruction
strategy has run for both kinds of block and the block still exists for its
observer, but `alive` is false only for the `ControlBlockPtr`: the
`ControlBlockEmplace` still has `alive == true`. -/
theorem emplace_stays_alive :
    (((expiredBlock true).heap.blocks 0).strong_count = 0 ∧
     ((expiredBlock true).heap.blocks 0).destroyed = 1 ∧
     ((expiredBlock true).heap.blocks 0).freed = 0 ∧
     ((expiredBlock true).heap.blocks 0).alive = true) ∧
    (((expiredBlock false).heap.blocks 0).strong_count = 0 ∧
     ((expiredBlock false).heap.blocks 0).destroyed = 1 ∧
     ((expiredBlock false).heap.blocks 0).freed = 0 ∧
     ((expiredBlock false).heap.blocks 0).alive = false) := by
  decide

/-! ## Equality -/

/-- C13: `a == b` holds exactly when `a.Get() == b.Get()`.  In particular an
alias of `a` built by `SharedPtr(a, q)` shares the block of `a` and compares
equal to `a` exactly when `q` is the pointer of `a`, and two handles on
different blocks with the same pointer compare equal. -/
theorem eq_iff_Get_eq (a b : SharedPtr) (s : Heap) (u : SharedPtr) (blk other p q : Nat) :
    (SharedPtr.eq a b = true ↔ a.Get = b.Get) ∧
    (SharedPtr.alias s ⟨some blk, p⟩ q u).2.block_ = some blk ∧
    SharedPtr.eq ⟨some blk, p⟩ (SharedPtr.alias s ⟨some blk, p⟩ q u).2 = decide (p = q) ∧
    SharedPtr.eq ⟨some blk, p⟩ ⟨some other, p⟩ = true := by
  refine ⟨by simp [SharedPtr.eq], rfl, rfl, by simp [SharedPtr.eq, SharedPtr.Get]⟩

/-! ## The latent observer -/

/-- C20: the first owner of an object with the `EnableSharedFromThis` base,
made by `MakeShared` (`emplace`) or by `SharedPtr(T*)`, on any heap: right
afterwards `UseCount()` is 1, `weak_count` is 1, `weak_this_` observes the new
block and the object, which exists; releasing that owner destroys the
object. -/
theorem first_owner_sets_latent_observer (s : Heap) (ptr : Nat) (emplace : Bool) :
    (if emplace then MakeShared s ptr true else SharedPtr.fromRaw s ptr true).2
      = ⟨some s.next, ptr⟩ ∧
    SharedPtr.UseCount (if emplace then MakeShared s ptr true else SharedPtr.fromRaw s ptr true).1
      (if emplace then MakeShared s ptr true else SharedPtr.fromRaw s ptr true).2 = 1 ∧
    (((if emplace then MakeShared s ptr true else SharedPtr.fromRaw s ptr true).1).blocks
      s.next).weak_count = 1 ∧
    (((if emplace then MakeShared s ptr true else SharedPtr.fromRaw s ptr true).1).blocks
      s.next).weak_this_ = some ⟨some s.next, ptr, true⟩ ∧
    (((if emplace then MakeShared s ptr true else SharedPtr.fromRaw s ptr true).1).blocks
      s.next).destroyed = 0 ∧
    ((SharedPtr.DeleteBlock (if emplace then MakeShared s ptr true
        else SharedPtr.fromRaw s ptr true).1
      (if emplace then MakeShared s ptr true else SharedPtr.fromRaw s ptr true).2).blocks
      s.next).destroyed = 1 := by
  have d1 : decr 1 = 0 := by decide
  have i0 : incr 0 = 1 := by decide
  cases emplace <;>
  simp [MakeShared, SharedPtr.fromRaw, SharedPtr.ofEmplace, SharedPtr.InitWeakThis, Heap.alloc,
    WeakPtr.fromShared, WeakPtr.moveAssign, WeakPtr.DeleteWeakFromThis, WeakPtr.DeleteWeak,
    WeakPtr.AddWeak, Heap.touch, Heap.upd, Heap.free, SharedPtr.DeleteBlock, SharedPtr.UseCount,
    ControlBlock.DeleterPointer, destroyObject, destroyMembers, d1, i0]

/-! ## Observers and the counters -/

/-- C12: let `b` be the block of the owner `h` and of the observer `w`, with
`weak_count` below `2 ^ 64 - 1`.  `WeakPtr(h)` and the copy constructor
`WeakPtr(w)` raise `weak_count` by exactly one and leave `strong_count` and
`alive` as they are; the move constructor hands the block over and touches no
counter (the statement leaves the heap as it is); and when `weak_count` is at
least one, `~WeakPtr` and `Reset()` lower it by exactly one and leave
`strong_count` as it is. -/
theorem observer_counts_frame (s : Heap) (M : Machine) (k b : Nat) (h : SharedPtr) (w : WeakPtr)
    (e : Bool) (hh : h.block_ = some b) (hw : w.block_ = some b)
    (hhi : (s.blocks b).weak_count + 1 < SIZE_MOD) :
    (((WeakPtr.fromShared s h e).1.blocks b).weak_count = (s.blocks b).weak_count + 1 ∧
     ((WeakPtr.fromShared s h e).1.blocks b).strong_count = (s.blocks b).strong_count ∧
     ((WeakPtr.fromShared s h e).1.blocks b).alive = (s.blocks b).alive) ∧
    (((WeakPtr.copy s w).1.blocks b).weak_count = (s.blocks b).weak_count + 1 ∧
     ((WeakPtr.copy s w).1.blocks b).strong_count = (s.blocks b).strong_count ∧
     ((WeakPtr.copy s w).1.blocks b).alive = (s.blocks b).alive) ∧
    ((WeakPtr.move w).1.block_ = some b ∧ (WeakPtr.move w).2.block_ = none ∧
     (step M (.weakMove k)).heap = M.heap) ∧
    (1 ≤ (s.blocks b).weak_count →
      (((WeakPtr.DeleteWeak s w).1.blocks b).weak_count + 1 = (s.blocks b).weak_count ∧
       ((WeakPtr.DeleteWeak s w).1.blocks b).strong_count = (s.blocks b).strong_count) ∧
      (((WeakPtr.Reset s w).1.blocks b).weak_count + 1 = (s.blocks b).weak_count ∧
       ((WeakPtr.Reset s w).1.blocks b).strong_count = (s.blocks b).strong_count)) := by
  refine ⟨?_, ?_, ⟨hw, rfl, ?_⟩, ?_⟩
  · simp [WeakPtr.fromShared, WeakPtr.AddWeak, hh, Heap.upd, incr_of_lt hhi]
  · simp [WeakPtr.copy, WeakPtr.AddWeak, hw, Heap.upd, incr_of_lt hhi]
  · simp only [step]
    cases M.wk k <;> rfl
  · intro hlo
    have hd : decr (s.blocks b).weak_count + 1 = (s.blocks b).weak_count := by
      rw [decr_of_pos (by omega) (by omega)]; omega
    constructor
    · unfold WeakPtr.DeleteWeak
      rw [hw]
      dsimp only
      split_ifs <;> simp [Heap.free, Heap.upd, hd]
    · unfold WeakPtr.Reset WeakPtr.DeleteWeakFromThis
      rw [hw]
      dsimp only
      split_ifs <;> simp [Heap.free, Heap.upd, hd]

theorem observer_counts_frame_witness :
    ((SharedPtr.block_ ⟨some 0, 100⟩ = some 0 ∧ (observerOf 100 false).block_ = some 0 ∧
      ((run Machine.init [Op.fromRaw 100 false, .weakFromShared 0 false]).heap.blocks 0).weak_count
        + 1 < SIZE_MOD) ∧
     (WeakPtr.DeleteWeak (run Machine.init [Op.fromRaw 100 false, .weakFromShared 0 false]).heap
        (observerOf 100 false)).1.faults = 0) ∧
    ((((WeakPtr.fromShared (run Machine.init [Op.fromRaw 100 false, .weakFromShared 0 false]).heap
        ⟨some 0, 100⟩ false).1.blocks 0).weak_count
        = ((run Machine.init [Op.fromRaw 100 false, .weakFromShared 0 false]).heap.blocks
            0).weak_count + 1 ∧
      ((WeakPtr.fromShared (run Machine.init [Op.fromRaw 100 false, .weakFromShared 0 false]).heap
        ⟨some 0, 100⟩ false).1.blocks 0).strong_count
        = ((run Machine.init [Op.fromRaw 100 false, .weakFromShared 0 false]).heap.blocks
            0).strong_count ∧
      ((WeakPtr.fromShared (run Machine.init [Op.fromRaw 100 false, .weakFromShared 0 false]).heap
        ⟨some 0, 100⟩ false).1.blocks 0).alive
        = ((run Machine.init [Op.fromRaw 100 false, .weakFromShared 0 false]).heap.blocks
            0).alive) ∧
     (((WeakPtr.copy (run Machine.init [Op.fromRaw 100 false, .weakFromShared 0 false]).heap
        (observerOf 100 false)).1.blocks 0).weak_count
        = ((run Machine.init [Op.fromRaw 100 false, .weakFromShared 0 false]).heap.blocks
            0).weak_count + 1 ∧
      ((WeakPtr.copy (run Machine.init [Op.fromRaw 100 false, .weakFromShared 0 false]).heap
        (observerOf 100 false)).1.blocks 0).strong_count
        = ((run Machine.init [Op.fromRaw 100 false, .weakFromShared 0 false]).heap.blocks
            0).strong_count ∧
      ((WeakPtr.copy (run Machine.init [Op.fromRaw 100 false, .weakFromShared 0 false]).heap
        (observerOf 100 false)).1.blocks 0).alive
        = ((run Machine.init [Op.fromRaw 100 false, .weakFromShared 0 false]).heap.blocks
            0).alive) ∧
     ((WeakPtr.move (observerOf 100 false)).1.block_ = some 0 ∧
      (WeakPtr.move (observerOf 100 false)).2.block_ = none ∧
      (step (run Machine.init [Op.fromRaw 100 false, .weakFromShared 0 false])
        (.weakMove 0)).heap
        = (run Machine.init [Op.fromRaw 100 false, .weakFromShared 0 false]).heap) ∧
     (1 ≤ ((run Machine.init [Op.fromRaw 100 false, .weakFromShared 0 false]).heap.blocks
          0).weak_count →
      (((WeakPtr.DeleteWeak (run Machine.init [Op.fromRaw 100 false, .weakFromShared 0 false]).heap
          (observerOf 100 false)).1.blocks 0).weak_count + 1
          = ((run Machine.init [Op.fromRaw 100 false, .weakFromShared 0 false]).heap.blocks
              0).weak_count ∧
       ((WeakPtr.DeleteWeak (run Machine.init [Op.fromRaw 100 false, .weakFromShared 0 false]).heap
          (observerOf 100 false)).1.blocks 0).strong_count
          = ((run Machine.init [Op.fromRaw 100 false, .weakFromShared 0 false]).heap.blocks
              0).strong_count) ∧
      (((WeakPtr.Reset (run Machine.init [Op.fromRaw 100 false, .weakFromShared 0 false]).heap
          (observerOf 100 false)).1.blocks 0).weak_count + 1
          = ((run Machine.init [Op.fromRaw 100 false, .weakFromShared 0 false]).heap.blocks
              0).weak_count ∧
       ((WeakPtr.Reset (run Machine.init [Op.fromRaw 100 false, .weakFromShared 0 false]).heap
          (observerOf 100 false)).1.blocks 0).strong_count
          = ((run Machine.init [Op.fromRaw 100 false, .weakFromShared 0 false]).heap.blocks
              0).strong_count))) :=
  ⟨by decide, observer_counts_frame
    (run Machine.init [Op.fromRaw 100 false, .weakFromShared 0 false]).heap
    (run Machine.init [Op.fromRaw 100 false, .weakFromShared 0 false]) 0 0 ⟨some 0, 100⟩
    (observerOf 100 false) false rfl rfl (by decide)⟩

/-! ## `UniquePtr` -/

/-- C14: `Release()` returns the held pointer (null or not), leaves `Get()`
null and the deleter log as it was; the destructor of the released wrapper
leaves the log as it was too. -/
theorem Release_skips_deleter (log : List DeleterCall) (u : UniquePtr) :
    (UniquePtr.Release log u).2.1 = u.Get ∧
    (UniquePtr.Release log u).2.2.Get = 0 ∧
    (UniquePtr.Release log u).1 = log ∧
    UniquePtr.destroy (UniquePtr.Release log u).1 (UniquePtr.Release log u).2.2 = log := by
  simp [UniquePtr.Release, UniquePtr.Get, UniquePtr.destroy]

/-- C15 as stated fails: `Reset(2)` on a wrapper holding resource `1` with
deleter `7` invokes the deleter once, on `1`, at a moment when the wrapper
already holds `2`. -/
theorem Reset_deleter_sees_new_pointer :
    (UniquePtr.Reset [] ⟨1, 7⟩ 2).1 = [⟨7, 1, 2⟩] ∧
    ¬ (∀ c ∈ (UniquePtr.Reset [] ⟨1, 7⟩ 2).1, c.held ≠ 2) := by
  decide

/-- C15, amended: `Reset(newPtr)` installs `newPtr` and then invokes the
deleter exactly once, on the resource held before; when the deleter runs the
wrapper already holds `newPtr`, and after the call `Get() == newPtr`. -/
theorem Reset_installs_then_deletes (log : List DeleterCall) (u : UniquePtr) (newPtr : Nat) :
    (UniquePtr.Reset log u newPtr).1 = log ++ [⟨u.GetDeleter, u.Get, newPtr⟩] ∧
    (UniquePtr.Reset log u newPtr).2.Get = newPtr ∧
    (UniquePtr.Reset log u newPtr).2.GetDeleter = u.GetDeleter := by
  simp [UniquePtr.Reset, UniquePtr.Get, UniquePtr.GetDeleter]

/-- C16: the move constructor gives the new wrapper the pointer of the source,
nulls the source and invokes no deleter.  Move assignment `a = std::move(b)`
between distinct wrappers applies the deleter of `a` to the previous resource
of `a` (before anything is installed), gives `a` the pointer and the deleter
of `b` and nulls `b`.  Destroying `a` and `b` afterwards, in either order,
invokes the deleter on the transferred resource exactly once when it is not
null, and invokes nothing else; the same holds after the move constructor. -/
theorem move_transfers_ownership (log : List DeleterCall) (a b : UniquePtr) :
    ((UniquePtr.moveFrom log a).2.1.Get = a.Get ∧ (UniquePtr.moveFrom log a).2.2.Get = 0 ∧
     (UniquePtr.moveFrom log a).1 = log ∧
     UniquePtr.destroy (UniquePtr.destroy (UniquePtr.moveFrom log a).1
        (UniquePtr.moveFrom log a).2.1) (UniquePtr.moveFrom log a).2.2
       = log ++ (if a.Get = 0 then [] else [⟨a.GetDeleter, a.Get, a.Get⟩])) ∧
    ((UniquePtr.moveAssign log a b false).2.1.Get = b.Get ∧
     (UniquePtr.moveAssign log a b false).2.2.Get = 0 ∧
     (UniquePtr.moveAssign log a b false).2.1.GetDeleter = b.GetDeleter ∧
     (UniquePtr.moveAssign log a b false).1 = log ++ [⟨a.GetDeleter, a.Get, a.Get⟩] ∧
     UniquePtr.destroy (UniquePtr.destroy (UniquePtr.moveAssign log a b false).1
        (UniquePtr.moveAssign log a b false).2.1) (UniquePtr.moveAssign log a b false).2.2
       = (UniquePtr.moveAssign log a b false).1
          ++ (if b.Get = 0 then [] else [⟨b.GetDeleter, b.Get, b.Get⟩]) ∧
     UniquePtr.destroy (UniquePtr.destroy (UniquePtr.moveAssign log a b false).1
        (UniquePtr.moveAssign log a b false).2.2) (UniquePtr.moveAssign log a b false).2.1
       = (UniquePtr.moveAssign log a b false).1
          ++ (if b.Get = 0 then [] else [⟨b.GetDeleter, b.Get, b.Get⟩])) := by
  by_cases ha : a.first = 0 <;> by_cases hb : b.first = 0 <;>
    simp [UniquePtr.moveFrom, UniquePtr.moveAssign, UniquePtr.destroy, UniquePtr.Get,
      UniquePtr.GetDeleter, ha, hb]

/-! ## Assignment -/

theorem set_same {α : Type} (l : List α) (i : Nat) (a : α) (hl : i < l.length)
    (he : l[i] = a) : l.set i a = l := by
  induction l generalizing i with
  | nil => rfl
  | cons x xs ih =>
    cases i with
    | zero => simp at he; simp [he]
    | succ k =>
      simp only [List.set_cons_succ, List.cons.injEq, true_and]
      exact ih k (by simpa using hl) (by simpa using he)

theorem SharedPtr.copyAssign_handle (s : Heap) (a b : SharedPtr) :
    (SharedPtr.copyAssign s a b false).2 = ⟨b.block_, b.pointer_⟩ := by
  unfold SharedPtr.copyAssign
  cases b.block_ <;> rfl

/-- What the invariant says about a block after a statement, in terms of the
owners left on it. -/
theorem after_step_counts {M N : Machine} (hI : Inv M) (hN : Inv N) (hT : Trans M N) (x : Nat)
    (hx : x < M.heap.next) (hd : (M.heap.blocks x).destroyed = 0) :
    (M.heap.blocks x).strong_count = M.owners x ∧
    (N.owners x = 0 → (N.heap.blocks x).destroyed = 1) ∧
    (1 ≤ N.owners x →
      (N.heap.blocks x).destroyed = 0 ∧ (N.heap.blocks x).strong_count = N.owners x) := by
  have hxN : x < N.heap.next := Nat.lt_of_lt_of_le hx hT.1
  refine ⟨(hI.counted x hx hd).1, ?_, ?_⟩
  · intro h0
    rcases hT.2 x hx hd with h | ⟨h, _⟩
    · have := (hN.counted x hxN h).2.2
      omega
    · exact h
  · intro h1
    rcases hT.2 x hx hd with h | ⟨_, h⟩
    · exact ⟨h, (hN.counted x hxN h).1⟩
    · omega

/-- Where managed objects hold no owners: in any state `M` of any program
(fewer than `2 ^ 64` owner variables)
let `a` and `b` be the live owners in the distinct variables `i` and `j`, the
objects of their blocks not destroyed.  After `a = b`: `a` has the block and
the pointer of `b` (so `a.Get() == b.Get()` and `a.UseCount() ==
b.UseCount()`) and `b` is as before; a former block of `a` other than the
block of `b` has one live owner fewer, its object is destroyed when that was
the only one, and otherwise still exists with `strong_count` one lower; the
block of `b` has `strong_count` one higher, or the same when it was also the
block of `a`.  After `a = std::move(b)`: `a` has the block and the pointer of
`b`, `b` is empty, the former block of `a` is released as before and the block
of `b` keeps its `strong_count`, or has it one lower when it was also the block
of `a`.  Assigning a variable to itself, by copy or by move, leaves the whole
state as it is. -/
theorem assignment_releases_then_takes (ops : List Op) (M : Machine) (i j : Nat)
    (a b : SharedPtr) (hM : M = run Machine.init ops) (hij : i ≠ j)
    (ha : M.sh i = some a) (hb : M.sh j = some b)
    (hXa : ∀ x, a.block_ = some x → (M.heap.blocks x).destroyed = 0)
    (hXb : ∀ y, b.block_ = some y → (M.heap.blocks y).destroyed = 0)
    (hlen : M.shared.length < SIZE_MOD) :
    ((step M (.copyAssign i j)).sh i = some ⟨b.block_, b.pointer_⟩ ∧
     (step M (.copyAssign i j)).sh j = some b ∧
     SharedPtr.Get ⟨b.block_, b.pointer_⟩ = b.Get ∧
     SharedPtr.UseCount (step M (.copyAssign i j)).heap ⟨b.block_, b.pointer_⟩
       = SharedPtr.UseCount (step M (.copyAssign i j)).heap b ∧
     (∀ x, a.block_ = some x → b.block_ ≠ some x →
       (step M (.copyAssign i j)).owners x + 1 = M.owners x ∧
       ((M.heap.blocks x).strong_count = 1 →
         ((step M (.copyAssign i j)).heap.blocks x).destroyed = 1) ∧
       ((M.heap.blocks x).strong_count ≠ 1 →
         ((step M (.copyAssign i j)).heap.blocks x).destroyed = 0 ∧
         ((step M (.copyAssign i j)).heap.blocks x).strong_count + 1
           = (M.heap.blocks x).strong_count)) ∧
     (∀ y, b.block_ = some y →
       ((step M (.copyAssign i j)).heap.blocks y).destroyed = 0 ∧
       ((step M (.copyAssign i j)).heap.blocks y).strong_count
         = (M.heap.blocks y).strong_count + (if a.block_ = some y then 0 else 1))) ∧
    ((step M (.moveAssign i j)).sh i = some ⟨b.block_, b.pointer_⟩ ∧
     (step M (.moveAssign i j)).sh j = some ⟨none, 0⟩ ∧
     (∀ x, a.block_ = some x → b.block_ ≠ some x →
       (step M (.moveAssign i j)).owners x + 1 = M.owners x ∧
       ((M.heap.blocks x).strong_count = 1 →
         ((step M (.moveAssign i j)).heap.blocks x).destroyed = 1) ∧
       ((M.heap.blocks x).strong_count ≠ 1 →
         ((step M (.moveAssign i j)).heap.blocks x).destroyed = 0 ∧
         ((step M (.moveAssign i j)).heap.blocks x).strong_count + 1
           = (M.heap.blocks x).strong_count)) ∧
     (∀ y, b.block_ = some y →
       ((step M (.moveAssign i j)).heap.blocks y).destroyed = 0 ∧
       ((step M (.moveAssign i j)).heap.blocks y).strong_count
           + (if a.block_ = some y then 1 else 0)
         = (M.heap.blocks y).strong_count)) ∧
    (step M (.copyAssign i i) = M ∧ step M (.moveAssign i i) = M) := by
  have hI : Inv M := by
    subst hM
    exact run_inv Machine.init ops Inv.atStart hlen
  obtain ⟨hil, hie⟩ := sh_eq_some ha
  obtain ⟨hjl, hje⟩ := sh_eq_some hb
  have hd : decide (i = j) = false := by simp [hij]
  -- the state after the copy assignment
  have hC : step M (.copyAssign i j) = ⟨(SharedPtr.copyAssign M.heap a b false).1,
      M.shared.set i (some ⟨b.block_, b.pointer_⟩), M.weak⟩ := by
    simp only [step, ha, hb, hd]
    rw [SharedPtr.copyAssign_handle]
  have hMv : step M (.moveAssign i j) = ⟨SharedPtr.DeleteBlock M.heap a,
      (M.shared.set j (some ⟨none, 0⟩)).set i (some ⟨b.block_, b.pointer_⟩), M.weak⟩ := by
    simp only [step, ha, hb, hd, SharedPtr.moveAssign, Bool.false_eq_true, if_false]
  have hsC := step_safe M (.copyAssign i j) hI (by rw [hC]; simpa using hlen)
  have hsM := step_safe M (.moveAssign i j) hI (by rw [hMv]; simpa using hlen)
  have hoC : ∀ x, (step M (.copyAssign i j)).owners x + (if a.block_ = some x then 1 else 0)
      = M.owners x + (if b.block_ = some x then 1 else 0) := by
    intro x
    rw [hC]
    have := owners_set_sh ha (some ⟨b.block_, b.pointer_⟩) x
    rw [pointsTo_some] at this
    exact this
  have hoM : ∀ x, (step M (.moveAssign i j)).owners x + (if a.block_ = some x then 1 else 0)
      = M.owners x := by
    intro x
    rw [hMv]
    have ha' : (⟨M.heap, M.shared.set j (some ⟨none, 0⟩), M.weak⟩ : Machine).sh i = some a :=
      (sh_after_set_ne hij _ _).trans ha
    have h1 := owners_set_sh hb (some ⟨none, 0⟩) x
    have h2 := owners_set_sh ha' (some ⟨b.block_, b.pointer_⟩) x
    rw [pointsTo_some] at h2
    rw [owners_blockless _ (fun _ _ hh hb => by cases hh; cases hb)] at h1
    show owners ((M.shared.set j (some ⟨none, 0⟩)).set i (some ⟨b.block_, b.pointer_⟩)) x + _
      = owners M.shared x
    simp only at h1 h2
    omega
  have hpa : ∀ x, a.block_ = some x → 1 ≤ M.owners x := fun x hx => sh_owners_pos ha hx
  have hpb : ∀ x, b.block_ = some x → 1 ≤ M.owners x := fun x hx => sh_owners_pos hb hx
  have h2 : ∀ x, a.block_ = some x → b.block_ = some x → 2 ≤ M.owners x := by
    intro x hax hbx
    have h1 := hoM x
    have hj' : (step M (.moveAssign i j)).sh i = some ⟨b.block_, b.pointer_⟩ := by
      rw [hMv]
      exact sh_after_set_self ((sh_after_set_ne hij M.heap (some ⟨none, 0⟩)).trans ha) _ _
    have := sh_owners_pos hj' (b := x) hbx
    rw [if_pos hax] at h1
    omega
  refine ⟨⟨?_, ?_, rfl, rfl, ?_, ?_⟩, ⟨?_, ?_, ?_, ?_⟩, ?_, ?_⟩
  · rw [hC]; exact sh_after_set_self ha _ _
  · rw [hC]; exact (sh_after_set_ne (fun h => hij h.symm) _ _).trans hb
  · intro x hax hbx
    obtain ⟨c1, c2, c3⟩ := after_step_counts hI hsC.1 hsC.2.1 x (sh_rangeS hI ha hax) (hXa x hax)
    have ho := hoC x
    rw [if_pos hax, if_neg hbx] at ho
    refine ⟨by omega, ?_, ?_⟩
    · intro h1; exact c2 (by omega)
    · intro h1
      have := hpa x hax
      obtain ⟨d1, d2⟩ := c3 (by omega)
      exact ⟨d1, by omega⟩
  · intro y hby
    obtain ⟨c1, c2, c3⟩ := after_step_counts hI hsC.1 hsC.2.1 y (sh_rangeS hI hb hby) (hXb y hby)
    have ho := hoC y
    rw [if_pos hby] at ho
    have := hpb y hby
    by_cases hay : a.block_ = some y
    · rw [if_pos hay] at ho ⊢
      obtain ⟨d1, d2⟩ := c3 (by omega)
      exact ⟨d1, by omega⟩
    · rw [if_neg hay] at ho ⊢
      obtain ⟨d1, d2⟩ := c3 (by omega)
      exact ⟨d1, by omega⟩
  · rw [hMv]
    exact sh_after_set_self ((sh_after_set_ne hij M.heap (some ⟨none, 0⟩)).trans ha) _ _
  · rw [hMv]
    have : (⟨SharedPtr.DeleteBlock M.heap a, M.shared.set j (some ⟨none, 0⟩), M.weak⟩ :
        Machine).sh j = some ⟨none, 0⟩ := sh_after_set_self hb _ _
    exact (sh_after_set_ne (M := ⟨SharedPtr.DeleteBlock M.heap a,
      M.shared.set j (some ⟨none, 0⟩), M.weak⟩) (fun h => hij h.symm) _ _).trans this
  · intro x hax hbx
    obtain ⟨c1, c2, c3⟩ := after_step_counts hI hsM.1 hsM.2.1 x (sh_rangeS hI ha hax) (hXa x hax)
    have ho := hoM x
    rw [if_pos hax] at ho
    refine ⟨by omega, ?_, ?_⟩
    · intro h1; exact c2 (by omega)
    · intro h1
      have := hpa x hax
      obtain ⟨d1, d2⟩ := c3 (by omega)
      exact ⟨d1, by omega⟩
  · intro y hby
    obtain ⟨c1, c2, c3⟩ := after_step_counts hI hsM.1 hsM.2.1 y (sh_rangeS hI hb hby) (hXb y hby)
    have ho := hoM y
    have := hpb y hby
    by_cases hay : a.block_ = some y
    · have := h2 y hay hby
      rw [if_pos hay] at ho ⊢
      obtain ⟨d1, d2⟩ := c3 (by omega)
      exact ⟨d1, by omega⟩
    · rw [if_neg hay] at ho ⊢
      obtain ⟨d1, d2⟩ := c3 (by omega)
      exact ⟨d1, by omega⟩
  · simp only [step, ha, decide_True, SharedPtr.copyAssign, if_true]
    rw [set_same M.shared i (some a) hil hie]
  · simp only [step, ha, decide_True, SharedPtr.moveAssign, if_true]
    rw [List.set_set, set_same M.shared i (some a) hil hie]

/-- The assignment facts at the example program: variable 0 (sole owner of block
0) is assigned from variable 1 (one of two owners of block 1). -/
theorem assignment_releases_then_takes_witness :
    (assignScene.sh 0 = some ⟨some 0, 100⟩ ∧ assignScene.sh 1 = some ⟨some 1, 200⟩ ∧
     (assignScene.heap.blocks 0).destroyed = 0 ∧ (assignScene.heap.blocks 1).destroyed = 0 ∧
     assignScene.shared.length < SIZE_MOD) ∧
    (
    ((step assignScene (.copyAssign 0 1)).sh 0 = some ⟨(⟨some 1, 200⟩ : SharedPtr).block_, (⟨some 1, 200⟩ : SharedPtr).pointer_⟩ ∧
     (step assignScene (.copyAssign 0 1)).sh 1 = some (⟨some 1, 200⟩ : SharedPtr) ∧
     SharedPtr.Get ⟨(⟨some 1, 200⟩ : SharedPtr).block_, (⟨some 1, 200⟩ : SharedPtr).pointer_⟩ = (⟨some 1, 200⟩ : SharedPtr).Get ∧
     SharedPtr.UseCount (step assignScene (.copyAssign 0 1)).heap ⟨(⟨some 1, 200⟩ : SharedPtr).block_, (⟨some 1, 200⟩ : SharedPtr).pointer_⟩
       = SharedPtr.UseCount (step assignScene (.copyAssign 0 1)).heap (⟨some 1, 200⟩ : SharedPtr) ∧
     (∀ x, (⟨some 0, 100⟩ : SharedPtr).block_ = some x → (⟨some 1, 200⟩ : SharedPtr).block_ ≠ some x →
       (step assignScene (.copyAssign 0 1)).owners x + 1 = assignScene.owners x ∧
       ((assignScene.heap.blocks x).strong_count = 1 →
         ((step assignScene (.copyAssign 0 1)).heap.blocks x).destroyed = 1) ∧
       ((assignScene.heap.blocks x).strong_count ≠ 1 →
         ((step assignScene (.copyAssign 0 1)).heap.blocks x).destroyed = 0 ∧
         ((step assignScene (.copyAssign 0 1)).heap.blocks x).strong_count + 1
           = (assignScene.heap.blocks x).strong_count)) ∧
     (∀ y, (⟨some 1, 200⟩ : SharedPtr).block_ = some y →
       ((step assignScene (.copyAssign 0 1)).heap.blocks y).destroyed = 0 ∧
       ((step assignScene (.copyAssign 0 1)).heap.blocks y).strong_count
         = (assignScene.heap.blocks y).strong_count + (if (⟨some 0, 100⟩ : SharedPtr).block_ = some y then 0 else 1))) ∧
    ((step assignScene (.moveAssign 0 1)).sh 0 = some ⟨(⟨some 1, 200⟩ : SharedPtr).block_, (⟨some 1, 200⟩ : SharedPtr).pointer_⟩ ∧
     (step assignScene (.moveAssign 0 1)).sh 1 = some ⟨none, 0⟩ ∧
     (∀ x, (⟨some 0, 100⟩ : SharedPtr).block_ = some x → (⟨some 1, 200⟩ : SharedPtr).block_ ≠ some x →
       (step assignScene (.moveAssign 0 1)).owners x + 1 = assignScene.owners x ∧
       ((assignScene.heap.blocks x).strong_count = 1 →
         ((step assignScene (.moveAssign 0 1)).heap.blocks x).destroyed = 1) ∧
       ((assignScene.heap.blocks x).strong_count ≠ 1 →
         ((step assignScene (.moveAssign 0 1)).heap.blocks x).destroyed = 0 ∧
         ((step assignScene (.moveAssign 0 1)).heap.blocks x).strong_count + 1
           = (assignScene.heap.blocks x).strong_count)) ∧
     (∀ y, (⟨some 1, 200⟩ : SharedPtr).block_ = some y →
       ((step assignScene (.moveAssign 0 1)).heap.blocks y).destroyed = 0 ∧
       ((step assignScene (.moveAssign 0 1)).heap.blocks y).strong_count
           + (if (⟨some 0, 100⟩ : SharedPtr).block_ = some y then 1 else 0)
         = (assignScene.heap.blocks y).strong_count)) ∧
    (step assignScene (.copyAssign 0 0) = assignScene ∧ step assignScene (.moveAssign 0 0) = assignScene) ) :=
  ⟨by decide,
   assignment_releases_then_takes [.fromRaw 100 false, .makeShared 200 false, .copy 1]
     assignScene 0 1 ⟨some 0, 100⟩ ⟨some 1, 200⟩ rfl (by decide) (by decide) (by decide)
     (fun x hx => by cases hx; decide) (fun y hy => by cases hy; decide) (by decide)⟩

/-! ## `IntrusivePtr`: the counter is the number of handles -/

theorem refs_push (l : List (Option IntrusivePtr)) (h : IntrusivePtr) (p : Nat) :
    refs (l ++ [some h]) p = refs l p + (if h.pointer_ = p then 1 else 0) := by
  unfold refs
  rw [List.countP_append]
  simp [List.countP_cons, refersTo]

theorem refs_set (l : List (Option IntrusivePtr)) (i : Nat) (o v : Option IntrusivePtr)
    (hl : i < l.length) (ho : l[i] = o) (p : Nat) :
    refs (l.set i v) p + (if refersTo p o then 1 else 0)
      = refs l p + (if refersTo p v then 1 else 0) := by
  unfold refs
  rw [List.countP_set _ _ _ _ hl, ho]
  have := List.boole_getElem_le_countP (refersTo p) l i hl
  rw [ho] at this
  omega

theorem refs_le_length (l : List (Option IntrusivePtr)) (p : Nat) : refs l p ≤ l.length :=
  List.countP_le_length _

theorem refs_pos_of_mem {l : List (Option IntrusivePtr)} {h : IntrusivePtr}
    (hm : some h ∈ l) : 1 ≤ refs l h.pointer_ := by
  unfold refs
  exact List.countP_pos_iff.mpr ⟨some h, hm, by simp [refersTo]⟩

theorem refs_eq_zero {l : List (Option IntrusivePtr)} {n p : Nat}
    (hr : ∀ o ∈ l, ∀ h, o = some h → h.pointer_ < n) (hp : n ≤ p) : refs l p = 0 := by
  unfold refs
  rw [List.countP_eq_zero]
  intro o ho
  cases o with
  | none => simp [refersTo]
  | some h =>
    have := hr _ ho h rfl
    simp only [refersTo, decide_eq_true_eq]
    omega

theorem var_eq_some {M : IMachine} {i : Nat} {h : IntrusivePtr} (hs : M.var i = some h) :
    ∃ hl : i < M.vars.length, M.vars[i] = some h := by
  unfold IMachine.var at hs
  by_cases hl : i < M.vars.length
  · refine ⟨hl, ?_⟩
    rw [List.getD_eq_getElem _ _ hl] at hs
    exact hs
  · rw [List.getD_eq_default _ _ (Nat.le_of_not_lt hl)] at hs
    cases hs

theorem var_mem {M : IMachine} {i : Nat} {h : IntrusivePtr} (hs : M.var i = some h) :
    some h ∈ M.vars := by
  obtain ⟨hl, he⟩ := var_eq_some hs
  rw [← he]
  exact List.getElem_mem hl

theorem set_push_last {α : Type} (l : List α) (a b : α) :
    (l ++ [a]).set l.length b = l ++ [b] := by
  induction l with
  | nil => rfl
  | cons x xs ih => simp [ih]

theorem RefCounted.IncRef_of_lt {o : RefCounted} (h : o.count_ + 1 < SIZE_MOD) :
    o.IncRef = ⟨o.count_ + 1, o.destroyed⟩ := by
  simp [RefCounted.IncRef, SimpleCounter.IncRef, incr_of_lt h]

theorem RefCounted.DecRef_of_pos {o : RefCounted} (h1 : 1 ≤ o.count_)
    (h2 : o.count_ < SIZE_MOD) :
    o.DecRef = if o.count_ = 1 then ⟨0, o.destroyed + 1⟩ else ⟨o.count_ - 1, o.destroyed⟩ := by
  have hd := decr_of_pos (Nat.lt_of_lt_of_le Nat.zero_lt_one h1) h2
  have h0 : o.count_ ≠ 0 := by omega
  by_cases h : o.count_ = 1
  · have d1 : decr 1 = 0 := by decide
    simp [RefCounted.DecRef, RefCounted.RefCount, RefCounted.Destroy, SimpleCounter.DecRef, h, d1]
  · have h3 : o.count_ - 1 ≠ 0 := by omega
    simp [RefCounted.DecRef, RefCounted.RefCount, RefCounted.Destroy, SimpleCounter.DecRef, hd,
      h, h0, h3]

theorem next_AddPointer (st : Store) (h : IntrusivePtr) :
    (IntrusivePtr.AddPointer st h).next = st.next := by
  unfold IntrusivePtr.AddPointer Store.upd
  split <;> rfl

theorem next_DeletePointer (st : Store) (h : IntrusivePtr) :
    (IntrusivePtr.DeletePointer st h).next = st.next := by
  unfold IntrusivePtr.DeletePointer Store.upd
  split <;> rfl

theorem objs_AddPointer (st : Store) (h : IntrusivePtr) (p : Nat) :
    (IntrusivePtr.AddPointer st h).objs p
      = if h.pointer_ ≠ 0 ∧ p = h.pointer_ then (st.objs p).IncRef else st.objs p := by
  unfold IntrusivePtr.AddPointer Store.upd
  by_cases h0 : h.pointer_ = 0
  · simp [h0]
  · by_cases hp : p = h.pointer_
    · simp [h0, hp]
    · simp [h0, hp]

theorem objs_DeletePointer (st : Store) (h : IntrusivePtr) (p : Nat) :
    (IntrusivePtr.DeletePointer st h).objs p
      = if h.pointer_ ≠ 0 ∧ p = h.pointer_ then (st.objs p).DecRef else st.objs p := by
  unfold IntrusivePtr.DeletePointer Store.upd
  by_cases h0 : h.pointer_ = 0
  · simp [h0]
  · by_cases hp : p = h.pointer_
    · simp [h0, hp]
    · simp [h0, hp]

theorem IInv.atInit : IInv IMachine.init :=
  { pos := Nat.le_refl 1
    range := fun o ho => by simp [IMachine.init] at ho
    counted := fun p _ h1 => by simp [IMachine.init, refs] at h1
    gone := fun p hp hn _ => by
      simp only [IMachine.init, Store.empty] at hn
      omega
    fresh := fun _ _ => rfl }

/-- Rearranging the handles without touching a pointee. -/
theorem IInv.transfer {M : IMachine} (hI : IInv M) (vs : List (Option IntrusivePtr))
    (hr : ∀ o ∈ vs, ∀ h, o = some h → h.pointer_ < M.store.next)
    (hc : ∀ p, 1 ≤ p → refs vs p = refs M.vars p) :
    IInv { store := M.store, vars := vs } :=
  { pos := hI.pos
    range := hr
    counted := fun p hp h1 => by
      show (M.store.objs p).count_ = refs vs p ∧ (M.store.objs p).destroyed = 0
      have h2 : 1 ≤ refs vs p := h1
      rw [hc p hp] at h2 ⊢
      exact hI.counted p hp h2
    gone := fun p hp hn h0 => by
      have h2 : refs vs p = 0 := h0
      rw [hc p hp] at h2
      exact hI.gone p hp hn h2
    fresh := hI.fresh }

/-- A handle lets go of its pointee (`DeletePointer`). -/
theorem IInv.release {M : IMachine} (hI : IInv M) {i : Nat} {h : IntrusivePtr}
    (hs : M.var i = some h) (v : Option IntrusivePtr) (hv : v = none ∨ v = some ⟨0⟩)
    (hlen : M.vars.length < SIZE_MOD) :
    IInv { store := IntrusivePtr.DeletePointer M.store h, vars := M.vars.set i v } := by
  obtain ⟨hl, he⟩ := var_eq_some hs
  have hset := refs_set M.vars i (some h) v hl he
  have hv0 : ∀ p, 1 ≤ p → refersTo p v = false := by
    intro p hp
    rcases hv with rfl | rfl
    · rfl
    · simp only [refersTo, decide_eq_false_iff_not]
      omega
  have hrange : ∀ o ∈ M.vars.set i v, ∀ x, o = some x → x.pointer_ < M.store.next := by
    intro o ho x hx
    rcases List.mem_or_eq_of_mem_set ho with h1 | h1
    · exact hI.range o h1 x hx
    · subst h1
      rcases hv with rfl | rfl
      · cases hx
      · cases hx
        exact hI.pos
  have hrefs : ∀ p, 1 ≤ p →
      refs (M.vars.set i v) p + (if h.pointer_ = p then 1 else 0) = refs M.vars p := by
    intro p hp
    have := hset p
    rw [hv0 p hp] at this
    simpa [refersTo] using this
  by_cases h0 : h.pointer_ = 0
  · have hst : IntrusivePtr.DeletePointer M.store h = M.store := by
      simp [IntrusivePtr.DeletePointer, h0]
    rw [hst]
    refine hI.transfer _ hrange ?_
    intro p hp
    have := hrefs p hp
    have hne : ¬ h.pointer_ = p := by omega
    simpa [hne] using this
  · have hpos : 1 ≤ h.pointer_ := by omega
    have hp1 : 1 ≤ refs M.vars h.pointer_ := refs_pos_of_mem (var_mem hs)
    obtain ⟨hc, hd⟩ := hI.counted h.pointer_ hpos hp1
    have hle := refs_le_length M.vars h.pointer_
    have hdec := @RefCounted.DecRef_of_pos (M.store.objs h.pointer_) (by omega) (by omega)
    have hlt : h.pointer_ < M.store.next := hI.range _ (var_mem hs) h rfl
    refine ⟨?_, ?_, ?_, ?_, ?_⟩
    · show 1 ≤ (IntrusivePtr.DeletePointer M.store h).next
      rw [next_DeletePointer]
      exact hI.pos
    · show ∀ o ∈ M.vars.set i v, ∀ x, o = some x →
        x.pointer_ < (IntrusivePtr.DeletePointer M.store h).next
      rw [next_DeletePointer]
      exact hrange
    · intro p hp h1
      show ((IntrusivePtr.DeletePointer M.store h).objs p).count_ = refs (M.vars.set i v) p ∧
        ((IntrusivePtr.DeletePointer M.store h).objs p).destroyed = 0
      have h1 : 1 ≤ refs (M.vars.set i v) p := h1
      have hr := hrefs p hp
      rw [objs_DeletePointer]
      by_cases hph : p = h.pointer_
      · subst hph
        simp only [if_true] at hr
        have hc1 : (M.store.objs h.pointer_).count_ ≠ 1 := by omega
        rw [if_pos ⟨h0, rfl⟩, hdec, if_neg hc1]
        exact ⟨by show (M.store.objs h.pointer_).count_ - 1 = _; omega, hd⟩
      · have hne : ¬ h.pointer_ = p := fun e => hph e.symm
        rw [if_neg hne] at hr
        rw [if_neg (fun e => hph e.2)]
        have := hI.counted p hp (by omega)
        exact ⟨by omega, this.2⟩
    · intro p hp hn hz
      show ((IntrusivePtr.DeletePointer M.store h).objs p).destroyed = 1
      have hn : p < (IntrusivePtr.DeletePointer M.store h).next := hn
      rw [next_DeletePointer] at hn
      have hz : refs (M.vars.set i v) p = 0 := hz
      have hr := hrefs p hp
      rw [objs_DeletePointer]
      by_cases hph : p = h.pointer_
      · subst hph
        simp only [if_true] at hr
        have hc1 : (M.store.objs h.pointer_).count_ = 1 := by omega
        rw [if_pos ⟨h0, rfl⟩, hdec, if_pos hc1]
        show (M.store.objs h.pointer_).destroyed + 1 = 1
        omega
      · have hne : ¬ h.pointer_ = p := fun e => hph e.symm
        rw [if_neg hne] at hr
        rw [if_neg (fun e => hph e.2)]
        exact hI.gone p hp hn (by omega)
    · intro p hp
      show (IntrusivePtr.DeletePointer M.store h).objs p = ⟨0, 0⟩
      have hp : p = 0 ∨ (IntrusivePtr.DeletePointer M.store h).next ≤ p := hp
      rw [next_DeletePointer] at hp
      rw [objs_DeletePointer, if_neg (fun e => by omega)]
      exact hI.fresh p hp

/-- An empty handle takes a pointee that is null or has a live handle
(`AddPointer`). -/
theorem IInv.adopt {M : IMachine} (hI : IInv M) {i : Nat}
    (hs : M.var i = some ⟨0⟩) (q : Nat) (hq : q = 0 ∨ 1 ≤ refs M.vars q)
    (hlen : M.vars.length < SIZE_MOD) :
    IInv { store := IntrusivePtr.AddPointer M.store ⟨q⟩, vars := M.vars.set i (some ⟨q⟩) } := by
  obtain ⟨hl, he⟩ := var_eq_some hs
  have hset := refs_set M.vars i (some ⟨0⟩) (some ⟨q⟩) hl he
  have hqn : q < M.store.next := by
    rcases hq with rfl | hq
    · exact hI.pos
    · by_contra hcon
      have := refs_eq_zero hI.range (Nat.le_of_not_lt hcon)
      omega
  have hrange : ∀ o ∈ M.vars.set i (some ⟨q⟩), ∀ x, o = some x →
      x.pointer_ < M.store.next := by
    intro o ho x hx
    rcases List.mem_or_eq_of_mem_set ho with h1 | h1
    · exact hI.range o h1 x hx
    · subst h1
      cases hx
      exact hqn
  have hrefs : ∀ p, 1 ≤ p →
      refs (M.vars.set i (some ⟨q⟩)) p = refs M.vars p + (if q = p then 1 else 0) := by
    intro p hp
    have := hset p
    have h0p : ¬ 0 = p := by omega
    simpa [refersTo, h0p] using this
  by_cases h0 : q = 0
  · have hst : IntrusivePtr.AddPointer M.store ⟨q⟩ = M.store := by
      simp [IntrusivePtr.AddPointer, h0]
    rw [hst]
    refine hI.transfer _ hrange ?_
    intro p hp
    have := hrefs p hp
    have hne : ¬ q = p := by omega
    simpa [hne] using this
  · have hq1 : 1 ≤ refs M.vars q := by
      rcases hq with hq | hq
      · exact absurd hq h0
      · exact hq
    have hpos : 1 ≤ q := by omega
    obtain ⟨hc, hd⟩ := hI.counted q hpos hq1
    have hle := refs_le_length (M.vars.set i (some ⟨q⟩)) q
    rw [List.length_set] at hle
    have hrq := hrefs q hpos
    simp only [if_true] at hrq
    have hinc := @RefCounted.IncRef_of_lt (M.store.objs q) (by omega)
    refine ⟨?_, ?_, ?_, ?_, ?_⟩
    · show 1 ≤ (IntrusivePtr.AddPointer M.store ⟨q⟩).next
      rw [next_AddPointer]
      exact hI.pos
    · show ∀ o ∈ M.vars.set i (some ⟨q⟩), ∀ x, o = some x →
        x.pointer_ < (IntrusivePtr.AddPointer M.store ⟨q⟩).next
      rw [next_AddPointer]
      exact hrange
    · intro p hp h1
      show ((IntrusivePtr.AddPointer M.store ⟨q⟩).objs p).count_
          = refs (M.vars.set i (some ⟨q⟩)) p ∧
        ((IntrusivePtr.AddPointer M.store ⟨q⟩).objs p).destroyed = 0
      have h1 : 1 ≤ refs (M.vars.set i (some ⟨q⟩)) p := h1
      have hr := hrefs p hp
      rw [objs_AddPointer]
      by_cases hph : p = q
      · subst hph
        rw [if_pos ⟨h0, rfl⟩, hinc]
        exact ⟨by show (M.store.objs p).count_ + 1 = _; omega, hd⟩
      · have hne : ¬ q = p := fun e => hph e.symm
        rw [if_neg hne] at hr
        rw [if_neg (fun e => hph e.2)]
        have := hI.counted p hp (by omega)
        exact ⟨by omega, this.2⟩
    · intro p hp hn hz
      show ((IntrusivePtr.AddPointer M.store ⟨q⟩).objs p).destroyed = 1
      have hn : p < (IntrusivePtr.AddPointer M.store ⟨q⟩).next := hn
      rw [next_AddPointer] at hn
      have hz : refs (M.vars.set i (some ⟨q⟩)) p = 0 := hz
      have hr := hrefs p hp
      rw [objs_AddPointer]
      by_cases hph : p = q
      · subst hph
        omega
      · have hne : ¬ q = p := fun e => hph e.symm
        rw [if_neg hne] at hr
        rw [if_neg (fun e => hph e.2)]
        exact hI.gone p hp hn (by omega)
    · intro p hp
      show (IntrusivePtr.AddPointer M.store ⟨q⟩).objs p = ⟨0, 0⟩
      have hp : p = 0 ∨ (IntrusivePtr.AddPointer M.store ⟨q⟩).next ≤ p := hp
      rw [next_AddPointer] at hp
      rw [objs_AddPointer, if_neg (fun e => by have e2 : p = q := e.2; omega)]
      exact hI.fresh p hp

theorem objs_adoptNew (st : Store) (hn : 1 ≤ st.next) (p : Nat) :
    (IntrusivePtr.AddPointer st.alloc.1 ⟨st.next⟩).objs p
      = if p = st.next then ⟨1, 0⟩ else st.objs p := by
  have h0 : st.next ≠ 0 := by omega
  have i0 : incr 0 = 1 := by decide
  rw [objs_AddPointer]
  by_cases hp : p = st.next
  · subst hp
    simp [Store.alloc, h0, RefCounted.IncRef, SimpleCounter.IncRef, i0]
  · simp [Store.alloc, hp]

theorem next_adoptNew (st : Store) :
    (IntrusivePtr.AddPointer st.alloc.1 ⟨st.next⟩).next = st.next + 1 := by
  rw [next_AddPointer]
  rfl

/-- An empty handle takes a pointee fresh from `new`. -/
theorem IInv.adoptNew {M : IMachine} (hI : IInv M) {i : Nat} (hs : M.var i = some ⟨0⟩) :
    IInv { store := IntrusivePtr.AddPointer M.store.alloc.1 ⟨M.store.next⟩,
           vars := M.vars.set i (some ⟨M.store.next⟩) } := by
  obtain ⟨hl, he⟩ := var_eq_some hs
  have hset := refs_set M.vars i (some ⟨0⟩) (some ⟨M.store.next⟩) hl he
  have hpos := hI.pos
  have hzero : refs M.vars M.store.next = 0 := refs_eq_zero hI.range (Nat.le_refl _)
  have hrefs : ∀ p, 1 ≤ p → refs (M.vars.set i (some ⟨M.store.next⟩)) p
      = refs M.vars p + (if M.store.next = p then 1 else 0) := by
    intro p hp
    have := hset p
    have h0p : ¬ 0 = p := by omega
    simpa [refersTo, h0p] using this
  refine ⟨?_, ?_, ?_, ?_, ?_⟩
  · show 1 ≤ (IntrusivePtr.AddPointer M.store.alloc.1 ⟨M.store.next⟩).next
    rw [next_adoptNew]
    omega
  · show ∀ o ∈ M.vars.set i (some ⟨M.store.next⟩), ∀ x, o = some x →
      x.pointer_ < (IntrusivePtr.AddPointer M.store.alloc.1 ⟨M.store.next⟩).next
    rw [next_adoptNew]
    intro o ho x hx
    rcases List.mem_or_eq_of_mem_set ho with h1 | h1
    · exact Nat.lt_succ_of_lt (hI.range o h1 x hx)
    · subst h1
      cases hx
      exact Nat.lt_succ_self _
  · intro p hp h1
    show ((IntrusivePtr.AddPointer M.store.alloc.1 ⟨M.store.next⟩).objs p).count_
        = refs (M.vars.set i (some ⟨M.store.next⟩)) p ∧
      ((IntrusivePtr.AddPointer M.store.alloc.1 ⟨M.store.next⟩).objs p).destroyed = 0
    have h1 : 1 ≤ refs (M.vars.set i (some ⟨M.store.next⟩)) p := h1
    have hr := hrefs p hp
    rw [objs_adoptNew _ hpos]
    by_cases hph : p = M.store.next
    · subst hph
      rw [if_pos rfl]
      simp only [if_true] at hr
      exact ⟨by show 1 = _; omega, rfl⟩
    · have hne : ¬ M.store.next = p := fun e => hph e.symm
      rw [if_neg hne] at hr
      rw [if_neg hph]
      have := hI.counted p hp (by omega)
      exact ⟨by omega, this.2⟩
  · intro p hp hn hz
    show ((IntrusivePtr.AddPointer M.store.alloc.1 ⟨M.store.next⟩).objs p).destroyed = 1
    have hn : p < (IntrusivePtr.AddPointer M.store.alloc.1 ⟨M.store.next⟩).next := hn
    rw [next_adoptNew] at hn
    have hz : refs (M.vars.set i (some ⟨M.store.next⟩)) p = 0 := hz
    have hr := hrefs p hp
    rw [objs_adoptNew _ hpos]
    by_cases hph : p = M.store.next
    · subst hph
      simp only [if_true] at hr
      omega
    · have hne : ¬ M.store.next = p := fun e => hph e.symm
      rw [if_neg hne] at hr
      rw [if_neg hph]
      exact hI.gone p hp (by omega) (by omega)
  · intro p hp
    show (IntrusivePtr.AddPointer M.store.alloc.1 ⟨M.store.next⟩).objs p = ⟨0, 0⟩
    have hp : p = 0 ∨ (IntrusivePtr.AddPointer M.store.alloc.1 ⟨M.store.next⟩).next ≤ p := hp
    rw [next_adoptNew] at hp
    rw [objs_adoptNew _ hpos, if_neg (by omega)]
    exact hI.fresh p (by omega)

/-- A new variable holding the null handle. -/
theorem IInv.pushNull {M : IMachine} (hI : IInv M) :
    IInv { store := M.store, vars := M.vars ++ [some ⟨0⟩] } := by
  refine hI.transfer _ ?_ ?_
  · intro o ho x hx
    rcases List.mem_append.mp ho with h1 | h1
    · exact hI.range o h1 x hx
    · simp only [List.mem_singleton] at h1
      subst h1
      cases hx
      exact hI.pos
  · intro p hp
    rw [refs_push]
    have : ¬ 0 = p := by omega
    simp [this]

theorem var_pushNull_last (M : IMachine) :
    IMachine.var { store := M.store, vars := M.vars ++ [some ⟨0⟩] } M.vars.length
      = some ⟨0⟩ := by
  simp [IMachine.var]

/-- A new variable adopts a pointee that is null or has a live handle. -/
theorem IInv.pushAdopt {M : IMachine} (hI : IInv M) (q : Nat)
    (hq : q = 0 ∨ 1 ≤ refs M.vars q) (hlen : M.vars.length + 1 < SIZE_MOD) :
    IInv { store := IntrusivePtr.AddPointer M.store ⟨q⟩, vars := M.vars ++ [some ⟨q⟩] } := by
  have h := hI.pushNull.adopt (var_pushNull_last M) q
    (by
      rcases hq with hq | hq
      · exact Or.inl hq
      · refine Or.inr ?_
        show 1 ≤ refs (M.vars ++ [some (⟨0⟩ : IntrusivePtr)]) q
        rw [refs_push]
        omega)
    (by
      show (M.vars ++ [some (⟨0⟩ : IntrusivePtr)]).length < SIZE_MOD
      rw [List.length_append]
      exact hlen)
  have e : (M.vars ++ [some (⟨0⟩ : IntrusivePtr)]).set M.vars.length (some ⟨q⟩)
      = M.vars ++ [some ⟨q⟩] := set_push_last _ _ _
  simpa only [e] using h

/-- A handle lets go of its pointee and takes one that is null or has another
live handle. -/
theorem IInv.reassign {M : IMachine} (hI : IInv M) {i j : Nat} {a b : IntrusivePtr}
    (ha : M.var i = some a) (hb : M.var j = some b) (hij : i ≠ j)
    (hlen : M.vars.length < SIZE_MOD) :
    IInv { store := IntrusivePtr.AddPointer (IntrusivePtr.DeletePointer M.store a)
             ⟨b.pointer_⟩,
           vars := M.vars.set i (some ⟨b.pointer_⟩) } := by
  obtain ⟨hl, _⟩ := var_eq_some ha
  have h1 := hI.release ha (some ⟨0⟩) (Or.inr rfl) hlen
  have hi : (M.vars.set i (some (⟨0⟩ : IntrusivePtr))).getD i none = some ⟨0⟩ :=
    getD_set_self _ hl _ _
  have hj : (M.vars.set i (some (⟨0⟩ : IntrusivePtr))).getD j none = some b :=
    (getD_set_of_ne _ (fun e => hij e.symm) _ _).trans hb
  have h2 := h1.adopt hi b.pointer_ (Or.inr (refs_pos_of_mem (var_mem hj)))
    (by
      show (M.vars.set i (some (⟨0⟩ : IntrusivePtr))).length < SIZE_MOD
      rw [List.length_set]
      exact hlen)
  have e : (M.vars.set i (some (⟨0⟩ : IntrusivePtr))).set i (some ⟨b.pointer_⟩)
      = M.vars.set i (some ⟨b.pointer_⟩) := List.set_set _ _ _ _
  simpa only [e] using h2

theorem alloc_DeletePointer (st : Store) (h : IntrusivePtr) (hn : h.pointer_ < st.next) :
    IntrusivePtr.DeletePointer st.alloc.1 h = (IntrusivePtr.DeletePointer st h).alloc.1 := by
  have hne : h.pointer_ ≠ st.next := by omega
  by_cases h0 : h.pointer_ = 0
  · simp [IntrusivePtr.DeletePointer, h0]
  · simp only [IntrusivePtr.DeletePointer, Store.upd, Store.alloc, ne_eq, h0, not_false_eq_true,
      if_true, if_neg hne, Store.mk.injEq, and_true]
    funext p
    by_cases hp : p = h.pointer_
    · subst hp
      simp [hne]
    · simp [hp]

/-- Every statement but `v.Reset(v.Get())` keeps the invariant, as long as the
handles can still be counted in 64 bits. -/
theorem istep_safe {M : IMachine} (hI : IInv M) (op : IOp) (hop : op.ownPointer = false)
    (hlen : (istep M op).vars.length < SIZE_MOD) : IInv (istep M op) := by
  cases op with
  | null =>
    have h := hI.pushAdopt 0 (Or.inl rfl)
      (by simpa [istep, IMachine.push, IntrusivePtr.ofRaw] using hlen)
    exact h
  | make =>
    have h := hI.pushNull.adoptNew (var_pushNull_last M)
    have e : (M.vars ++ [some (⟨0⟩ : IntrusivePtr)]).set M.vars.length (some ⟨M.store.next⟩)
        = M.vars ++ [some ⟨M.store.next⟩] := set_push_last _ _ _
    simpa only [e] using h
  | ofGet j =>
    simp only [istep] at hlen ⊢
    cases hj : M.var j with
    | none => simpa only [hj] using hI
    | some b =>
      simp only [hj] at hlen ⊢
      exact hI.pushAdopt b.pointer_ (Or.inr (refs_pos_of_mem (var_mem hj)))
        (by simpa [IMachine.push, IntrusivePtr.ofRaw] using hlen)
  | copy j =>
    simp only [istep] at hlen ⊢
    cases hj : M.var j with
    | none => simpa only [hj] using hI
    | some b =>
      simp only [hj] at hlen ⊢
      exact hI.pushAdopt b.pointer_ (Or.inr (refs_pos_of_mem (var_mem hj)))
        (by simpa [IMachine.push, IntrusivePtr.copy] using hlen)
  | move j =>
    simp only [istep] at hlen ⊢
    cases hj : M.var j with
    | none => simpa only [hj] using hI
    | some b =>
      simp only [hj]
      obtain ⟨hl, he⟩ := var_eq_some hj
      refine hI.transfer _ ?_ ?_
      · intro o ho x hx
        rcases List.mem_append.mp ho with h1 | h1
        · rcases List.mem_or_eq_of_mem_set h1 with h2 | h2
          · exact hI.range o h2 x hx
          · subst h2
            cases hx
            exact hI.pos
        · simp only [List.mem_singleton] at h1
          subst h1
          cases hx
          exact hI.range _ (var_mem hj) b rfl
      · intro p hp
        have h1 := refs_set M.vars j (some b) (some ⟨0⟩) hl he p
        have h0p : ¬ 0 = p := by omega
        simp only [refersTo, decide_eq_true_eq, h0p, if_false] at h1
        show refs (M.vars.set j (some ⟨0⟩) ++ [some ⟨b.pointer_⟩]) p = refs M.vars p
        have h2 := refs_push (M.vars.set j (some ⟨0⟩)) ⟨b.pointer_⟩ p
        dsimp only at h2
        omega
  | copyAssign i j =>
    simp only [istep] at hlen ⊢
    cases hi : M.var i with
    | none => simpa only [hi] using hI
    | some a =>
      cases hj : M.var j with
      | none => simpa only [hi, hj] using hI
      | some b =>
        simp only [hi, hj] at hlen ⊢
        obtain ⟨hl, he⟩ := var_eq_some hi
        by_cases hij : i = j
        · have e : M.vars.set i (some a) = M.vars := set_same _ _ _ hl he
          simp only [IntrusivePtr.copyAssign, hij, decide_True, if_true]
          rw [← hij, e]
          exact hI
        · have hd : decide (i = j) = false := by simp [hij]
          simp only [IntrusivePtr.copyAssign, hd] at hlen ⊢
          exact hI.reassign hi hj hij (by simpa using hlen)
  | moveAssign i j =>
    simp only [istep] at hlen ⊢
    cases hi : M.var i with
    | none => simpa only [hi] using hI
    | some a =>
      cases hj : M.var j with
      | none => simpa only [hi, hj] using hI
      | some b =>
        simp only [hi, hj] at hlen ⊢
        obtain ⟨hl, he⟩ := var_eq_some hi
        obtain ⟨hlj, hej⟩ := var_eq_some hj
        by_cases hij : i = j
        · subst hij
          have hab : a = b := by
            rw [hi] at hj
            exact Option.some.inj hj
          subst hab
          have e : (M.vars.set i (some a)).set i (some a) = M.vars := by
            rw [List.set_set]
            exact set_same _ _ _ hl he
          simp only [IntrusivePtr.moveAssign, decide_True, if_true]
          rw [e]
          exact hI
        · have hd : decide (i = j) = false := by simp [hij]
          simp only [IntrusivePtr.moveAssign, hd] at hlen ⊢
          have h1 := hI.release hi (some ⟨0⟩) (Or.inr rfl) (by simpa using hlen)
          refine h1.transfer _ ?_ ?_
          · intro o ho x hx
            show x.pointer_ < (IntrusivePtr.DeletePointer M.store a).next
            rw [next_DeletePointer]
            rcases List.mem_or_eq_of_mem_set ho with h2 | h2
            · rcases List.mem_or_eq_of_mem_set h2 with h3 | h3
              · exact hI.range o h3 x hx
              · subst h3
                cases hx
                exact hI.pos
            · subst h2
              cases hx
              exact hI.range _ (var_mem hj) b rfl
          · intro p hp
            show refs ((M.vars.set j (some ⟨0⟩)).set i (some ⟨b.pointer_⟩)) p
              = refs (M.vars.set i (some ⟨0⟩)) p
            have h0p : ¬ 0 = p := by omega
            have e1 := refs_set M.vars i (some a) (some ⟨0⟩) hl he p
            have e2 := refs_set M.vars j (some b) (some ⟨0⟩) hlj hej p
            have hl2 : i < (M.vars.set j (some (⟨0⟩ : IntrusivePtr))).length := by
              rw [List.length_set]
              exact hl
            have he2 : (M.vars.set j (some (⟨0⟩ : IntrusivePtr)))[i] = some a := by
              rw [List.getElem_set_ne (fun e => hij e.symm)]
              exact he
            have e3 := refs_set (M.vars.set j (some ⟨0⟩)) i (some a) (some ⟨b.pointer_⟩) hl2
              he2 p
            simp only [refersTo, decide_eq_true_eq, h0p, if_false] at e1 e2 e3
            omega
  | reset i =>
    simp only [istep] at hlen ⊢
    cases hi : M.var i with
    | none => simpa only [hi] using hI
    | some a =>
      simp only [hi] at hlen ⊢
      exact hI.release hi (some ⟨0⟩) (Or.inr rfl)
        (by simpa [IntrusivePtr.Reset] using hlen)
  | resetNew i =>
    simp only [istep] at hlen ⊢
    cases hi : M.var i with
    | none => simpa only [hi] using hI
    | some a =>
      simp only [hi] at hlen ⊢
      obtain ⟨hl, he⟩ := var_eq_some hi
      have h1 := hI.release hi (some ⟨0⟩) (Or.inr rfl)
        (by simpa [IntrusivePtr.ResetPtr] using hlen)
      have hv : (M.vars.set i (some (⟨0⟩ : IntrusivePtr))).getD i none = some ⟨0⟩ :=
        getD_set_self _ hl _ _
      have h2 := h1.adoptNew hv
      have e : (M.vars.set i (some (⟨0⟩ : IntrusivePtr))).set i (some ⟨M.store.next⟩)
          = M.vars.set i (some ⟨M.store.next⟩) := List.set_set _ _ _ _
      have hn : (IntrusivePtr.DeletePointer M.store a).next = M.store.next :=
        next_DeletePointer _ _
      have ha := alloc_DeletePointer M.store a (hI.range _ (var_mem hi) a rfl)
      simp only [hn, e, ← ha] at h2
      exact h2
  | resetGet i j =>
    simp only [istep] at hlen ⊢
    cases hi : M.var i with
    | none => simpa only [hi] using hI
    | some a =>
      cases hj : M.var j with
      | none => simpa only [hi, hj] using hI
      | some b =>
        simp only [hi, hj] at hlen ⊢
        have hij : i ≠ j := by simpa [IOp.ownPointer] using hop
        exact hI.reassign hi hj hij (by simpa [IntrusivePtr.ResetPtr] using hlen)
  | swap i j =>
    simp only [istep] at hlen ⊢
    cases hi : M.var i with
    | none => simpa only [hi] using hI
    | some a =>
      cases hj : M.var j with
      | none => simpa only [hi, hj] using hI
      | some b =>
        simp only [hi, hj]
        obtain ⟨hl, he⟩ := var_eq_some hi
        obtain ⟨hlj, hej⟩ := var_eq_some hj
        refine hI.transfer _ ?_ ?_
        · intro o ho x hx
          rcases List.mem_or_eq_of_mem_set ho with h2 | h2
          · rcases List.mem_or_eq_of_mem_set h2 with h3 | h3
            · exact hI.range o h3 x hx
            · subst h3
              cases hx
              exact hI.range _ (var_mem hi) a rfl
          · subst h2
            cases hx
            exact hI.range _ (var_mem hj) b rfl
        · intro p hp
          show refs ((M.vars.set j (some ⟨a.pointer_⟩)).set i (some ⟨b.pointer_⟩)) p
            = refs M.vars p
          have e2 := refs_set M.vars j (some b) (some ⟨a.pointer_⟩) hlj hej p
          have hl2 : i < (M.vars.set j (some (⟨a.pointer_⟩ : IntrusivePtr))).length := by
            rw [List.length_set]
            exact hl
          by_cases hij : i = j
          · subst hij
            have hab : a = b := by
              rw [hi] at hj
              exact Option.some.inj hj
            subst hab
            rw [List.set_set]
            have e1 := refs_set M.vars i (some a) (some ⟨a.pointer_⟩) hl he p
            simp only [refersTo, decide_eq_true_eq] at e1
            omega
          · have he2 : (M.vars.set j (some (⟨a.pointer_⟩ : IntrusivePtr)))[i] = some a := by
              rw [List.getElem_set_ne (fun e => hij e.symm)]
              exact he
            have e3 := refs_set (M.vars.set j (some ⟨a.pointer_⟩)) i (some a)
              (some ⟨b.pointer_⟩) hl2 he2 p
            simp only [refersTo, decide_eq_true_eq] at e2 e3
            omega
  | destroy i =>
    simp only [istep] at hlen ⊢
    cases hi : M.var i with
    | none => simpa only [hi] using hI
    | some a =>
      simp only [hi] at hlen ⊢
      exact hI.release hi none (Or.inl rfl) (by simpa using hlen)

theorem length_istep (M : IMachine) (op : IOp) :
    M.vars.length ≤ (istep M op).vars.length := by
  cases op <;> simp only [istep] <;> (repeat' split) <;> simp [IMachine.push]

theorem length_irun (ops : List IOp) (M : IMachine) :
    M.vars.length ≤ (irun M ops).vars.length := by
  induction ops generalizing M with
  | nil => exact Nat.le_refl _
  | cons op ops ih =>
    exact Nat.le_trans (length_istep M op) (ih (istep M op))

/-- The invariant holds after every program that resets no handle to its own
pointer and whose handles can still be counted in 64 bits. -/
theorem irun_inv (ops : List IOp) (M : IMachine) (hI : IInv M)
    (hops : ∀ op ∈ ops, op.ownPointer = false)
    (hlen : (irun M ops).vars.length < SIZE_MOD) : IInv (irun M ops) := by
  induction ops generalizing M with
  | nil => exact hI
  | cons op ops ih =>
    have h1 : (istep M op).vars.length < SIZE_MOD :=
      Nat.lt_of_le_of_lt (length_irun ops (istep M op)) hlen
    exact ih (istep M op) (istep_safe hI op (hops op (List.mem_cons_self _ _)) h1)
      (fun o ho => hops o (List.mem_cons_of_mem _ ho)) hlen

/-- After every program of `IntrusivePtr` statements (construction from a
raw pointer, copy, move, copy and move assignment, `Reset` and destruction)
that resets no handle to its own pointer and
whose handles can be counted in 64 bits, the `RefCount()` of a pointee and the
`UseCount()` of every handle on it are the number of live handles that reference
it; a copy raises that number and the counter by exactly one, a move leaves
both as they are; destroying or resetting a handle takes one reference away and
runs `Deleter::Destroy` exactly if it was the last one; and in every such state
`Deleter::Destroy` has run once on an allocated pointee without live handles
and not at all on any other. -/
theorem RefCount_counts_handles (ops : List IOp) (M : IMachine)
    (hM : M = irun IMachine.init ops) (hops : ∀ op ∈ ops, op.ownPointer = false)
    (hlen : M.vars.length + 1 < SIZE_MOD) :
    (∀ i h, M.var i = some h → h.pointer_ ≠ 0 →
      (M.store.objs h.pointer_).RefCount = refs M.vars h.pointer_ ∧
      h.UseCount M.store = refs M.vars h.pointer_ ∧
      1 ≤ refs M.vars h.pointer_ ∧
      ((istep M (.copy i)).store.objs h.pointer_).RefCount
        = (M.store.objs h.pointer_).RefCount + 1 ∧
      refs (istep M (.copy i)).vars h.pointer_ = refs M.vars h.pointer_ + 1 ∧
      (istep M (.move i)).store = M.store ∧
      refs (istep M (.move i)).vars h.pointer_ = refs M.vars h.pointer_ ∧
      refs (istep M (.destroy i)).vars h.pointer_ + 1 = refs M.vars h.pointer_ ∧
      ((istep M (.destroy i)).store.objs h.pointer_).destroyed
        = (if refs M.vars h.pointer_ = 1 then 1 else 0) ∧
      refs (istep M (.reset i)).vars h.pointer_ + 1 = refs M.vars h.pointer_ ∧
      ((istep M (.reset i)).store.objs h.pointer_).destroyed
        = (if refs M.vars h.pointer_ = 1 then 1 else 0)) ∧
    (∀ p, (M.store.objs p).destroyed
      = if 1 ≤ p ∧ p < M.store.next ∧ refs M.vars p = 0 then 1 else 0) := by
  have hI : IInv M := by
    subst hM
    exact irun_inv ops _ IInv.atInit hops (by omega)
  refine ⟨?_, ?_⟩
  · intro i h hs h0
    obtain ⟨hl, he⟩ := var_eq_some hs
    have hp : 1 ≤ h.pointer_ := by omega
    have hr : 1 ≤ refs M.vars h.pointer_ := refs_pos_of_mem (var_mem hs)
    have hn : h.pointer_ < M.store.next := hI.range _ (var_mem hs) h rfl
    obtain ⟨hc, hd⟩ := hI.counted h.pointer_ hp hr
    -- copy
    have ec : istep M (.copy i)
        = { store := IntrusivePtr.AddPointer M.store ⟨h.pointer_⟩,
            vars := M.vars ++ [some ⟨h.pointer_⟩] } := by
      simp [istep, hs, IntrusivePtr.copy, IMachine.push]
    have hIc : IInv (istep M (.copy i)) := istep_safe hI _ rfl (by
      rw [ec]
      show (M.vars ++ [some (⟨h.pointer_⟩ : IntrusivePtr)]).length < SIZE_MOD
      rw [List.length_append]
      exact hlen)
    have hrc : refs (istep M (.copy i)).vars h.pointer_ = refs M.vars h.pointer_ + 1 := by
      rw [ec]
      show refs (M.vars ++ [some ⟨h.pointer_⟩]) h.pointer_ = _
      rw [refs_push]
      simp
    have hcc := (hIc.counted h.pointer_ hp (by omega)).1
    -- move
    have em : istep M (.move i)
        = { store := M.store, vars := M.vars.set i (some ⟨0⟩) ++ [some ⟨h.pointer_⟩] } := by
      simp [istep, hs, IntrusivePtr.move]
    have hrm : refs (istep M (.move i)).vars h.pointer_ = refs M.vars h.pointer_ := by
      rw [em]
      show refs (M.vars.set i (some ⟨0⟩) ++ [some ⟨h.pointer_⟩]) h.pointer_ = _
      have h1 := refs_set M.vars i (some h) (some ⟨0⟩) hl he h.pointer_
      have h2 := refs_push (M.vars.set i (some ⟨0⟩)) ⟨h.pointer_⟩ h.pointer_
      have h0p : ¬ 0 = h.pointer_ := by omega
      simp only [refersTo, decide_eq_true_eq, h0p, if_false, if_true] at h1 h2
      omega
    -- destroy
    have ed : istep M (.destroy i)
        = { store := IntrusivePtr.DeletePointer M.store h, vars := M.vars.set i none } := by
      simp [istep, hs]
    have hId : IInv (istep M (.destroy i)) := istep_safe hI _ rfl (by
      rw [ed]
      show (M.vars.set i none).length < SIZE_MOD
      rw [List.length_set]
      omega)
    have hrd : refs (istep M (.destroy i)).vars h.pointer_ + 1 = refs M.vars h.pointer_ := by
      rw [ed]
      show refs (M.vars.set i none) h.pointer_ + 1 = _
      have h1 := refs_set M.vars i (some h) none hl he h.pointer_
      simp only [refersTo, decide_eq_true_eq, if_true] at h1
      simpa using h1
    have hnd : (istep M (.destroy i)).store.next = M.store.next := by
      rw [ed]
      exact next_DeletePointer _ _
    have hdd : ((istep M (.destroy i)).store.objs h.pointer_).destroyed
        = (if refs M.vars h.pointer_ = 1 then 1 else 0) := by
      by_cases h1 : refs M.vars h.pointer_ = 1
      · rw [if_pos h1]
        exact hId.gone h.pointer_ hp (by omega) (by omega)
      · rw [if_neg h1]
        exact (hId.counted h.pointer_ hp (by omega)).2
    -- reset
    have er : istep M (.reset i)
        = { store := IntrusivePtr.DeletePointer M.store h,
            vars := M.vars.set i (some ⟨0⟩) } := by
      simp [istep, hs, IntrusivePtr.Reset]
    have hIr : IInv (istep M (.reset i)) := istep_safe hI _ rfl (by
      rw [er]
      show (M.vars.set i (some (⟨0⟩ : IntrusivePtr))).length < SIZE_MOD
      rw [List.length_set]
      omega)
    have hrr : refs (istep M (.reset i)).vars h.pointer_ + 1 = refs M.vars h.pointer_ := by
      rw [er]
      show refs (M.vars.set i (some ⟨0⟩)) h.pointer_ + 1 = _
      have h1 := refs_set M.vars i (some h) (some ⟨0⟩) hl he h.pointer_
      have h0p : ¬ 0 = h.pointer_ := by omega
      simp only [refersTo, decide_eq_true_eq, if_true, h0p, if_false] at h1
      omega
    have hnr : (istep M (.reset i)).store.next = M.store.next := by
      rw [er]
      exact next_DeletePointer _ _
    have hdr : ((istep M (.reset i)).store.objs h.pointer_).destroyed
        = (if refs M.vars h.pointer_ = 1 then 1 else 0) := by
      by_cases h1 : refs M.vars h.pointer_ = 1
      · rw [if_pos h1]
        exact hIr.gone h.pointer_ hp (by omega) (by omega)
      · rw [if_neg h1]
        exact (hIr.counted h.pointer_ hp (by omega)).2
    refine ⟨hc, ?_, hr, ?_, hrc, ?_, hrm, hrd, hdd, hrr, hdr⟩
    · simp only [IntrusivePtr.UseCount, ne_eq, h0, not_false_eq_true, if_true]
      exact hc
    · show ((istep M (.copy i)).store.objs h.pointer_).count_
        = (M.store.objs h.pointer_).count_ + 1
      omega
    · rw [em]
  · intro p
    by_cases hc : 1 ≤ p ∧ p < M.store.next ∧ refs M.vars p = 0
    · rw [if_pos hc]
      exact hI.gone p hc.1 hc.2.1 hc.2.2
    · rw [if_neg hc]
      by_cases hf : p = 0 ∨ M.store.next ≤ p
      · rw [hI.fresh p hf]
      · exact (hI.counted p (by omega) (by omega)).2

/-- The counting facts at the hand-over example: the pointee at address 1 is
referenced by variable 2 alone. -/
theorem RefCount_counts_handles_witness :
    handover.vars.length + 1 < SIZE_MOD ∧
    ((∀ i h, handover.var i = some h → h.pointer_ ≠ 0 →
      (handover.store.objs h.pointer_).RefCount = refs handover.vars h.pointer_ ∧
      h.UseCount handover.store = refs handover.vars h.pointer_ ∧
      1 ≤ refs handover.vars h.pointer_ ∧
      ((istep handover (.copy i)).store.objs h.pointer_).RefCount
        = (handover.store.objs h.pointer_).RefCount + 1 ∧
      refs (istep handover (.copy i)).vars h.pointer_ = refs handover.vars h.pointer_ + 1 ∧
      (istep handover (.move i)).store = handover.store ∧
      refs (istep handover (.move i)).vars h.pointer_ = refs handover.vars h.pointer_ ∧
      refs (istep handover (.destroy i)).vars h.pointer_ + 1
        = refs handover.vars h.pointer_ ∧
      ((istep handover (.destroy i)).store.objs h.pointer_).destroyed
        = (if refs handover.vars h.pointer_ = 1 then 1 else 0) ∧
      refs (istep handover (.reset i)).vars h.pointer_ + 1 = refs handover.vars h.pointer_ ∧
      ((istep handover (.reset i)).store.objs h.pointer_).destroyed
        = (if refs handover.vars h.pointer_ = 1 then 1 else 0)) ∧
    (∀ p, (handover.store.objs p).destroyed
      = if 1 ≤ p ∧ p < handover.store.next ∧ refs handover.vars p = 0 then 1 else 0)) :=
  ⟨by decide,
   RefCount_counts_handles [.make, .copy 0, .move 1, .destroy 0] handover rfl (by decide)
     (by decide)⟩

/-- The sole handle on a pointee resets itself to its own pointer,
`h.Reset(h.Get())`: `DeletePointer` destroys the pointee before `AddPointer`
counts the handle again, so the handle is left on a destroyed pointee. -/
theorem ResetPtr_own_pointer (st : Store) (h : IntrusivePtr) (h0 : h.pointer_ ≠ 0)
    (h1 : (st.objs h.pointer_).count_ = 1) :
    ((IntrusivePtr.ResetPtr st h h.Get).1.objs h.pointer_).destroyed
        = (st.objs h.pointer_).destroyed + 1 ∧
      ((IntrusivePtr.ResetPtr st h h.Get).1.objs h.pointer_).count_ = 1 ∧
      (IntrusivePtr.ResetPtr st h h.Get).2 = h := by
  have d1 : decr 1 = 0 := by decide
  have i0 : incr 0 = 1 := by decide
  simp [IntrusivePtr.ResetPtr, IntrusivePtr.Get, IntrusivePtr.AddPointer,
    IntrusivePtr.DeletePointer, Store.upd, RefCounted.DecRef, RefCounted.IncRef,
    RefCounted.RefCount, RefCounted.Destroy, SimpleCounter.IncRef, SimpleCounter.DecRef, h0, h1,
    d1, i0]

/-! ## `RefCounted::DecRef` -/

/-- C21 as stated fails: `DecRef()` on a pointee whose counter is 1, not 0,
runs `Deleter::Destroy` (and leaves the counter at 0). -/
theorem DecRef_destroys_at_one :
    (⟨1, 0⟩ : RefCounted).RefCount = 1 ∧
    (RefCounted.DecRef ⟨1, 0⟩).destroyed = (⟨1, 0⟩ : RefCounted).destroyed + 1 ∧
    (RefCounted.DecRef ⟨1, 0⟩).RefCount = 0 ∧
    ¬ ((RefCounted.DecRef ⟨1, 0⟩).destroyed = (⟨1, 0⟩ : RefCounted).destroyed + 1 ↔
        (⟨1, 0⟩ : RefCounted).RefCount = 0) := by
  decide

/-- C21, amended: `DecRef()` runs `Deleter::Destroy` (once) when, and only
when, it is called with the counter at zero or at one; called with the counter
at zero it does not decrement it, otherwise it decrements it by exactly one. -/
theorem DecRef_destroys_iff (o : RefCounted) (h : o.RefCount < SIZE_MOD) :
    (o.DecRef.destroyed = o.destroyed + 1 ↔ o.RefCount = 0 ∨ o.RefCount = 1) ∧
    (o.DecRef.destroyed = o.destroyed ↔ ¬ (o.RefCount = 0 ∨ o.RefCount = 1)) ∧
    (o.RefCount = 0 → o.DecRef.RefCount = 0) ∧
    (o.RefCount ≠ 0 → o.DecRef.RefCount + 1 = o.RefCount) := by
  have h2 : o.count_ < SIZE_MOD := h
  by_cases h0 : o.count_ = 0
  · simp [RefCounted.DecRef, RefCounted.RefCount, RefCounted.Destroy, h0]
  · have hd := @RefCounted.DecRef_of_pos o (by omega) h2
    by_cases h1 : o.count_ = 1
    · rw [hd, if_pos h1]
      simp [RefCounted.RefCount, h1]
    · rw [hd, if_neg h1]
      simp only [RefCounted.RefCount]
      refine ⟨?_, ?_, ?_, ?_⟩
      · constructor
        · intro e
          omega
        · intro e
          omega
      · constructor
        · intro _ e
          omega
        · intro _
          trivial
      · intro e
        omega
      · intro _
        omega

/-- The amended C21 at a pointee whose counter is 0. -/
theorem DecRef_destroys_iff_witness :
    (⟨0, 0⟩ : RefCounted).RefCount < SIZE_MOD ∧
    (((⟨0, 0⟩ : RefCounted).DecRef.destroyed = (⟨0, 0⟩ : RefCounted).destroyed + 1 ↔
        (⟨0, 0⟩ : RefCounted).RefCount = 0 ∨ (⟨0, 0⟩ : RefCounted).RefCount = 1) ∧
     ((⟨0, 0⟩ : RefCounted).DecRef.destroyed = (⟨0, 0⟩ : RefCounted).destroyed ↔
        ¬ ((⟨0, 0⟩ : RefCounted).RefCount = 0 ∨ (⟨0, 0⟩ : RefCounted).RefCount = 1)) ∧
     ((⟨0, 0⟩ : RefCounted).RefCount = 0 → (⟨0, 0⟩ : RefCounted).DecRef.RefCount = 0) ∧
     ((⟨0, 0⟩ : RefCounted).RefCount ≠ 0 →
        (⟨0, 0⟩ : RefCounted).DecRef.RefCount + 1 = (⟨0, 0⟩ : RefCounted).RefCount)) :=
  ⟨by decide, DecRef_destroys_iff ⟨0, 0⟩ (by decide)⟩

/-! ## After the last owner -/

/-- C22: in `expiredBlock`, for either kind of block, the count is zero, the
object has been destroyed and the observer `w` is expired.  On the
`ControlBlockPtr`, while the handle returned by `w.Lock()` is kept, `w` reports
`Expired() == false` and a further `Lock()` returns the address of the
destroyed object; on the `ControlBlockEmplace` the same is the case once the
handle returned by `w.Lock()` has been destroyed. -/
theorem expiry_undone_by_Lock :
    ((expiredBlock false).wk 0 = some (observerOf 100 false) ∧
     ((expiredBlock false).heap.blocks 0).strong_count = 0 ∧
     ((expiredBlock false).heap.blocks 0).destroyed = 1 ∧
     WeakPtr.Expired (expiredBlock false).heap (observerOf 100 false) = true) ∧
    ((run (expiredBlock false) [.lock 0]).wk 0 = some (observerOf 100 false) ∧
     WeakPtr.Expired (run (expiredBlock false) [.lock 0]).heap (observerOf 100 false) = false ∧
     (WeakPtr.Lock (run (expiredBlock false) [.lock 0]).heap (observerOf 100 false)).2.Get
       = 100) ∧
    ((expiredBlock true).wk 0 = some (observerOf 100 false) ∧
     ((expiredBlock true).heap.blocks 0).strong_count = 0 ∧
     ((expiredBlock true).heap.blocks 0).destroyed = 1 ∧
     WeakPtr.Expired (expiredBlock true).heap (observerOf 100 false) = true) ∧
    ((run (expiredBlock true) [.lock 0, .destroy 1]).wk 0 = some (observerOf 100 false) ∧
     ((run (expiredBlock true) [.lock 0, .destroy 1]).heap.blocks 0).strong_count
       = SIZE_MOD - 1 ∧
     WeakPtr.Expired (run (expiredBlock true) [.lock 0, .destroy 1]).heap
       (observerOf 100 false) = false ∧
     (WeakPtr.Lock (run (expiredBlock true) [.lock 0, .destroy 1]).heap
       (observerOf 100 false)).2.Get = 100) := by
  decide

/-- C23: in `freedUnderLock true` the `ControlBlockEmplace` has been deleted by
`w.Reset()` (and just as well by `~WeakPtr`) while the live handle `s` still
has it as its block, and the destructor of `s` then accesses the deleted
block.  On a `ControlBlockPtr` the same program keeps the block until `s` is
destroyed. -/
theorem block_freed_under_lock_handle :
    (((run (expiredBlock true) [.lock 0]).heap.blocks 0).freed = 0 ∧
     (freedUnderLock true).sh 1 = some ⟨some 0, 0⟩ ∧
     (freedUnderLock true).wk 0 = some ⟨none, 0, false⟩ ∧
     ((freedUnderLock true).heap.blocks 0).freed = 1 ∧
     (freedUnderLock true).heap.faults = 0 ∧
     (step (freedUnderLock true) (.destroy 1)).heap.faults = 1) ∧
    ((run (expiredBlock true) [.lock 0, .weakDestroy 0]).sh 1 = some ⟨some 0, 0⟩ ∧
     ((run (expiredBlock true) [.lock 0, .weakDestroy 0]).heap.blocks 0).freed = 1) ∧
    ((freedUnderLock false).sh 1 = some ⟨some 0, 0⟩ ∧
     ((freedUnderLock false).heap.blocks 0).freed = 0 ∧
     ((step (freedUnderLock false) (.destroy 1)).heap.blocks 0).freed = 1 ∧
     (step (freedUnderLock false) (.destroy 1)).heap.faults = 0) := by
  decide

/-- C17: in `selfReset` the one live handle `p` still references its pointee
and `RefCount()` is 1, the number of live handles, but `Deleter::Destroy` has
already run on the pointee; destroying `p` runs it a second time.  Before
`p.Reset(p.Get())` nothing had been destroyed, and the self-assignment `p = p`
in its place destroys nothing. -/
theorem Reset_to_own_pointer_destroys :
    ((irun IMachine.init [.make]).var 0 = some ⟨1⟩ ∧
     ((irun IMachine.init [.make]).store.objs 1).RefCount = 1 ∧
     ((irun IMachine.init [.make]).store.objs 1).destroyed = 0) ∧
    (selfReset.var 0 = some ⟨1⟩ ∧ refs selfReset.vars 1 = 1 ∧
     (selfReset.store.objs 1).RefCount = 1 ∧
     IntrusivePtr.UseCount selfReset.store ⟨1⟩ = 1 ∧
     (selfReset.store.objs 1).destroyed = 1) ∧
    ((istep selfReset (.destroy 0)).vars = [none] ∧
     ((istep selfReset (.destroy 0)).store.objs 1).destroyed = 2) ∧
    (((irun IMachine.init [.make, .copyAssign 0 0]).store.objs 1).destroyed = 0 ∧
     ((irun IMachine.init [.make, .copyAssign 0 0, .destroy 0]).store.objs 1).destroyed = 1) := by
  decide

/-! ## Assigning a managed object -/

/-- C9: in `objectAssigned` the object of `sp1` was created by `MakeShared`,
has the `EnableSharedFromThis` base, has not been destroyed and is held by
`sp1` with `UseCount() == 1`, but its `weak_this_` observes the object of
`sp2`: `sp1->SharedFromThis()` returns a handle `h` (owner variable 2) with
`h.Get() == sp2.Get()`, which is not `sp1.Get()`, and while `h` is live
`sp1.UseCount()` is still 1 (it is `sp2.UseCount()` that went up to 2).  Before
the assignment `sp1->SharedFromThis()` returned a handle on the object of
`sp1`. -/
theorem SharedFromThis_after_object_assignment :
    (objectAssigned.sh 0 = some ⟨some 0, 100⟩ ∧ objectAssigned.sh 1 = some ⟨some 1, 200⟩ ∧
     (objectAssigned.heap.blocks 0).emplace = true ∧
     (objectAssigned.heap.blocks 0).destroyed = 0 ∧
     (objectAssigned.heap.blocks 0).pointer_ = 100 ∧
     SharedPtr.UseCount objectAssigned.heap ⟨some 0, 100⟩ = 1 ∧
     SharedPtr.UseCount objectAssigned.heap ⟨some 1, 200⟩ = 1 ∧
     (objectAssigned.heap.blocks 0).weak_this_ = some ⟨some 1, 200, true⟩) ∧
    ((step objectAssigned (.sharedFromThis 0)).sh 2 = some ⟨some 1, 200⟩ ∧
     SharedPtr.UseCount (step objectAssigned (.sharedFromThis 0)).heap ⟨some 0, 100⟩ = 1 ∧
     SharedPtr.UseCount (step objectAssigned (.sharedFromThis 0)).heap ⟨some 1, 200⟩ = 2) ∧
    ((run Machine.init [.makeShared 100 true, .makeShared 200 true, .sharedFromThis 0]).sh 2
       = some ⟨some 0, 100⟩ ∧
     SharedPtr.UseCount
       (run Machine.init [.makeShared 100 true, .makeShared 200 true, .sharedFromThis 0]).heap
       ⟨some 0, 100⟩ = 2) := by
  decide

/-! ## Assignment from a member of the released object -/

/-- On a handle whose block manages an object without `SharedPtr` members,
`Nest.DeleteBlock` is `SharedPtr.DeleteBlock`. -/
theorem Nest.DeleteBlock_without_members (fuel : Nat) (N : Nest) (h : SharedPtr)
    (hm : ∀ b, h.block_ = some b → N.members b = []) :
    Nest.DeleteBlock (fuel + 1) N h = some { N with heap := SharedPtr.DeleteBlock N.heap h } := by
  unfold Nest.DeleteBlock SharedPtr.DeleteBlock
  cases hb : h.block_ with
  | none => rfl
  | some b =>
    simp only [hm b hb, List.foldl_nil]
    generalize (N.heap.touch b).upd b
      { (N.heap.touch b).blocks b with
        strong_count := decr ((N.heap.touch b).blocks b).strong_count } = s2
    by_cases h0 : (s2.blocks b).strong_count = 0
    · rw [if_pos h0, if_pos h0]
      by_cases ha : (s2.blocks b).alive = true
      · rw [if_pos ha, if_pos ha]
        simp only [Option.map_some']
      · rw [if_neg ha, if_neg ha]
        simp only [Option.map_some']
    · rw [if_neg h0, if_neg h0]

/-- C1: in `linkedShared` the block of the second node is referenced by the
live handles `a->next` and `c` and its `UseCount()` is 2.  After
`a = std::move(a->next);`, `a` being the sole owner of the first node, the live
handles `a` and `c` both reference that block, but its `UseCount()` is 1: the
release of the first node destroyed `a->next` before `operator=` read it.
Destroying `c` then destroys the second node and deletes its block although the
live handle `a` still references it.  Both kinds of block behave alike. -/
theorem UseCount_after_move_from_member :
    ((linkedShared false).map (fun N =>
        ((N.slot 0).map Slot.value, (N.slot 1).map Slot.value, (N.slot 2).map Slot.value,
          N.owners 1, SharedPtr.UseCount N.heap ⟨some 1, 200⟩))
      = some (some ⟨some 0, 100⟩, some ⟨some 1, 200⟩, some ⟨some 1, 200⟩, 2, 2)) ∧
    (((linkedShared false).bind (fun N => Nest.moveAssign 8 N 0 1)).map (fun N =>
        (N.slot 0, N.slot 2, N.owners 1, SharedPtr.UseCount N.heap ⟨some 1, 200⟩,
          (N.heap.blocks 1).destroyed, N.stale))
      = some (some ⟨⟨some 1, 200⟩, none, false⟩, some ⟨⟨some 1, 200⟩, none, false⟩, 2, 1, 0, 1)) ∧
    (((linkedShared false).bind (fun N =>
        Nest.run 8 N [.moveAssign 0 1, .destroy 2])).map (fun N =>
        (N.slot 0, (N.heap.blocks 1).destroyed, (N.heap.blocks 1).freed))
      = some (some ⟨⟨some 1, 200⟩, none, false⟩, 1, 1)) ∧
    (((linkedShared true).bind (fun N => Nest.moveAssign 8 N 0 1)).map (fun N =>
        (N.slot 0, N.slot 2, N.owners 1, SharedPtr.UseCount N.heap ⟨some 1, 200⟩,
          (N.heap.blocks 1).destroyed, N.stale))
      = some (some ⟨⟨some 1, 200⟩, none, false⟩, some ⟨⟨some 1, 200⟩, none, false⟩, 2, 1, 0, 1)) := by
  refine ⟨?_, ?_, ?_, ?_⟩ <;> decide

/-- C19: in `linkedSole` the distinct handles `a` and `b = a->next` are the sole
owners of the first and of the second node.  `a = a->next;` releases the first
node, whose destructor destroys `b` and with it the second node and its block;
only then `operator=` reads `b` (a destroyed handle) and increments
`strong_count` in the deleted block: afterwards `a` is live on a deleted block
whose object is gone.  `a = std::move(a->next);` ends the same way, without the
increment.  Both kinds of block behave alike. -/
theorem assignment_from_member_of_released :
    ((linkedSole false).map (fun N =>
        (N.slot 0, N.slot 1, (N.heap.blocks 0).strong_count, (N.heap.blocks 1).strong_count))
      = some (some ⟨⟨some 0, 100⟩, none, false⟩, some ⟨⟨some 1, 200⟩, some 0, false⟩, 1, 1)) ∧
    ((linkedSole false).map (fun N =>
        ((N.heap.blocks 1).destroyed, (N.heap.blocks 1).freed, N.heap.faults, N.stale))
      = some (0, 0, 0, 0)) ∧
    (((linkedSole false).bind (fun N => Nest.copyAssign 8 N 0 1)).map (fun N =>
        (N.slot 0, (N.slot 1).map Slot.dead, N.stale))
      = some (some ⟨⟨some 1, 200⟩, none, false⟩, some true, 1)) ∧
    (((linkedSole false).bind (fun N => Nest.copyAssign 8 N 0 1)).map (fun N =>
        ((N.heap.blocks 0).destroyed, (N.heap.blocks 1).destroyed, (N.heap.blocks 1).freed,
          N.heap.faults))
      = some (1, 1, 1, 1)) ∧
    (((linkedSole false).bind (fun N => Nest.moveAssign 8 N 0 1)).map (fun N =>
        (N.slot 0, (N.slot 1).map Slot.dead, N.stale))
      = some (some ⟨⟨some 1, 200⟩, none, false⟩, some true, 1)) ∧
    (((linkedSole false).bind (fun N => Nest.moveAssign 8 N 0 1)).map (fun N =>
        ((N.heap.blocks 0).destroyed, (N.heap.blocks 1).destroyed, (N.heap.blocks 1).freed,
          N.heap.faults))
      = some (1, 1, 1, 0)) ∧
    (((linkedSole true).bind (fun N => Nest.copyAssign 8 N 0 1)).map (fun N =>
        (N.slot 0, (N.slot 1).map Slot.dead, N.stale))
      = some (some ⟨⟨some 1, 200⟩, none, false⟩, some true, 1)) ∧
    (((linkedSole true).bind (fun N => Nest.copyAssign 8 N 0 1)).map (fun N =>
        ((N.heap.blocks 0).destroyed, (N.heap.blocks 1).destroyed, (N.heap.blocks 1).freed,
          N.heap.faults))
      = some (1, 1, 1, 1)) ∧
    (((linkedSole true).bind (fun N => Nest.moveAssign 8 N 0 1)).map (fun N =>
        (N.slot 0, (N.slot 1).map Slot.dead, N.stale))
      = some (some ⟨⟨some 1, 200⟩, none, false⟩, some true, 1)) ∧
    (((linkedSole true).bind (fun N => Nest.moveAssign 8 N 0 1)).map (fun N =>
        ((N.heap.blocks 0).destroyed, (N.heap.blocks 1).destroyed, (N.heap.blocks 1).freed,
          N.heap.faults))
      = some (1, 1, 1, 0)) := by
  refine ⟨?_, ?_, ?_, ?_, ?_, ?_, ?_, ?_, ?_, ?_⟩ <;> decide

end SmartPtrs
